import Mathlib

/-!
# dlib manifold regularization: graph creation and linear manifold regularizer

A shallow embedding of `dlib/manifold_regularization/graph_creation.h` and
`dlib/manifold_regularization/linear_manifold_regularizer.h`, followed by the
properties proved about it.

Conventions of the embedding:

* a sample set is seen through its size `n` and the distance function on
  indices, `dist_funct i j` standing for `dist_funct(samples[i], samples[j])`;
* a `float` distance is only ever compared, never computed with, so it is
  represented by its position in the order of the non-NaN floats (an `Int`):
  `FLT_MAX` is the position of the largest finite float and `FLT_INF`, the
  next one, that of `+infinity`;
* the scalar arithmetic of the regularizer is exact: the scalars are the
  elements of an arbitrary commutative ring `R`;
* the `double` values of the sampler (`percent`, a size converted to `double`,
  their product) are the rational numbers they denote, and a result of
  `double` arithmetic is the nearest `double` to the exact result, ties to
  even; the values at hand are far below the overflow threshold;
* iterators into a vector are offsets (`Nat`) into the list of its elements;
* an `unsigned long` is a natural number: the counters and indices of the
  code are bounded by the sizes of its vectors and do not wrap around;
* the library routines `std::sort`, `chol` and `inv_lower_triangular` are
  parameters of the functions that call them, bound by their contracts.
-/

namespace dlib

/-! ## Definitions -/

/-- Modelled from the spec: the edge type `sample_pair`, whose header is not part of
the sources at hand. An edge is two sample indices and a distance. -/
structure sample_pair where
  index1 : Nat
  index2 : Nat
  distance : Int
deriving DecidableEq, Repr

/-- Position of `std::numeric_limits<float>::max()` in the order of floats. -/
def FLT_MAX : Int := 2139095039

/-- Position of `+infinity` in the order of floats, right above `FLT_MAX`. -/
def FLT_INF : Int := 2139095040

/-- Modelled from the spec: a default-constructed `sample_pair`, the sentinel that fills a
window slot before any candidate is stored: distance infinity, both indices 0. -/
def sample_pair.default : sample_pair := ⟨0, 0, FLT_INF⟩

/-- Modelled from the spec: the unordered index pair of an edge,
`(min(index1,index2), max(index1,index2))`, over which equality and the index
ordering of edges are defined. -/
def sample_pair.key (e : sample_pair) : Nat × Nat :=
  (min e.index1 e.index2, max e.index1 e.index2)

/-- Modelled from the spec: `operator==` of `sample_pair`: two edges are the same when
they connect the same unordered pair, whatever their distances. -/
def sample_pair.same (a b : sample_pair) : Bool :=
  decide (a.key = b.key)

/-- Modelled from the spec: the comparator `order_by_index`, the lexicographic order of
the unordered index pairs. -/
def order_by_index (a b : sample_pair) : Bool :=
  decide (a.key.1 < b.key.1 ∨ (a.key.1 = b.key.1 ∧ a.key.2 < b.key.2))

/-- Modelled from the spec: the comparator `order_by_distance`. -/
def order_by_distance (a b : sample_pair) : Bool :=
  decide (a.distance < b.distance)

/-- The contract of `std::sort(first, last, comp)`: the result is a rearrangement of the
input in which no element compares before an element that precedes it. -/
def IsStdSort {α : Type} (comp : α → α → Bool) (sort : List α → List α) : Prop :=
  ∀ l, (sort l).Perm l ∧ (sort l).Pairwise (fun a b => comp b a = false)

/-- One implementation of `std::sort`, an insertion sort, used to run the embedding on
inputs. -/
def std_sort {α : Type} (comp : α → α → Bool) (l : List α) : List α :=
  l.insertionSort (fun a b => comp b a = false)

/-! ### `undirected_adjacency_list` -/

/-- The struct `undirected_adjacency_list::neighbor`. -/
structure neighbor (R : Type) where
  index : Nat
  weight : R
deriving DecidableEq, Repr

/-- The default constructor `neighbor()`: index 0 and weight 0. -/
def neighbor.default {R : Type} [Zero R] : neighbor R := ⟨0, 0⟩

/-- The class `undirected_adjacency_list`: `blocks` holds offsets into `data`. -/
structure undirected_adjacency_list (R : Type) where
  data : List (neighbor R)
  blocks : List Nat
  _size : Nat

/-- Body of the first loop of `build`: grow `num_neighbors` to cover both indices of the
edge, then count the edge at each of its endpoints. -/
def count_step (num_neighbors : List Nat) (e : sample_pair) : List Nat :=
  let min_size := max e.index1 e.index2 + 1
  let nn1 := if num_neighbors.length < min_size
    then num_neighbors ++ List.replicate (min_size - num_neighbors.length) 0
    else num_neighbors
  let nn2 := nn1.set e.index1 (nn1.getD e.index1 0 + 1)
  nn2.set e.index2 (nn2.getD e.index2 0 + 1)

/-- First loop of `build`: the number of neighbors of each node. -/
def count_neighbors (edges : List sample_pair) : List Nat :=
  edges.foldl count_step []

/-- Second loop of `build`: `blocks[0] = data.begin()` and
`blocks[i+1] = blocks[i] + num_neighbors[i]`, on a vector of `_size + 1` iterators. -/
def make_blocks (num_neighbors : List Nat) : List Nat :=
  (List.range num_neighbors.length).foldl
    (fun blocks i => blocks.set (i + 1) (blocks.getD i 0 + num_neighbors.getD i 0))
    (List.replicate (num_neighbors.length + 1) 0)

/-- The statement `*mutable_blocks[idx]++ = rec`: store the record where the cursor of
node `idx` points, then advance that cursor by one slot. -/
def cursor_write {R : Type} (st : List (neighbor R) × List Nat) (idx : Nat)
    (rec : neighbor R) : List (neighbor R) × List Nat :=
  (st.1.set (st.2.getD idx 0) rec, st.2.set idx (st.2.getD idx 0 + 1))

/-- Body of the third loop of `build`: write the edge through the cursor of each endpoint,
`index1` first. The state is `(data, mutable_blocks)`. -/
def fill_step {R : Type} (weight_funct : sample_pair → R)
    (st : List (neighbor R) × List Nat) (e : sample_pair) : List (neighbor R) × List Nat :=
  let weight := weight_funct e
  cursor_write (cursor_write st e.index1 ⟨e.index2, weight⟩) e.index2 ⟨e.index1, weight⟩

/-- The member function `undirected_adjacency_list::build`, on a fresh object. -/
def undirected_adjacency_list.build {R : Type} [Zero R] (edges : List sample_pair)
    (weight_funct : sample_pair → R) : undirected_adjacency_list R :=
  let num_neighbors := count_neighbors edges
  let data0 : List (neighbor R) := List.replicate (edges.length * 2) neighbor.default
  let blocks := make_blocks num_neighbors
  let mutable_blocks := make_blocks num_neighbors
  let filled := edges.foldl (fill_step weight_funct) (data0, mutable_blocks)
  { data := filled.1, blocks := blocks, _size := num_neighbors.length }

/-- The member function `size()`. -/
def undirected_adjacency_list.size {R : Type} (g : undirected_adjacency_list R) : Nat :=
  g._size

/-- The member function `begin(idx)`. -/
def undirected_adjacency_list.begin {R : Type} (g : undirected_adjacency_list R)
    (idx : Nat) : Nat :=
  g.blocks.getD idx 0

/-- The member function `end(idx)`. -/
def undirected_adjacency_list.end_ {R : Type} (g : undirected_adjacency_list R)
    (idx : Nat) : Nat :=
  g.blocks.getD (idx + 1) 0

/-- The neighbor records met when iterating over `[begin(idx), end(idx))`. -/
def undirected_adjacency_list.records {R : Type} (g : undirected_adjacency_list R)
    (idx : Nat) : List (neighbor R) :=
  (g.data.drop (g.begin idx)).take (g.end_ idx - g.begin idx)

/-- The records that a scan of the edge list emits for node `i`: for every edge, in order,
one record per endpoint equal to `i`, holding the other endpoint and the weight. -/
def scan_records {R : Type} (weight_funct : sample_pair → R) (i : Nat) :
    List sample_pair → List (neighbor R)
  | [] => []
  | e :: es =>
    (if e.index1 = i then [(⟨e.index2, weight_funct e⟩ : neighbor R)] else []) ++
    (if e.index2 = i then [(⟨e.index1, weight_funct e⟩ : neighbor R)] else []) ++
    scan_records weight_funct i es

/-- The records that the edges incident to node `i` give, in the order of the edge list:
for each such edge, the other endpoint and the weight. -/
def incident_records {R : Type} (weight_funct : sample_pair → R) (i : Nat)
    (edges : List sample_pair) : List (neighbor R) :=
  (edges.filter (fun e => decide (e.index1 = i ∨ e.index2 = i))).map
    (fun e => ⟨if e.index1 = i then e.index2 else e.index1, weight_funct e⟩)

/-- Number of edges of the list that are incident to node `i`. -/
def incident_count (edges : List sample_pair) (i : Nat) : Nat :=
  edges.countP (fun e => decide (e.index1 = i ∨ e.index2 = i))

/-- Number of edge endpoints equal to `i`: an edge from `i` to `i` counts twice. -/
def endpoint_count (edges : List sample_pair) (i : Nat) : Nat :=
  edges.countP (fun e => decide (e.index1 = i)) + edges.countP (fun e => decide (e.index2 = i))

/-- The largest index referenced by an edge of the list (0 for the empty list). -/
def max_index (edges : List sample_pair) : Nat :=
  edges.foldl (fun m e => max m (max e.index1 e.index2)) 0

/-- No two entries at different positions connect the same unordered index pair. -/
def DuplicateFree (edges : List sample_pair) : Prop :=
  edges.Pairwise (fun a b => a.key ≠ b.key)

instance (edges : List sample_pair) : Decidable (DuplicateFree edges) := by
  unfold DuplicateFree; infer_instance

/-- Offset of the block of node `v`: the sum of the first `v` neighbor counts. -/
def block_offset (num_neighbors : List Nat) (v : Nat) : Nat :=
  (num_neighbors.take v).sum

/-- Invariant of the third loop of `build`, for a family `S` of per-node record lists
already written: the cursor of `v` stands right after the records of `v`, which occupy the
first slots of the block of `v`. -/
def FillInv {R : Type} (B : Nat → Nat) (N L : Nat) (S : Nat → List (neighbor R))
    (st : List (neighbor R) × List Nat) : Prop :=
  st.1.length = L ∧ st.2.length = N + 1 ∧
  ∀ v, v < N → st.2.getD v 0 = B v + (S v).length ∧
    ∀ t, t < (S v).length → st.1[B v + t]? = (S v)[t]?

/-! ### `linear_manifold_regularizer` -/

/-- The read `samples[a](d)` of coordinate `d` of sample `a`. -/
def sample_at {R : Type} [Zero R] (samples : List (List R)) (a d : Nat) : R :=
  (samples.getD a []).getD d 0

/-- The value `dims = samples[0].size()`. -/
def sample_dims {R : Type} (samples : List (List R)) : Nat :=
  (samples.getD 0 []).length

/-- Body of the loop over the neighbor records of a node, on the pair `(val, weight_sum)`:
`val -= beg->weight * samples[beg->index](d); weight_sum += beg->weight`. -/
def neighbor_step {R : Type} [CommRing R] (samples : List (List R)) (d : Nat)
    (acc : R × R) (nb : neighbor R) : R × R :=
  (acc.1 - nb.weight * sample_at samples nb.index d, acc.2 + nb.weight)

/-- The loop `for j < dims: reg_mat(d,j) += val*samples[i](j)`. -/
def row_update {R : Type} [CommRing R] (samples : List (List R)) (dims d i : Nat) (val : R)
    (reg_mat : Nat → Nat → R) : Nat → Nat → R :=
  (List.range dims).foldl
    (fun m j => fun a b => if a = d ∧ b = j then m d j + val * sample_at samples i j else m a b)
    reg_mat

/-- Body of the loop over the nodes `i` of `make_mr_matrix`, for the column `d` of `X`. -/
def node_update {R : Type} [CommRing R] (samples : List (List R))
    (graph : undirected_adjacency_list R) (dims d : Nat)
    (reg_mat : Nat → Nat → R) (i : Nat) : Nat → Nat → R :=
  if graph.begin i ≠ graph.end_ i then
    let acc := (graph.records i).foldl (neighbor_step samples d) (0, 0)
    let val := acc.1 + acc.2 * sample_at samples i d
    row_update samples dims d i val reg_mat
  else reg_mat

/-- The loops of `make_mr_matrix`, on the entries of `reg_mat`, all 0 at the start. -/
def make_mr_entries {R : Type} [CommRing R] (samples : List (List R))
    (graph : undirected_adjacency_list R) : Nat → Nat → R :=
  (List.range (sample_dims samples)).foldl
    (fun m d => (List.range graph.size).foldl
      (node_update samples graph (sample_dims samples) d) m)
    (fun _ _ => 0)

/-- The member function `make_mr_matrix`: the `dims x dims` matrix `reg_mat`. -/
def make_mr_matrix {R : Type} [CommRing R] (samples : List (List R))
    (graph : undirected_adjacency_list R) :
    Matrix (Fin (sample_dims samples)) (Fin (sample_dims samples)) R :=
  Matrix.of (fun d j => make_mr_entries samples graph d.val j.val)

/-- The member function `linear_manifold_regularizer::build`, returning `reg_mat`. -/
def linear_manifold_regularizer.build {R : Type} [CommRing R] (samples : List (List R))
    (edges : List sample_pair) (weight_funct : sample_pair → R) :
    Matrix (Fin (sample_dims samples)) (Fin (sample_dims samples)) R :=
  make_mr_matrix samples (undirected_adjacency_list.build edges weight_funct)

/-- The member function `get_transformation_matrix`. The matrix routines `chol` and
`inv_lower_triangular` belong to the matrix library and are parameters here. -/
def linear_manifold_regularizer.get_transformation_matrix {R : Type} [CommRing R] {n : Nat}
    (chol inv_lower_triangular : Matrix (Fin n) (Fin n) R → Matrix (Fin n) (Fin n) R)
    (reg_mat : Matrix (Fin n) (Fin n) R) (intrinsic_regularization_strength : R) :
    Matrix (Fin n) (Fin n) R :=
  inv_lower_triangular (chol (1 + intrinsic_regularization_strength • reg_mat))

/-- The graph Laplacian of a weighted edge list, entry `(a, b)`: on the diagonal the sum of
the weights of the edges incident to `a`, off the diagonal minus the weight of the edge
that connects `a` and `b`, or 0 when there is none. -/
def laplacian_entry {R : Type} [CommRing R] (edges : List sample_pair)
    (weight_funct : sample_pair → R) (a b : Nat) : R :=
  if a = b then
    ((edges.filter (fun e => decide (e.index1 = a ∨ e.index2 = a))).map weight_funct).sum
  else
    match edges.find? (fun e => decide (e.key = (min a b, max a b))) with
    | some e => - weight_funct e
    | none => 0

/-- The contribution of one edge to entry `(d, j)` of the regularization matrix. -/
def edge_term {R : Type} [CommRing R] (samples : List (List R))
    (weight_funct : sample_pair → R) (d j : Nat) (e : sample_pair) : R :=
  weight_funct e * (sample_at samples e.index1 d - sample_at samples e.index2 d) *
    (sample_at samples e.index1 j - sample_at samples e.index2 j)


/-! ### `graph_creation.h` -/

/-- Modelled from the spec: the constructor `sample_pair(idx1, idx2, dist)`, an edge created
by a distance function evaluation over a pair of samples. -/
def sample_pair.make (idx1 idx2 : Nat) (dist : Int) : sample_pair :=
  ⟨idx1, idx2, dist⟩

/-- The loop of `impl::iterator_of_worst`, with `cnt` elements left before `end`, the
iterator at `pos`, and the locals `dist` and `worst`. -/
def iterator_of_worst_loop (edges : List sample_pair) : Nat → Nat → Int → Nat → Nat
  | 0, _, _, worst => worst
  | cnt + 1, pos, dist, worst =>
    if (edges.getD pos sample_pair.default).distance > dist then
      iterator_of_worst_loop edges cnt (pos + 1) (edges.getD pos sample_pair.default).distance pos
    else
      iterator_of_worst_loop edges cnt (pos + 1) dist worst

/-- The function `impl::iterator_of_worst(begin, end)` on a range of the vector `edges`. -/
def iterator_of_worst (edges : List sample_pair) (begin end_ : Nat) : Nat :=
  iterator_of_worst_loop edges (end_ - begin) begin
    (edges.getD begin sample_pair.default).distance begin

/-- The vectors `edges` and `worst_dists` of `find_k_nearest_neighbors`. -/
structure knn_state where
  edges : List sample_pair
  worst_dists : List Int
deriving DecidableEq, Repr

/-- One of the two `if` statements of the inner loop body, for the node `node` whose
window is `[begin, begin + k)`:
`if (dist < worst_dists[node]) { *iterator_of_worst(begin, end) = sample_pair(i, j, dist);
worst_dists[node] = iterator_of_worst(begin, end)->distance(); }`. -/
def knn_update (k : Nat) (st : knn_state) (node begin i j : Nat) (dist : Int) : knn_state :=
  if dist < st.worst_dists.getD node 0 then
    let edges1 := st.edges.set (iterator_of_worst st.edges begin (begin + k))
      (sample_pair.make i j dist)
    { edges := edges1,
      worst_dists := st.worst_dists.set node
        (edges1.getD (iterator_of_worst edges1 begin (begin + k)) sample_pair.default).distance }
  else st

/-- The inner loop `for (j = i+1; j < samples.size(); ++j)`, with `cnt` iterations left.
The range ends are `end_i = begin_i + k` and `end_j = begin_j + k` throughout. -/
def knn_inner (dist_funct : Nat → Nat → Int) (k i begin_i : Nat) :
    Nat → Nat → Nat → knn_state → knn_state
  | 0, _, _, st => st
  | cnt + 1, j, begin_j, st =>
    let dist := dist_funct i j
    let st1 := knn_update k st i begin_i i j dist
    let st2 := knn_update k st1 j begin_j i j dist
    knn_inner dist_funct k i begin_i cnt (j + 1) (begin_j + k) st2

/-- The outer loop `for (i = 0; i < samples.size(); ++i)`, with `cnt` iterations left:
`begin_j = begin_i + 1` before the inner loop and `begin_i += k` after it. -/
def knn_outer (dist_funct : Nat → Nat → Int) (k n : Nat) :
    Nat → Nat → Nat → knn_state → knn_state
  | 0, _, _, st => st
  | cnt + 1, i, begin_i, st =>
    let st1 := knn_inner dist_funct k i begin_i (n - (i + 1)) (i + 1) (begin_i + 1) st
    knn_outer dist_funct k n cnt (i + 1) (begin_i + k) st1

/-- The loop `for (i = 1; i < edges.size(); ++i) if (edges[i] != edges[i-1])
out.push_back(edges[i])`, with `prev` the element `edges[i-1]`. -/
def remove_duplicates_loop : sample_pair → List sample_pair → List sample_pair
  | _, [] => []
  | prev, e :: es =>
    if !(e.same prev) then e :: remove_duplicates_loop e es
    else remove_duplicates_loop e es

/-- The block "now put edges into out while avoiding duplicates":
`out.push_back(edges[0])` followed by the loop. The vector `edges` is never empty there
under the preconditions of the two callers. -/
def remove_duplicates : List sample_pair → List sample_pair
  | [] => []
  | e :: es => e :: remove_duplicates_loop e es

/-- The function `find_k_nearest_neighbors`, returning `out`. The call of `std::sort` with
`order_by_index` is the parameter `sort_index`. -/
def find_k_nearest_neighbors (sort_index : List sample_pair → List sample_pair)
    (n : Nat) (dist_funct : Nat → Nat → Int) (k : Nat) : List sample_pair :=
  let edges0 := List.replicate (n * k) sample_pair.default
  let worst_dists0 := List.replicate n FLT_MAX
  let st := knn_outer dist_funct k n n 0 0 ⟨edges0, worst_dists0⟩
  remove_duplicates (sort_index st.edges)

/-- The loop `while (edges.size() < num)` of `find_percent_shortest_edges_randomly`, fed
with the successive values of `rnd.get_random_32bit_number()`. The result is `none` when
the values supplied run out before `num` edges are collected. -/
def random_edges (n : Nat) (dist_funct : Nat → Nat → Int) (num : Nat) :
    List Nat → List sample_pair → Option (List sample_pair)
  | r1 :: r2 :: rest, edges =>
    if edges.length < num then
      let idx1 := r1 % n
      let idx2 := r2 % n
      if idx1 ≠ idx2 then
        random_edges n dist_funct num rest
          (edges ++ [sample_pair.make idx1 idx2 (dist_funct idx1 idx2)])
      else random_edges n dist_funct num rest edges
    else some edges
  | _, edges => if edges.length < num then none else some edges

/-- Rounding of a rational to the nearest integer, ties to the even one. -/
def round_half_even (y : ℚ) : ℤ :=
  if y - ⌊y⌋ < 1 / 2 then ⌊y⌋
  else if 1 / 2 < y - ⌊y⌋ then ⌊y⌋ + 1
  else if ⌊y⌋ % 2 = 0 then ⌊y⌋ else ⌊y⌋ + 1

/-- Exponent of the unit in the last place of the `double` values around `x`: 52 binary
places below the leading bit of `x`, and `-1074` in the subnormal range. -/
def double_ulp_exponent (x : ℚ) : ℤ :=
  max (Int.log 2 x) (-1022) - 52

/-- The `double` nearest to `x`, ties to even: the result of a `double` operation whose
exact result is `x`, and of the conversion of an integer `x` to `double`. -/
def round_to_double (x : ℚ) : ℚ :=
  (round_half_even (x / 2 ^ double_ulp_exponent x) : ℚ) * 2 ^ double_ulp_exponent x

/-- The part of `find_percent_shortest_edges_randomly` after the sampling loop, on the
vector `edges` of candidates. In `edges.begin() + edges.size()*percent` the size is
converted to `double`, the product is a `double` product, and its conversion to an offset
drops the fractional part. -/
def shortest_percent (sort_index sort_distance : List sample_pair → List sample_pair)
    (percent : ℚ) (edges : List sample_pair) : List sample_pair :=
  let out := remove_duplicates (sort_index edges)
  let edges2 := sort_distance out
  edges2.take (Nat.floor (round_to_double (round_to_double (edges2.length : ℚ) * percent)))

/-- The function `find_percent_shortest_edges_randomly`, returning `out`. The random
generator seeded with `random_seed` is seen through the list `draws` of the values it
returns; the calls of `std::sort` are the parameters `sort_index` and `sort_distance`. -/
def find_percent_shortest_edges_randomly
    (sort_index sort_distance : List sample_pair → List sample_pair)
    (n : Nat) (dist_funct : Nat → Nat → Int) (percent : ℚ) (num : Nat)
    (draws : List Nat) : Option (List sample_pair) :=
  (random_edges n dist_funct num draws []).map
    (shortest_percent sort_index sort_distance percent)

/-! ### Notions used to state the properties of the two builders -/

/-- Number of distinct unordered index pairs among the edges of a list. -/
def distinct_pair_count (edges : List sample_pair) : Nat :=
  (edges.map sample_pair.key).toFinset.card

/-- The distance between the samples `i` and `j` as the builders compute it: the distance
function is applied to the pair with the smaller index first. -/
def pair_dist (dist_funct : Nat → Nat → Int) (i j : Nat) : Int :=
  dist_funct (min i j) (max i j)

/-- The list `out` contains the edge `{i, s}` with the distance of the two samples. -/
def HasEdge (out : List sample_pair) (dist_funct : Nat → Nat → Int) (i s : Nat) : Prop :=
  ∃ e ∈ out, e.key = (min i s, max i s) ∧ e.distance = pair_dist dist_funct i s

instance (out : List sample_pair) (dist_funct : Nat → Nat → Int) (i s : Nat) :
    Decidable (HasEdge out dist_funct i s) := by
  unfold HasEdge; infer_instance

/-- Top-k optimality of an edge list over `n` samples: every node `i` has a set `S` of
exactly `min(k, n-1)` other nodes whose edges to `i` are all in the list, and no node
outside `S` is closer to `i` than a node of `S`. -/
def TopKOptimal (out : List sample_pair) (n k : Nat) (dist_funct : Nat → Nat → Int) : Prop :=
  ∀ i, i < n → ∃ S : Finset Nat, S.card = min k (n - 1) ∧
    (∀ s ∈ S, s < n ∧ s ≠ i ∧ HasEdge out dist_funct i s) ∧
    (∀ j, j < n → j ≠ i → j ∉ S →
      ∀ s ∈ S, pair_dist dist_funct i s ≤ pair_dist dist_funct i j)

/-- No sentinel in an edge list over `n` samples: every edge joins two different samples
and carries their distance. -/
def NoSentinel (out : List sample_pair) (n : Nat) (dist_funct : Nat → Nat → Int) : Prop :=
  ∀ e ∈ out, e.index1 ≠ e.index2 ∧ e.index1 < n ∧ e.index2 < n ∧
    e.distance = dist_funct e.index1 e.index2

instance (out : List sample_pair) (n : Nat) (dist_funct : Nat → Nat → Int) :
    Decidable (NoSentinel out n dist_funct) := by
  unfold NoSentinel; infer_instance

/-! ### Invariant of the loops of `find_k_nearest_neighbors` for `k = 1` -/

/-- The pairs `(i, j)`, `i < j < n`, in the order in which the two loops visit them. -/
def all_pairs (n : Nat) : List (Nat × Nat) :=
  (List.range' 0 n).flatMap (fun i => (List.range' (i + 1) (n - (i + 1))).map (fun j => (i, j)))

/-- The body of the inner loop for `k = 1`, when the window of node `v` is the slot `v`. -/
def pair_step (dist_funct : Nat → Nat → Int) (st : knn_state) (p : Nat × Nat) : knn_state :=
  knn_update 1 (knn_update 1 st p.1 p.1 p.1 p.2 (dist_funct p.1 p.2)) p.2 p.2 p.1 p.2
    (dist_funct p.1 p.2)

/-- State of the slot of node `v` once the pairs `ps` are visited (`k = 1`): either no pair
of `ps` has `v` as an endpoint and the slot holds the sentinel, or the slot holds a pair of
`ps` with endpoint `v` whose distance is least among the pairs of `ps` with endpoint `v`,
and `worst_dists[v]` is that distance. -/
def SlotInv (dist_funct : Nat → Nat → Int) (ps : List (Nat × Nat)) (st : knn_state)
    (v : Nat) : Prop :=
  ((∀ p ∈ ps, v ≠ p.1 ∧ v ≠ p.2) ∧
    st.edges.getD v sample_pair.default = sample_pair.default ∧
    st.worst_dists.getD v 0 = FLT_MAX) ∨
  (∃ p ∈ ps, (v = p.1 ∨ v = p.2) ∧
    st.edges.getD v sample_pair.default = sample_pair.make p.1 p.2 (dist_funct p.1 p.2) ∧
    st.worst_dists.getD v 0 = dist_funct p.1 p.2 ∧
    ∀ q ∈ ps, (v = q.1 ∨ v = q.2) → dist_funct p.1 p.2 ≤ dist_funct q.1 q.2)

/-- Invariant of the loops for `k = 1`, once the pairs `ps` are visited. -/
def KnnInv (n : Nat) (dist_funct : Nat → Nat → Int) (ps : List (Nat × Nat))
    (st : knn_state) : Prop :=
  st.edges.length = n ∧ st.worst_dists.length = n ∧ ∀ v, v < n → SlotInv dist_funct ps st v

/-- Number of successive pairs of random values that give two different sample indices. -/
def valid_draw_count (n : Nat) : List Nat → Nat
  | r1 :: r2 :: rest => (if r1 % n ≠ r2 % n then 1 else 0) + valid_draw_count n rest
  | _ => 0

/-! ### The windows used by the loops of `find_k_nearest_neighbors` -/

/-- The values `(i, j, begin_i, begin_j)` at the successive executions of the body of the
inner loop, for one value of `i`: the same iterator arithmetic as `knn_inner`. -/
def knn_inner_windows (k i begin_i : Nat) : Nat → Nat → Nat → List (Nat × Nat × Nat × Nat)
  | 0, _, _ => []
  | cnt + 1, j, begin_j =>
    (i, j, begin_i, begin_j) :: knn_inner_windows k i begin_i cnt (j + 1) (begin_j + k)

/-- The values `(i, j, begin_i, begin_j)` at the successive executions of the body of the
inner loop, over the outer loop: the same iterator arithmetic as `knn_outer`. -/
def knn_outer_windows (k n : Nat) : Nat → Nat → Nat → List (Nat × Nat × Nat × Nat)
  | 0, _, _ => []
  | cnt + 1, i, begin_i =>
    knn_inner_windows k i begin_i (n - (i + 1)) (i + 1) (begin_i + 1) ++
      knn_outer_windows k n cnt (i + 1) (begin_i + k)

/-- The values `(i, j, begin_i, begin_j)` at all the executions of the body of the inner
loop of `find_k_nearest_neighbors`, in order. -/
def knn_windows (k n : Nat) : List (Nat × Nat × Nat × Nat) :=
  knn_outer_windows k n n 0 0

/-- The body of the inner loop, for the values `(i, j, begin_i, begin_j)`. -/
def knn_body (dist_funct : Nat → Nat → Int) (k : Nat) (st : knn_state)
    (x : Nat × Nat × Nat × Nat) : knn_state :=
  knn_update k (knn_update k st x.1 x.2.2.1 x.1 x.2.1 (dist_funct x.1 x.2.1))
    x.2.1 x.2.2.2 x.1 x.2.1 (dist_funct x.1 x.2.1)

/-- Number of nodes `j != a` of a set of `n` samples that are closer to `a` than `b` is. -/
def closer_count (n : Nat) (dist_funct : Nat → Nat → Int) (a b : Nat) : Nat :=
  ((List.range n).filter
    (fun j => decide (j ≠ a ∧ pair_dist dist_funct a j < pair_dist dist_funct a b))).length

/-- Soundness of an edge list over `n` samples: at most `n*k` edges, each of them a top-k
neighbor relation of at least one of its endpoints. -/
def TopKSound (out : List sample_pair) (n k : Nat) (dist_funct : Nat → Nat → Int) : Prop :=
  out.length ≤ n * k ∧
  ∀ e ∈ out, closer_count n dist_funct e.index1 e.index2 < k ∨
    closer_count n dist_funct e.index2 e.index1 < k

instance (out : List sample_pair) (n k : Nat) (dist_funct : Nat → Nat → Int) :
    Decidable (TopKSound out n k dist_funct) := by
  unfold TopKSound; infer_instance

/-- The successive pairs `(r1, r2)` of random values that the sampling loop reads. -/
def draw_pairs : List Nat → List (Nat × Nat)
  | r1 :: r2 :: rest => (r1, r2) :: draw_pairs rest
  | _ => []

/-- The candidate edge that a pair of random values gives. -/
def candidate_edge (n : Nat) (dist_funct : Nat → Nat → Int) (p : Nat × Nat) : sample_pair :=
  sample_pair.make (p.1 % n) (p.2 % n) (dist_funct (p.1 % n) (p.2 % n))

/-! ### The writes of the third loop of `undirected_adjacency_list::build` -/

/-- The two writes of the body of the third loop of `build`, as pairs (node whose cursor
is used, offset written in `data`): the cursor of `index1`, then the cursor of `index2`
as the first write has left it. -/
def fill_step_writes {R : Type} (weight_funct : sample_pair → R)
    (st : List (neighbor R) × List Nat) (e : sample_pair) : List (Nat × Nat) :=
  [(e.index1, st.2.getD e.index1 0),
   (e.index2, (cursor_write st e.index1 ⟨e.index2, weight_funct e⟩).2.getD e.index2 0)]

/-- The writes of the third loop of `build` over a list of edges, from the state `st`. -/
def fill_writes {R : Type} (weight_funct : sample_pair → R) :
    List sample_pair → List (neighbor R) × List Nat → List (Nat × Nat)
  | [], _ => []
  | e :: es, st =>
    fill_step_writes weight_funct st e ++ fill_writes weight_funct es (fill_step weight_funct st e)

/-- The state `(data, mutable_blocks)` of `build` before its third loop. -/
def build_start {R : Type} [Zero R] (edges : List sample_pair) :
    List (neighbor R) × List Nat :=
  (List.replicate (edges.length * 2) neighbor.default, make_blocks (count_neighbors edges))

/-- All the writes to `data` that `build` makes. -/
def build_writes {R : Type} [Zero R] (edges : List sample_pair)
    (weight_funct : sample_pair → R) : List (Nat × Nat) :=
  fill_writes weight_funct edges (build_start edges)

/-- The cursors `mutable_blocks` of `build` after its third loop. -/
def build_cursors {R : Type} [Zero R] (edges : List sample_pair)
    (weight_funct : sample_pair → R) : List Nat :=
  (edges.foldl (fill_step weight_funct) (build_start edges)).2

/-! ## Lemmas -/

/-! ### Counting loop -/

theorem getD_set_self_add {l : List Nat} {i : Nat} (v : Nat) (hi : i < l.length) :
    (l.set i (l.getD i 0 + 1)).getD v 0 = l.getD v 0 + (if i = v then 1 else 0) := by
  simp only [List.getD_eq_getElem?_getD, List.getElem?_set]
  by_cases h : i = v
  · subst h; simp [hi]
  · simp [h]

theorem sum_set_self_add {l : List Nat} {i : Nat} (hi : i < l.length) :
    (l.set i (l.getD i 0 + 1)).sum = l.sum + 1 := by
  induction l generalizing i with
  | nil => simp at hi
  | cons a l ih =>
    cases i with
    | zero => simp; omega
    | succ i =>
      simp only [List.length_cons, Nat.add_lt_add_iff_right] at hi
      have := ih hi
      simp only [List.getD_eq_getElem?_getD] at this
      simp [List.set, this]; omega

/-- The vector after the resize of the counting loop. -/
theorem count_step_length (nn : List Nat) (e : sample_pair) :
    (count_step nn e).length = max nn.length (max e.index1 e.index2 + 1) := by
  unfold count_step
  simp only [List.length_set]
  split
  · simp; omega
  · omega

theorem count_step_getD (nn : List Nat) (e : sample_pair) (v : Nat) :
    (count_step nn e).getD v 0 =
      nn.getD v 0 + (if e.index1 = v then 1 else 0) + (if e.index2 = v then 1 else 0) := by
  unfold count_step
  set nn1 := (if nn.length < max e.index1 e.index2 + 1
    then nn ++ List.replicate (max e.index1 e.index2 + 1 - nn.length) 0 else nn) with hnn1
  have hlen : nn1.length = max nn.length (max e.index1 e.index2 + 1) := by
    rw [hnn1]; split
    · simp; omega
    · omega
  have hget : nn1.getD v 0 = nn.getD v 0 := by
    rw [hnn1]; split
    · simp only [List.getD_eq_getElem?_getD, List.getElem?_append, List.getElem?_replicate]
      by_cases hv : v < nn.length
      · simp [hv]
      · simp only [hv, if_false]
        rw [List.getElem?_eq_none (by omega : nn.length ≤ v)]
        split <;> simp
    · rfl
  have h1 : e.index1 < nn1.length := by rw [hlen]; omega
  have h2 : e.index2 < (nn1.set e.index1 (nn1.getD e.index1 0 + 1)).length := by
    rw [List.length_set, hlen]; omega
  show ((nn1.set e.index1 (nn1.getD e.index1 0 + 1)).set e.index2
      ((nn1.set e.index1 (nn1.getD e.index1 0 + 1)).getD e.index2 0 + 1)).getD v 0 = _
  rw [getD_set_self_add v h2, getD_set_self_add v h1, hget]

theorem count_step_sum (nn : List Nat) (e : sample_pair) :
    (count_step nn e).sum = nn.sum + 2 := by
  unfold count_step
  set nn1 := (if nn.length < max e.index1 e.index2 + 1
    then nn ++ List.replicate (max e.index1 e.index2 + 1 - nn.length) 0 else nn) with hnn1
  have hlen : nn1.length = max nn.length (max e.index1 e.index2 + 1) := by
    rw [hnn1]; split
    · simp; omega
    · omega
  have hsum : nn1.sum = nn.sum := by
    rw [hnn1]; split
    · simp
    · rfl
  have h1 : e.index1 < nn1.length := by rw [hlen]; omega
  have h2 : e.index2 < (nn1.set e.index1 (nn1.getD e.index1 0 + 1)).length := by
    rw [List.length_set, hlen]; omega
  show ((nn1.set e.index1 (nn1.getD e.index1 0 + 1)).set e.index2
      ((nn1.set e.index1 (nn1.getD e.index1 0 + 1)).getD e.index2 0 + 1)).sum = _
  rw [sum_set_self_add h2, sum_set_self_add h1, hsum]

theorem endpoint_count_cons (e : sample_pair) (es : List sample_pair) (v : Nat) :
    endpoint_count (e :: es) v =
      (if e.index1 = v then 1 else 0) + (if e.index2 = v then 1 else 0) + endpoint_count es v := by
  unfold endpoint_count
  simp only [List.countP_cons, decide_eq_true_eq]
  omega

theorem foldl_count_step_getD (edges : List sample_pair) (nn : List Nat) (v : Nat) :
    (edges.foldl count_step nn).getD v 0 = nn.getD v 0 + endpoint_count edges v := by
  induction edges generalizing nn with
  | nil => simp [endpoint_count]
  | cons e es ih =>
    rw [List.foldl_cons, ih, count_step_getD, endpoint_count_cons]; omega

theorem foldl_count_step_sum (edges : List sample_pair) (nn : List Nat) :
    (edges.foldl count_step nn).sum = nn.sum + 2 * edges.length := by
  induction edges generalizing nn with
  | nil => simp
  | cons e es ih =>
    rw [List.foldl_cons, ih, count_step_sum, List.length_cons]; omega

theorem foldl_count_step_length (edges : List sample_pair) (nn : List Nat) :
    (edges.foldl count_step nn).length =
      edges.foldl (fun m e => max m (max e.index1 e.index2 + 1)) nn.length := by
  induction edges generalizing nn with
  | nil => simp
  | cons e es ih =>
    rw [List.foldl_cons, ih, count_step_length, List.foldl_cons]

theorem foldl_max_succ (edges : List sample_pair) (m : Nat) :
    edges.foldl (fun m e => max m (max e.index1 e.index2 + 1)) (m + 1) =
      edges.foldl (fun m e => max m (max e.index1 e.index2)) m + 1 := by
  induction edges generalizing m with
  | nil => simp
  | cons e es ih =>
    rw [List.foldl_cons, List.foldl_cons, ← ih]
    congr 1; omega

theorem count_neighbors_length (edges : List sample_pair) (h : edges ≠ []) :
    (count_neighbors edges).length = max_index edges + 1 := by
  unfold count_neighbors max_index
  rw [foldl_count_step_length]
  cases edges with
  | nil => exact absurd rfl h
  | cons e es =>
    simp only [List.length_nil, List.foldl_cons]
    rw [← foldl_max_succ]
    congr 1; omega

theorem foldl_max_le (edges : List sample_pair) (m : Nat) (e : sample_pair) (he : e ∈ edges) :
    max e.index1 e.index2 + 1 ≤ edges.foldl (fun m e => max m (max e.index1 e.index2 + 1)) m := by
  have hmono : ∀ (es : List sample_pair) (m : Nat),
      m ≤ es.foldl (fun m e => max m (max e.index1 e.index2 + 1)) m := by
    intro es
    induction es with
    | nil => intro m; simp
    | cons a as ih => intro m; rw [List.foldl_cons]; exact le_trans (by omega) (ih _)
  induction edges generalizing m with
  | nil => simp at he
  | cons a as ih =>
    rw [List.foldl_cons]
    rcases List.mem_cons.1 he with h | h
    · subst h; exact le_trans (by omega) (hmono _ _)
    · exact ih _ h

theorem index_lt_count_neighbors_length (edges : List sample_pair) (e : sample_pair)
    (he : e ∈ edges) :
    e.index1 < (count_neighbors edges).length ∧ e.index2 < (count_neighbors edges).length := by
  have := foldl_max_le edges 0 e he
  unfold count_neighbors
  rw [foldl_count_step_length]
  simp only [List.length_nil]
  omega

theorem count_neighbors_getD (edges : List sample_pair) (v : Nat) :
    (count_neighbors edges).getD v 0 = endpoint_count edges v := by
  unfold count_neighbors
  rw [foldl_count_step_getD]; simp

theorem count_neighbors_sum (edges : List sample_pair) :
    (count_neighbors edges).sum = 2 * edges.length := by
  unfold count_neighbors
  rw [foldl_count_step_sum]; simp


/-! ### Offsets -/

theorem block_offset_succ (nn : List Nat) (v : Nat) :
    block_offset nn (v + 1) = block_offset nn v + nn.getD v 0 := by
  unfold block_offset
  rw [List.take_succ, List.sum_append, List.getD_eq_getElem?_getD]
  cases nn[v]? <;> simp

theorem block_offset_mono (nn : List Nat) : Monotone (block_offset nn) := by
  apply monotone_nat_of_le_succ
  intro v; rw [block_offset_succ]; omega

theorem block_offset_length (nn : List Nat) : block_offset nn nn.length = nn.sum := by
  unfold block_offset; rw [List.take_length]

theorem make_blocks_aux (nn : List Nat) (m : Nat) (hm : m ≤ nn.length) :
    ((List.range m).foldl
      (fun blocks i => blocks.set (i + 1) (blocks.getD i 0 + nn.getD i 0))
      (List.replicate (nn.length + 1) 0)).length = nn.length + 1 ∧
    ∀ i, i ≤ m → ((List.range m).foldl
      (fun blocks i => blocks.set (i + 1) (blocks.getD i 0 + nn.getD i 0))
      (List.replicate (nn.length + 1) 0)).getD i 0 = block_offset nn i := by
  induction m with
  | zero =>
    refine ⟨by simp, ?_⟩
    intro i hi
    have : i = 0 := by omega
    subst this
    simp [block_offset]
  | succ m ih =>
    obtain ⟨hl, hg⟩ := ih (by omega)
    rw [List.range_succ, List.foldl_append]
    simp only [List.foldl_cons, List.foldl_nil]
    refine ⟨by rw [List.length_set]; exact hl, ?_⟩
    intro i hi
    rw [List.getD_eq_getElem?_getD, List.getElem?_set]
    by_cases h : m + 1 = i
    · subst h
      rw [if_pos rfl, if_pos (by omega), Option.getD_some, hg m (le_refl m), block_offset_succ]
    · rw [if_neg h, ← List.getD_eq_getElem?_getD]
      exact hg i (by omega)

theorem make_blocks_length (nn : List Nat) : (make_blocks nn).length = nn.length + 1 :=
  (make_blocks_aux nn nn.length (le_refl _)).1

theorem make_blocks_getD (nn : List Nat) (i : Nat) (hi : i ≤ nn.length) :
    (make_blocks nn).getD i 0 = block_offset nn i :=
  (make_blocks_aux nn nn.length (le_refl _)).2 i hi

/-! ### Scatter fill -/

theorem scan_records_append {R : Type} (w : sample_pair → R) (i : Nat)
    (l1 l2 : List sample_pair) :
    scan_records w i (l1 ++ l2) = scan_records w i l1 ++ scan_records w i l2 := by
  induction l1 with
  | nil => simp [scan_records]
  | cons e es ih => simp [scan_records, ih]

theorem scan_records_length {R : Type} (w : sample_pair → R) (i : Nat)
    (l : List sample_pair) : (scan_records w i l).length = endpoint_count l i := by
  induction l with
  | nil => simp [scan_records, endpoint_count]
  | cons e es ih =>
    rw [endpoint_count_cons, scan_records, List.length_append, List.length_append, ih]
    congr 1
    congr 1 <;> split <;> simp

theorem endpoint_count_append (l1 l2 : List sample_pair) (v : Nat) :
    endpoint_count (l1 ++ l2) v = endpoint_count l1 v + endpoint_count l2 v := by
  unfold endpoint_count
  rw [List.countP_append, List.countP_append]; omega

/-- One write through a cursor keeps the invariant, with the record appended to the list
of the node written to, provided the block of every node has room for its list. -/
theorem cursor_write_inv {R : Type} (B : Nat → Nat) (N L : Nat)
    (S : Nat → List (neighbor R)) (st : List (neighbor R) × List Nat)
    (a : Nat) (r : neighbor R) (hB : Monotone B) (hBN : B N ≤ L) (ha : a < N)
    (hcap : ∀ v, v < N → B v + (S v).length ≤ B (v + 1))
    (hroom : B a + (S a).length < B (a + 1))
    (hinv : FillInv B N L S st) :
    FillInv B N L (fun v => if v = a then S a ++ [r] else S v) (cursor_write st a r) := by
  obtain ⟨hL, hN, hv⟩ := hinv
  have hpos : st.2.getD a 0 = B a + (S a).length := (hv a ha).1
  have hposL : B a + (S a).length < st.1.length := by
    have := hB (show a + 1 ≤ N by omega)
    omega
  refine ⟨by simp [cursor_write, hL], by simp [cursor_write, hN], ?_⟩
  intro v hvN
  obtain ⟨hc, hd⟩ := hv v hvN
  constructor
  · show (st.2.set a (st.2.getD a 0 + 1)).getD v 0 =
      B v + (if v = a then S a ++ [r] else S v).length
    rw [List.getD_eq_getElem?_getD, List.getElem?_set]
    by_cases h : a = v
    · subst h
      rw [if_pos rfl, if_pos (by omega), Option.getD_some, hpos]
      simp; omega
    · rw [if_neg h, ← List.getD_eq_getElem?_getD, hc, if_neg (Ne.symm h)]
  · intro t ht
    show (st.1.set (st.2.getD a 0) r)[B v + t]? = (if v = a then S a ++ [r] else S v)[t]?
    replace ht : t < (if v = a then S a ++ [r] else S v).length := ht
    rw [List.getElem?_set, hpos]
    by_cases h : v = a
    · subst h
      simp only [if_true, List.length_append, List.length_singleton] at ht ⊢
      by_cases ht2 : t = (S v).length
      · subst ht2
        rw [if_pos rfl, if_pos hposL]
        simp
      · rw [if_neg (by omega), hd t (by omega), List.getElem?_append_left (by omega)]
    · simp only [if_neg h] at ht ⊢
      have hne : B a + (S a).length ≠ B v + t := by
        rcases Nat.lt_or_gt_of_ne h with hlt | hgt
        · have h1 := hcap v hvN
          have h2 := hB (show v + 1 ≤ a by omega)
          omega
        · have h2 := hB (show a + 1 ≤ v by omega)
          omega
      rw [if_neg hne, hd t ht]

theorem fillInv_congr {R : Type} (B : Nat → Nat) (N L : Nat)
    (S S2 : Nat → List (neighbor R)) (st : List (neighbor R) × List Nat)
    (h : ∀ v, S v = S2 v) (hinv : FillInv B N L S st) : FillInv B N L S2 st := by
  have : S = S2 := funext h
  subst this; exact hinv

theorem scan_records_snoc {R : Type} (w : sample_pair → R) (v : Nat)
    (done : List sample_pair) (e : sample_pair) :
    scan_records w v (done ++ [e]) =
      (scan_records w v done ++ (if e.index1 = v then [(⟨e.index2, w e⟩ : neighbor R)] else []))
        ++ (if e.index2 = v then [(⟨e.index1, w e⟩ : neighbor R)] else []) := by
  rw [scan_records_append]
  simp [scan_records]

/-- The body of the fill loop takes the invariant for the edges done so far to the
invariant for one edge more. -/
theorem fill_step_inv {R : Type} (w : sample_pair → R) (nn : List Nat) (L : Nat)
    (edges done : List sample_pair) (e : sample_pair) (rest : List sample_pair)
    (hsplit : edges = done ++ e :: rest)
    (hnn : ∀ v, nn.getD v 0 = endpoint_count edges v)
    (hidx : ∀ x ∈ edges, x.index1 < nn.length ∧ x.index2 < nn.length)
    (hL : block_offset nn nn.length ≤ L)
    (st : List (neighbor R) × List Nat)
    (hinv : FillInv (block_offset nn) nn.length L (fun v => scan_records w v done) st) :
    FillInv (block_offset nn) nn.length L (fun v => scan_records w v (done ++ [e]))
      (fill_step w st e) := by
  have he : e ∈ edges := by rw [hsplit]; simp
  obtain ⟨h1, h2⟩ := hidx e he
  have hcount : ∀ v, endpoint_count (done ++ [e]) v ≤ endpoint_count edges v := by
    intro v
    have : edges = (done ++ [e]) ++ rest := by rw [hsplit]; simp
    rw [this, endpoint_count_append (done ++ [e])]; omega
  have hsnoc : ∀ v, endpoint_count (done ++ [e]) v = endpoint_count done v +
      ((if e.index1 = v then 1 else 0) + (if e.index2 = v then 1 else 0)) := by
    intro v
    rw [endpoint_count_append, endpoint_count_cons]
    simp [endpoint_count]
  generalize hwe : w e = we at *
  generalize ha : e.index1 = a at *
  generalize hb : e.index2 = b at *
  -- first write, through the cursor of `index1`
  have step1 := cursor_write_inv (block_offset nn) nn.length L
    (fun v => scan_records w v done) st a ⟨b, we⟩
    (block_offset_mono nn) hL h1
    (by
      intro v _
      rw [block_offset_succ, hnn, scan_records_length]
      have := hcount v; have := hsnoc v; omega)
    (by
      rw [block_offset_succ, hnn, scan_records_length]
      have := hcount a; have := hsnoc a
      simp only [if_true] at this; omega)
    hinv
  -- second write, through the cursor of `index2`
  have step2 := cursor_write_inv (block_offset nn) nn.length L _ _ b ⟨a, we⟩
    (block_offset_mono nn) hL h2
    (by
      intro v _
      rw [block_offset_succ, hnn]
      have := hcount v; have := hsnoc v
      by_cases hv : v = a
      · subst hv
        simp only [if_true, List.length_append, List.length_singleton, scan_records_length]
          at this ⊢
        omega
      · simp only [if_neg hv, scan_records_length]; omega)
    (by
      rw [block_offset_succ, hnn]
      have := hcount b; have := hsnoc b
      simp only [if_true] at this
      by_cases hv : b = a
      · subst hv
        simp only [if_true, List.length_append, List.length_singleton, scan_records_length]
          at this ⊢
        omega
      · have hv2 : ¬ a = b := fun h => hv h.symm
        simp only [if_neg hv, if_neg hv2, scan_records_length] at this ⊢
        omega)
    step1
  have hfs : fill_step w st e = cursor_write (cursor_write st a ⟨b, we⟩) b ⟨a, we⟩ := by
    simp only [fill_step, ha, hb, hwe]
  rw [hfs]
  refine fillInv_congr _ _ _ _ _ _ ?_ step2
  intro v
  rw [scan_records_snoc, ha, hb, hwe]
  by_cases hv2 : v = b
  · by_cases hv1 : v = a
    · subst hv1; subst hv2; simp
    · subst hv2
      have h3 : ¬ a = v := fun h => hv1 h.symm
      simp [hv1, h3]
  · by_cases hv1 : v = a
    · subst hv1
      have h3 : ¬ b = v := fun h => hv2 h.symm
      simp [hv2, h3]
    · have h3 : ¬ b = v := fun h => hv2 h.symm
      have h4 : ¬ a = v := fun h => hv1 h.symm
      simp [hv1, hv2, h3, h4]

theorem fill_loop_inv {R : Type} (w : sample_pair → R) (nn : List Nat) (L : Nat)
    (edges : List sample_pair)
    (hnn : ∀ v, nn.getD v 0 = endpoint_count edges v)
    (hidx : ∀ x ∈ edges, x.index1 < nn.length ∧ x.index2 < nn.length)
    (hL : block_offset nn nn.length ≤ L)
    (rest done : List sample_pair) (hsplit : edges = done ++ rest)
    (st : List (neighbor R) × List Nat)
    (hinv : FillInv (block_offset nn) nn.length L (fun v => scan_records w v done) st) :
    FillInv (block_offset nn) nn.length L (fun v => scan_records w v edges)
      (rest.foldl (fill_step w) st) := by
  induction rest generalizing done st with
  | nil =>
    simp only [List.append_nil] at hsplit
    subst hsplit; exact hinv
  | cons e es ih =>
    rw [List.foldl_cons]
    apply ih (done ++ [e]) (by rw [hsplit]; simp)
    exact fill_step_inv w nn L edges done e es hsplit hnn hidx hL st hinv

/-- The blocks of the adjacency list built from an edge list hold, for every node, the
records that a scan of the edge list emits for that node. -/
theorem build_records {R : Type} [Zero R] (edges : List sample_pair)
    (w : sample_pair → R) (i : Nat)
    (hi : i < (undirected_adjacency_list.build edges w).size) :
    (undirected_adjacency_list.build edges w).records i = scan_records w i edges := by
  have hinv := fill_loop_inv w (count_neighbors edges) (edges.length * 2) edges
    (count_neighbors_getD edges) (index_lt_count_neighbors_length edges)
    (by rw [block_offset_length, count_neighbors_sum]; omega)
    edges [] rfl
    (List.replicate (edges.length * 2) neighbor.default, make_blocks (count_neighbors edges))
    (by
      refine ⟨by simp, make_blocks_length _, ?_⟩
      intro v hv
      refine ⟨?_, ?_⟩
      · rw [make_blocks_getD _ _ (by omega)]; simp [scan_records]
      · intro t ht; simp [scan_records] at ht)
  obtain ⟨_, _, hv⟩ := hinv
  have hi2 : i < (count_neighbors edges).length := hi
  obtain ⟨_, hd⟩ := hv i hi2
  unfold undirected_adjacency_list.records undirected_adjacency_list.begin
    undirected_adjacency_list.end_
  simp only [undirected_adjacency_list.build]
  rw [make_blocks_getD _ _ (by omega), make_blocks_getD _ _ (by omega), block_offset_succ,
    count_neighbors_getD]
  apply List.ext_getElem?
  intro t
  rw [List.getElem?_take, List.getElem?_drop]
  simp only [Nat.add_sub_cancel_left]
  by_cases ht : t < endpoint_count edges i
  · rw [if_pos ht]
    exact hd t (by rw [scan_records_length]; exact ht)
  · rw [if_neg ht, List.getElem?_eq_none]
    rw [scan_records_length]; omega


/-! ### Accumulation of `reg_mat` -/

theorem row_update_apply {R : Type} [CommRing R] (samples : List (List R))
    (dims d i : Nat) (val : R) (m : Nat → Nat → R) (a b : Nat) :
    row_update samples dims d i val m a b =
      if a = d ∧ b < dims then m a b + val * sample_at samples i b else m a b := by
  unfold row_update
  induction dims generalizing a b with
  | zero => simp
  | succ k ih =>
    rw [List.range_succ, List.foldl_append]
    simp only [List.foldl_cons, List.foldl_nil]
    by_cases h : a = d ∧ b = k
    · obtain ⟨ha, hb⟩ := h
      subst ha; subst hb
      rw [if_pos ⟨rfl, rfl⟩, ih, if_neg (by omega), if_pos ⟨rfl, by omega⟩]
    · rw [if_neg h, ih]
      by_cases h2 : a = d ∧ b < k
      · rw [if_pos h2, if_pos ⟨h2.1, by omega⟩]
      · rw [if_neg h2, if_neg]
        intro h3
        rcases h3 with ⟨h4, h5⟩
        have : b ≠ k := fun hk => h ⟨h4, hk⟩
        exact h2 ⟨h4, by omega⟩

theorem foldl_neighbor_step {R : Type} [CommRing R] (samples : List (List R)) (d : Nat)
    (recs : List (neighbor R)) (acc : R × R) :
    recs.foldl (neighbor_step samples d) acc =
      (acc.1 - (recs.map (fun nb => nb.weight * sample_at samples nb.index d)).sum,
        acc.2 + (recs.map (fun nb => nb.weight)).sum) := by
  induction recs generalizing acc with
  | nil => simp
  | cons r rs ih =>
    rw [List.foldl_cons, ih]
    simp only [neighbor_step, List.map_cons, List.sum_cons]
    ext
    · simp; ring
    · simp; ring

/-- The value `val` computed for node `i` and column `d` out of a list of records. -/
theorem node_val_eq {R : Type} [CommRing R] (samples : List (List R)) (d i : Nat)
    (recs : List (neighbor R)) :
    (recs.foldl (neighbor_step samples d) (0, 0)).1 +
      (recs.foldl (neighbor_step samples d) (0, 0)).2 * sample_at samples i d =
      (recs.map (fun nb => nb.weight *
        (sample_at samples i d - sample_at samples nb.index d))).sum := by
  rw [foldl_neighbor_step]
  simp only [zero_sub, zero_add]
  induction recs with
  | nil => simp
  | cons r rs ih =>
    simp only [List.map_cons, List.sum_cons]
    rw [← ih]; ring

theorem records_nil_of_begin_eq_end {R : Type} (g : undirected_adjacency_list R) (i : Nat)
    (h : g.begin i = g.end_ i) : g.records i = [] := by
  unfold undirected_adjacency_list.records
  rw [h]; simp

theorem node_update_apply {R : Type} [CommRing R] (samples : List (List R))
    (g : undirected_adjacency_list R) (dims d : Nat) (m : Nat → Nat → R) (i a b : Nat) :
    node_update samples g dims d m i a b =
      m a b + (if a = d ∧ b < dims then
        ((g.records i).map (fun nb => nb.weight *
          (sample_at samples i d - sample_at samples nb.index d))).sum * sample_at samples i b
        else 0) := by
  unfold node_update
  by_cases h : g.begin i = g.end_ i
  · rw [if_neg (by simpa using h), records_nil_of_begin_eq_end g i h]
    simp
  · rw [if_pos h]
    show row_update samples dims d i _ m a b = _
    rw [row_update_apply, node_val_eq]
    split <;> simp

theorem foldl_node_update_apply {R : Type} [CommRing R] (samples : List (List R))
    (g : undirected_adjacency_list R) (dims d : Nat) (m : Nat → Nat → R) (N a b : Nat) :
    (List.range N).foldl (node_update samples g dims d) m a b =
      m a b + (if a = d ∧ b < dims then
        ∑ i in Finset.range N, ((g.records i).map (fun nb => nb.weight *
          (sample_at samples i d - sample_at samples nb.index d))).sum * sample_at samples i b
        else 0) := by
  induction N with
  | zero => simp
  | succ k ih =>
    rw [List.range_succ, List.foldl_append]
    simp only [List.foldl_cons, List.foldl_nil]
    rw [node_update_apply, ih, Finset.sum_range_succ]
    split <;> simp [add_assoc]

theorem make_mr_entries_apply {R : Type} [CommRing R] (samples : List (List R))
    (g : undirected_adjacency_list R) (a b : Nat) :
    make_mr_entries samples g a b =
      if a < sample_dims samples ∧ b < sample_dims samples then
        ∑ i in Finset.range g.size, ((g.records i).map (fun nb => nb.weight *
          (sample_at samples i a - sample_at samples nb.index a))).sum * sample_at samples i b
      else 0 := by
  unfold make_mr_entries
  generalize sample_dims samples = dims
  have key : ∀ k, (List.range k).foldl
      (fun m d => (List.range g.size).foldl (node_update samples g dims d) m)
      (fun _ _ => 0) a b =
      if a < k ∧ b < dims then
        ∑ i in Finset.range g.size, ((g.records i).map (fun nb => nb.weight *
          (sample_at samples i a - sample_at samples nb.index a))).sum * sample_at samples i b
      else 0 := by
    intro k
    induction k with
    | zero => simp
    | succ k ih =>
      rw [List.range_succ, List.foldl_append]
      simp only [List.foldl_cons, List.foldl_nil]
      rw [foldl_node_update_apply, ih]
      by_cases h1 : a = k
      · subst h1
        by_cases h2 : b < dims
        · simp [h2]
        · simp [h2]
      · by_cases h2 : a < k
        · have h3 : a < k + 1 := by omega
          simp [h1, h2, h3]
        · have h3 : ¬ a < k + 1 := by omega
          simp [h1, h2, h3]
  exact key dims

/-- Sum over the nodes of a quantity summed over the records that a scan emits for each
node: every edge contributes once at each endpoint. -/
theorem sum_scan_records {R : Type} [CommRing R] (w : sample_pair → R)
    (f : Nat → neighbor R → R) (N : Nat) (edges : List sample_pair)
    (hidx : ∀ e ∈ edges, e.index1 < N ∧ e.index2 < N) :
    ∑ i in Finset.range N, ((scan_records w i edges).map (f i)).sum =
      (edges.map (fun e => f e.index1 ⟨e.index2, w e⟩ + f e.index2 ⟨e.index1, w e⟩)).sum := by
  induction edges with
  | nil => simp [scan_records]
  | cons e es ih =>
    have he := hidx e (List.mem_cons_self _ _)
    have ih2 := ih (fun x hx => hidx x (List.mem_cons_of_mem _ hx))
    simp only [scan_records, List.map_append, List.sum_append, List.map_cons, List.sum_cons]
    rw [Finset.sum_add_distrib, Finset.sum_add_distrib, ih2]
    have e1 : ∑ i in Finset.range N,
        (List.map (f i) (if e.index1 = i then [(⟨e.index2, w e⟩ : neighbor R)] else [])).sum =
        f e.index1 ⟨e.index2, w e⟩ := by
      rw [Finset.sum_eq_single e.index1]
      · simp
      · intro b _ hb
        rw [if_neg (Ne.symm hb)]; simp
      · intro h; exact absurd (Finset.mem_range.2 he.1) h
    have e2 : ∑ i in Finset.range N,
        (List.map (f i) (if e.index2 = i then [(⟨e.index1, w e⟩ : neighbor R)] else [])).sum =
        f e.index2 ⟨e.index1, w e⟩ := by
      rw [Finset.sum_eq_single e.index2]
      · simp
      · intro b _ hb
        rw [if_neg (Ne.symm hb)]; simp
      · intro h; exact absurd (Finset.mem_range.2 he.2) h
    rw [e1, e2]

/-- Edge-sum form of the entries accumulated by `make_mr_matrix` on the adjacency list
built from an edge list. -/
theorem build_entries_eq_edge_sum {R : Type} [CommRing R] (samples : List (List R))
    (edges : List sample_pair) (w : sample_pair → R) (d j : Nat)
    (hd : d < sample_dims samples) (hj : j < sample_dims samples) :
    make_mr_entries samples (undirected_adjacency_list.build edges w) d j =
      (edges.map (edge_term samples w d j)).sum := by
  rw [make_mr_entries_apply, if_pos ⟨hd, hj⟩]
  have h1 : ∀ i ∈ Finset.range (undirected_adjacency_list.build edges w).size,
      (((undirected_adjacency_list.build edges w).records i).map (fun nb => nb.weight *
        (sample_at samples i d - sample_at samples nb.index d))).sum * sample_at samples i j =
      ((scan_records w i edges).map (fun nb => nb.weight *
        (sample_at samples i d - sample_at samples nb.index d) * sample_at samples i j)).sum := by
    intro i hi
    rw [build_records edges w i (Finset.mem_range.1 hi), ← List.sum_map_mul_right]
  rw [Finset.sum_congr rfl h1]
  have h2 := sum_scan_records w (fun i nb => nb.weight *
        (sample_at samples i d - sample_at samples nb.index d) * sample_at samples i j)
      (undirected_adjacency_list.build edges w).size edges
      (index_lt_count_neighbors_length edges)
  rw [h2]
  congr 1
  apply List.map_congr_left
  intro e _
  simp only [edge_term]
  ring


/-! ### The Laplacian form -/

theorem key_eq_iff (p q a b : Nat) :
    ((min p q, max p q) = (min a b, max a b)) ↔ ((a = p ∧ b = q) ∨ (a = q ∧ b = p)) := by
  rw [Prod.mk.injEq]
  omega

/-- Entry `(a, b)` of the Laplacian of a single edge. -/
theorem laplacian_entry_single {R : Type} [CommRing R] (w : sample_pair → R)
    (e : sample_pair) (a b : Nat) :
    laplacian_entry [e] w a b =
      if a = b then (if e.index1 = a ∨ e.index2 = a then w e else 0)
      else (if e.key = (min a b, max a b) then - w e else 0) := by
  unfold laplacian_entry
  by_cases hab : a = b
  · simp only [if_pos hab, List.filter_cons, List.filter_nil]
    by_cases h : e.index1 = a ∨ e.index2 = a
    · simp [h]
    · simp [h]
  · simp only [if_neg hab, List.find?_cons, List.find?_nil]
    by_cases h : e.key = (min a b, max a b)
    · simp [h]
    · simp [h]

/-- The Laplacian of a duplicate-free edge list is the sum of the Laplacians of its
edges. -/
theorem laplacian_entry_eq_sum {R : Type} [CommRing R] (edges : List sample_pair)
    (w : sample_pair → R) (a b : Nat) (hdup : DuplicateFree edges) :
    laplacian_entry edges w a b =
      (edges.map (fun e => laplacian_entry [e] w a b)).sum := by
  simp only [laplacian_entry_single]
  unfold laplacian_entry
  by_cases hab : a = b
  · simp only [if_pos hab]
    clear hdup
    induction edges with
    | nil => simp
    | cons e es ih =>
      simp only [List.map_cons, List.sum_cons, List.filter_cons]
      rw [← ih]
      by_cases h : e.index1 = a ∨ e.index2 = a
      · simp [h]
      · simp [h]
  · simp only [if_neg hab]
    induction edges with
    | nil => simp
    | cons e es ih =>
      have ih2 := ih (List.Pairwise.of_cons hdup)
      simp only [List.map_cons, List.sum_cons, List.find?_cons]
      rw [← ih2]
      by_cases hk : e.key = (min a b, max a b)
      · have hnone : es.find? (fun x => decide (x.key = (min a b, max a b))) = none := by
          rw [List.find?_eq_none]
          intro x hx
          have := (List.pairwise_cons.1 hdup).1 x hx
          simp only [decide_eq_true_eq]
          intro hxk
          exact this (hk.trans hxk.symm)
        simp [hk, hnone]
      · simp [hk]

theorem sum_delta {R : Type} [CommRing R] (n p q : Nat) (hp : p < n) (hq : q < n)
    (F : Nat → Nat → R) :
    ∑ a in Finset.range n, ∑ b in Finset.range n, (if a = p ∧ b = q then F a b else 0) =
      F p q := by
  rw [Finset.sum_eq_single p]
  · rw [Finset.sum_eq_single q]
    · simp
    · intro b _ hb; simp [hb]
    · intro h; exact absurd (Finset.mem_range.2 hq) h
  · intro a _ ha
    apply Finset.sum_eq_zero
    intro b _; simp [ha]
  · intro h; exact absurd (Finset.mem_range.2 hp) h

theorem single_edge_summand {R : Type} [CommRing R] (X : Nat → Nat → R)
    (w : sample_pair → R) (e : sample_pair) (hpq : e.index1 ≠ e.index2) (d j a b : Nat) :
    X a d * laplacian_entry [e] w a b * X b j =
      (if a = e.index1 ∧ b = e.index1 then w e * X a d * X b j else 0) +
      (if a = e.index2 ∧ b = e.index2 then w e * X a d * X b j else 0) +
      (if a = e.index1 ∧ b = e.index2 then - (w e * X a d * X b j) else 0) +
      (if a = e.index2 ∧ b = e.index1 then - (w e * X a d * X b j) else 0) := by
  rw [laplacian_entry_single]
  generalize w e = we
  obtain ⟨p, q, dist⟩ := e
  simp only [sample_pair.key] at hpq ⊢
  by_cases hab : a = b
  · subst hab
    simp only [if_true]
    by_cases h1 : a = p
    · subst h1
      have : ¬ a = q := hpq
      simp [this]; ring
    · by_cases h2 : a = q
      · subst h2
        simp [h1]; ring
      · have h3 : ¬ p = a := fun h => h1 h.symm
        have h4 : ¬ q = a := fun h => h2 h.symm
        simp [h1, h2, h3, h4]
  · rw [if_neg hab]
    by_cases hk : (min p q, max p q) = (min a b, max a b)
    · rw [if_pos hk]
      rcases (key_eq_iff p q a b).1 hk with ⟨h1, h2⟩ | ⟨h1, h2⟩
      · subst h1; subst h2
        have h3 : ¬ b = a := fun h => hab h.symm
        simp [hab, h3]; ring
      · subst h1; subst h2
        have h3 : ¬ b = a := fun h => hab h.symm
        simp [hab, h3]; ring
    · rw [if_neg hk]
      have hn := (not_congr (key_eq_iff p q a b)).1 hk
      simp only [not_or] at hn
      have h1 : ¬ (a = p ∧ b = p) := fun h => hab (h.1.trans h.2.symm)
      have h2 : ¬ (a = q ∧ b = q) := fun h => hab (h.1.trans h.2.symm)
      simp [hn.1, hn.2, h1, h2]

theorem single_edge_sum {R : Type} [CommRing R] (samples : List (List R))
    (w : sample_pair → R) (e : sample_pair) (hpq : e.index1 ≠ e.index2) (d j n : Nat)
    (h1 : e.index1 < n) (h2 : e.index2 < n) :
    ∑ a in Finset.range n, ∑ b in Finset.range n,
      sample_at samples a d * laplacian_entry [e] w a b * sample_at samples b j =
      edge_term samples w d j e := by
  simp only [single_edge_summand (fun a d => sample_at samples a d) w e hpq,
    Finset.sum_add_distrib]
  rw [sum_delta n _ _ h1 h1, sum_delta n _ _ h2 h2, sum_delta n _ _ h1 h2,
    sum_delta n _ _ h2 h1]
  unfold edge_term
  ring

theorem laplacian_sum_eq_edge_sum {R : Type} [CommRing R] (samples : List (List R))
    (w : sample_pair → R) (edges : List sample_pair) (d j n : Nat)
    (hdup : DuplicateFree edges)
    (hloop : ∀ e ∈ edges, e.index1 ≠ e.index2)
    (hidx : ∀ e ∈ edges, e.index1 < n ∧ e.index2 < n) :
    ∑ a in Finset.range n, ∑ b in Finset.range n,
      sample_at samples a d * laplacian_entry edges w a b * sample_at samples b j =
      (edges.map (edge_term samples w d j)).sum := by
  have h0 : ∀ a b, sample_at samples a d * laplacian_entry edges w a b * sample_at samples b j
      = (edges.map (fun e =>
          sample_at samples a d * laplacian_entry [e] w a b * sample_at samples b j)).sum := by
    intro a b
    rw [laplacian_entry_eq_sum edges w a b hdup, List.sum_map_mul_right,
      List.sum_map_mul_left]
  simp only [h0]
  clear h0 hdup
  induction edges with
  | nil => simp
  | cons e es ih =>
    have he := hidx e (List.mem_cons_self _ _)
    have hl := hloop e (List.mem_cons_self _ _)
    have ih2 := ih (fun x hx => hloop x (List.mem_cons_of_mem _ hx))
      (fun x hx => hidx x (List.mem_cons_of_mem _ hx))
    simp only [List.map_cons, List.sum_cons, Finset.sum_add_distrib]
    rw [ih2, single_edge_sum samples w e hl d j n he.1 he.2]


/-! ### Sorting by index and removing adjacent duplicates -/

theorem order_by_index_iff (a b : sample_pair) :
    order_by_index a b = true ↔
      (a.key.1 < b.key.1 ∨ (a.key.1 = b.key.1 ∧ a.key.2 < b.key.2)) := by
  simp [order_by_index]

theorem same_iff (a b : sample_pair) : a.same b = true ↔ a.key = b.key := by
  simp [sample_pair.same]

/-- Two edges in index order with different index pairs are in strict index order. -/
theorem lt_of_not_gt_of_ne (a b : sample_pair) (h1 : order_by_index b a = false)
    (h2 : a.key ≠ b.key) : order_by_index a b = true := by
  rw [order_by_index_iff]
  have h3 : ¬ (order_by_index b a = true) := by simp [h1]
  rw [order_by_index_iff] at h3
  have h4 : ¬ (a.key.1 = b.key.1 ∧ a.key.2 = b.key.2) := fun h => h2 (Prod.ext h.1 h.2)
  omega

theorem lt_of_lt_of_not_gt (a b c : sample_pair) (h1 : order_by_index a b = true)
    (h2 : order_by_index c b = false) : order_by_index a c = true := by
  have h3 : ¬ (order_by_index c b = true) := by simp [h2]
  rw [order_by_index_iff] at h1 h3 ⊢
  omega

theorem key_ne_of_lt (a b : sample_pair) (h : order_by_index a b = true) :
    a.key ≠ b.key := by
  rw [order_by_index_iff] at h
  intro hk
  rw [hk] at h
  omega

theorem remove_duplicates_loop_sorted (prev : sample_pair) (es : List sample_pair)
    (hs : (prev :: es).Pairwise (fun a b => order_by_index b a = false)) :
    (∀ x ∈ remove_duplicates_loop prev es, order_by_index prev x = true) ∧
    (remove_duplicates_loop prev es).Pairwise (fun a b => order_by_index a b = true) := by
  induction es generalizing prev with
  | nil => simp [remove_duplicates_loop]
  | cons e es ih =>
    have hs2 : (e :: es).Pairwise (fun a b => order_by_index b a = false) :=
      List.Pairwise.of_cons hs
    have hpe : order_by_index e prev = false :=
      (List.pairwise_cons.1 hs).1 e (List.mem_cons_self _ _)
    obtain ⟨ih1, ih2⟩ := ih e hs2
    unfold remove_duplicates_loop
    by_cases hsame : e.same prev = true
    · have hk : e.key = prev.key := (same_iff e prev).1 hsame
      simp only [hsame, Bool.not_true, Bool.false_eq_true, if_false]
      refine ⟨?_, ih2⟩
      intro x hx
      have := ih1 x hx
      rw [order_by_index_iff] at this ⊢
      rw [← hk]; exact this
    · have hk : prev.key ≠ e.key := fun h => hsame ((same_iff e prev).2 h.symm)
      have hlt : order_by_index prev e = true := lt_of_not_gt_of_ne prev e hpe hk
      simp only [hsame, Bool.not_false, if_true]
      refine ⟨?_, List.pairwise_cons.2 ⟨ih1, ih2⟩⟩
      intro x hx
      rcases List.mem_cons.1 hx with h | h
      · rw [h]; exact hlt
      · have h5 := ih1 x h
        rw [order_by_index_iff] at hlt h5 ⊢
        omega

/-- After a sort by index, the removal of adjacent duplicates leaves a list in strict
index order. -/
theorem remove_duplicates_sorted (l : List sample_pair)
    (hs : l.Pairwise (fun a b => order_by_index b a = false)) :
    (remove_duplicates l).Pairwise (fun a b => order_by_index a b = true) := by
  cases l with
  | nil => simp [remove_duplicates]
  | cons e es =>
    obtain ⟨h1, h2⟩ := remove_duplicates_loop_sorted e es hs
    exact List.pairwise_cons.2 ⟨h1, h2⟩

theorem duplicateFree_of_strict (l : List sample_pair)
    (h : l.Pairwise (fun a b => order_by_index a b = true)) : DuplicateFree l :=
  List.Pairwise.imp (fun {a b} hab => key_ne_of_lt a b hab) h

theorem duplicateFree_iff_nodup (l : List sample_pair) :
    DuplicateFree l ↔ (l.map sample_pair.key).Nodup := by
  unfold DuplicateFree List.Nodup
  rw [List.pairwise_map]

theorem duplicateFree_perm {l1 l2 : List sample_pair} (hp : l1.Perm l2)
    (h : DuplicateFree l2) : DuplicateFree l1 := by
  rw [duplicateFree_iff_nodup] at h ⊢
  exact ((hp.map _).nodup_iff).2 h

theorem duplicateFree_sublist {l1 l2 : List sample_pair} (hs : l1.Sublist l2)
    (h : DuplicateFree l2) : DuplicateFree l1 :=
  List.Pairwise.sublist hs h

theorem remove_duplicates_loop_sublist (prev : sample_pair) (es : List sample_pair) :
    (remove_duplicates_loop prev es).Sublist es := by
  induction es generalizing prev with
  | nil => simp [remove_duplicates_loop]
  | cons e es ih =>
    unfold remove_duplicates_loop
    split
    · exact (ih e).cons₂ e
    · exact (ih e).cons e

theorem remove_duplicates_sublist (l : List sample_pair) :
    (remove_duplicates l).Sublist l := by
  cases l with
  | nil => simp [remove_duplicates]
  | cons e es => exact (remove_duplicates_loop_sublist e es).cons₂ e

theorem remove_duplicates_loop_keys (prev : sample_pair) (es : List sample_pair)
    (x : sample_pair) (hx : x ∈ prev :: es) :
    ∃ y ∈ prev :: remove_duplicates_loop prev es, y.key = x.key := by
  induction es generalizing prev with
  | nil => exact ⟨x, by simpa [remove_duplicates_loop] using hx, rfl⟩
  | cons e es ih =>
    rcases List.mem_cons.1 hx with h | h
    · exact ⟨prev, List.mem_cons_self _ _, by rw [h]⟩
    · obtain ⟨y, hy, hk⟩ := ih e h
      unfold remove_duplicates_loop
      by_cases hsame : e.same prev = true
      · simp only [hsame, Bool.not_true, Bool.false_eq_true, if_false]
        rcases List.mem_cons.1 hy with h2 | h2
        · refine ⟨prev, List.mem_cons_self _ _, ?_⟩
          rw [← hk, h2]; exact ((same_iff e prev).1 hsame).symm
        · exact ⟨y, List.mem_cons_of_mem _ h2, hk⟩
      · simp only [hsame, Bool.not_false, if_true]
        exact ⟨y, List.mem_cons_of_mem _ hy, hk⟩

theorem remove_duplicates_keys (l : List sample_pair) (x : sample_pair) (hx : x ∈ l) :
    ∃ y ∈ remove_duplicates l, y.key = x.key := by
  cases l with
  | nil => simp at hx
  | cons e es => exact remove_duplicates_loop_keys e es x hx

/-- The edges left by a sort by index followed by the removal of adjacent duplicates. -/
theorem dedup_spec (sort_index : List sample_pair → List sample_pair)
    (hsort : IsStdSort order_by_index sort_index) (edges : List sample_pair) :
    DuplicateFree (remove_duplicates (sort_index edges)) ∧
    (∀ x ∈ remove_duplicates (sort_index edges), x ∈ edges) ∧
    (∀ x ∈ edges, ∃ y ∈ remove_duplicates (sort_index edges), y.key = x.key) := by
  obtain ⟨hperm, hsorted⟩ := hsort edges
  refine ⟨duplicateFree_of_strict _ (remove_duplicates_sorted _ hsorted), ?_, ?_⟩
  · intro x hx
    exact hperm.subset ((remove_duplicates_sublist _).subset hx)
  · intro x hx
    exact remove_duplicates_keys _ x (hperm.symm.subset hx)

theorem dedup_length (sort_index : List sample_pair → List sample_pair)
    (hsort : IsStdSort order_by_index sort_index) (edges : List sample_pair) :
    (remove_duplicates (sort_index edges)).length = distinct_pair_count edges := by
  obtain ⟨hdf, hsub, hkeys⟩ := dedup_spec sort_index hsort edges
  unfold distinct_pair_count
  rw [duplicateFree_iff_nodup] at hdf
  rw [← List.length_map (remove_duplicates (sort_index edges)) sample_pair.key,
    ← List.toFinset_card_of_nodup hdf]
  congr 1
  ext k
  simp only [List.mem_toFinset, List.mem_map]
  constructor
  · rintro ⟨y, hy, rfl⟩
    exact ⟨y, hsub y hy, rfl⟩
  · rintro ⟨x, hx, rfl⟩
    obtain ⟨y, hy, hk⟩ := hkeys x hx
    exact ⟨y, hy, hk⟩

/-- The implementation `std_sort` meets the contract of `std::sort` for a comparator
that is a strict weak ordering. -/
theorem std_sort_isStdSort {α : Type} (comp : α → α → Bool)
    (htrans : ∀ a b c, comp b a = false → comp c b = false → comp c a = false)
    (htotal : ∀ a b, comp b a = false ∨ comp a b = false) :
    IsStdSort comp (std_sort comp) := by
  intro l
  refine ⟨List.perm_insertionSort _ l, ?_⟩
  haveI : IsTotal α (fun a b => comp b a = false) := ⟨htotal⟩
  haveI : IsTrans α (fun a b => comp b a = false) := ⟨htrans⟩
  exact List.sorted_insertionSort (fun a b => comp b a = false) l

theorem std_sort_index : IsStdSort order_by_index (std_sort order_by_index) := by
  apply std_sort_isStdSort
  · intro a b c h1 h2
    have h3 : ¬ (order_by_index b a = true) := by simp [h1]
    have h4 : ¬ (order_by_index c b = true) := by simp [h2]
    have h5 : ¬ (order_by_index c a = true) := by
      rw [order_by_index_iff] at h3 h4 ⊢
      omega
    simpa using h5
  · intro a b
    by_cases h : order_by_index b a = true
    · right
      have h5 : ¬ (order_by_index a b = true) := by
        rw [order_by_index_iff] at h ⊢
        omega
      simpa using h5
    · left; simpa using h

theorem std_sort_distance : IsStdSort order_by_distance (std_sort order_by_distance) := by
  apply std_sort_isStdSort
  · intro a b c h1 h2
    simp only [order_by_distance, decide_eq_false_iff_not, not_lt] at h1 h2 ⊢
    omega
  · intro a b
    simp only [order_by_distance, decide_eq_false_iff_not, not_lt]
    omega


/-! ### Rounding to `double` -/

theorem round_half_even_intCast (k : ℤ) : round_half_even (k : ℚ) = k := by
  unfold round_half_even
  rw [Int.floor_intCast, sub_self, if_pos (by norm_num)]

theorem round_half_even_le (y : ℚ) (k : ℤ) (h : y ≤ k) : round_half_even y ≤ k := by
  have hfl : ⌊y⌋ ≤ k := Int.floor_le_floor h |>.trans (le_of_eq (Int.floor_intCast k))
  by_cases hy : y = (k : ℚ)
  · rw [hy, round_half_even_intCast]
  · have hlt : y < k := lt_of_le_of_ne h hy
    have hfl2 : ⌊y⌋ + 1 ≤ k := by
      by_contra hcon
      have hk : k ≤ ⌊y⌋ := by omega
      have : (k : ℚ) ≤ y := Int.le_floor.1 hk
      exact absurd hlt (not_lt.2 this)
    unfold round_half_even
    split
    · exact hfl
    · split
      · exact hfl2
      · split
        · exact hfl
        · exact hfl2

theorem double_ulp_exponent_nonpos (x : ℚ) (hx : x < 2 ^ 53) : double_ulp_exponent x ≤ 0 := by
  unfold double_ulp_exponent
  have hlog : Int.log 2 x ≤ 52 := by
    rcases le_or_lt x 0 with h | h
    · rw [Int.log_of_right_le_zero 2 h]; norm_num
    · have : Int.log 2 x < 53 := by
        rw [← Int.lt_zpow_iff_log_lt (by norm_num) h]
        exact_mod_cast hx
      omega
  have : max (Int.log 2 x) (-1022) ≤ 52 := max_le hlog (by norm_num)
  omega

/-- A rational that is a whole number of units in the last place is a double. -/
theorem round_to_double_of_int (x : ℚ) (k : ℤ)
    (h : x / 2 ^ double_ulp_exponent x = (k : ℚ)) : round_to_double x = x := by
  unfold round_to_double
  rw [h, round_half_even_intCast, ← h]
  have : (2 : ℚ) ^ double_ulp_exponent x ≠ 0 := zpow_ne_zero _ (by norm_num)
  field_simp

theorem round_to_double_natCast (c : Nat) (hc : c < 2 ^ 53) : round_to_double (c : ℚ) = c := by
  have hx : (c : ℚ) < 2 ^ 53 := by exact_mod_cast hc
  have hg := double_ulp_exponent_nonpos (c : ℚ) hx
  obtain ⟨m, hm⟩ : ∃ m : Nat, double_ulp_exponent (c : ℚ) = -(m : ℤ) :=
    ⟨(-double_ulp_exponent (c : ℚ)).toNat, by omega⟩
  apply round_to_double_of_int _ ((c * 2 ^ m : Nat) : ℤ)
  rw [hm, zpow_neg, zpow_natCast]
  push_cast
  field_simp

theorem round_to_double_le (x : ℚ) (c : Nat) (hc : c < 2 ^ 53) (hx : x ≤ c) :
    round_to_double x ≤ c := by
  have hx2 : x < 2 ^ 53 := lt_of_le_of_lt hx (by exact_mod_cast hc)
  have hg := double_ulp_exponent_nonpos x hx2
  obtain ⟨m, hm⟩ : ∃ m : Nat, double_ulp_exponent x = -(m : ℤ) :=
    ⟨(-double_ulp_exponent x).toNat, by omega⟩
  unfold round_to_double
  rw [hm, zpow_neg, zpow_natCast]
  have hpos : (0 : ℚ) < 2 ^ m := by positivity
  have hy : x / (2 ^ m)⁻¹ ≤ ((c * 2 ^ m : Nat) : ℤ) := by
    rw [div_inv_eq_mul]
    push_cast
    exact mul_le_mul_of_nonneg_right hx (le_of_lt hpos)
  have hr := round_half_even_le _ _ hy
  have hr2 : (round_half_even (x / (2 ^ m)⁻¹) : ℚ) ≤ ((c * 2 ^ m : Nat) : ℤ) := by
    exact_mod_cast hr
  calc (round_half_even (x / (2 ^ m)⁻¹) : ℚ) * (2 ^ m)⁻¹
      ≤ (((c * 2 ^ m : Nat) : ℤ) : ℚ) * (2 ^ m)⁻¹ :=
        mul_le_mul_of_nonneg_right hr2 (le_of_lt (inv_pos.2 hpos))
    _ = c := by push_cast; field_simp

/-- The offset `edges.size()*percent` never passes the end of the vector. -/
theorem double_offset_le (c : Nat) (percent : ℚ) (hc : c < 2 ^ 53) (hp1 : percent ≤ 1) :
    Nat.floor (round_to_double (round_to_double (c : ℚ) * percent)) ≤ c := by
  rw [round_to_double_natCast c hc]
  have hx : (c : ℚ) * percent ≤ c := by
    calc (c : ℚ) * percent ≤ (c : ℚ) * 1 := mul_le_mul_of_nonneg_left hp1 (Nat.cast_nonneg c)
      _ = c := mul_one _
  have := round_to_double_le _ c hc hx
  by_cases h0 : 0 ≤ round_to_double ((c : ℚ) * percent)
  · exact Nat.floor_le_of_le this
  · rw [Nat.floor_of_nonpos (le_of_not_le h0)]; exact Nat.zero_le _

/-- The `double` product of 10 and the `double` nearest to 0.3, which is
`5404319552844595 / 2^54`, is 3. -/
theorem round_to_double_ten_times :
    round_to_double (10 * (5404319552844595 / 18014398509481984)) = 3 := by
  have hlog : Int.log 2 ((10 : ℚ) * (5404319552844595 / 18014398509481984)) = 1 := by
    rw [Int.log_of_one_le_right 2 (by norm_num)]
    have hfl : ⌊(10 : ℚ) * (5404319552844595 / 18014398509481984)⌋₊ = 2 := by
      rw [Nat.floor_eq_iff (by norm_num)]
      constructor <;> norm_num
    rw [hfl]
    norm_num [Nat.log]
  have hg : double_ulp_exponent ((10 : ℚ) * (5404319552844595 / 18014398509481984)) = -51 := by
    unfold double_ulp_exponent
    rw [hlog]; norm_num
  unfold round_to_double
  rw [hg]
  have hfloor : ⌊(10 : ℚ) * (5404319552844595 / 18014398509481984) / 2 ^ (-51 : ℤ)⌋
      = 6755399441055743 := by
    rw [Int.floor_eq_iff]
    constructor <;> norm_num
  have hr : round_half_even ((10 : ℚ) * (5404319552844595 / 18014398509481984) / 2 ^ (-51 : ℤ))
      = 6755399441055744 := by
    unfold round_half_even
    rw [hfloor]
    rw [if_neg (by norm_num), if_pos (by norm_num)]
    norm_num
  rw [hr]
  norm_num


/-- The `double` nearest to the decimal 0.3 is `5404319552844595 / 2^54`. -/
theorem round_to_double_three_tenths :
    round_to_double (3 / 10) = 5404319552844595 / 18014398509481984 := by
  have hlog : Int.log 2 ((3 : ℚ) / 10) = -2 := by
    have h1 : (2 : ℚ) ^ (-2 : ℤ) ≤ 3 / 10 := by norm_num
    have h2 : (3 : ℚ) / 10 < 2 ^ (-1 : ℤ) := by norm_num
    have h3 := (Int.zpow_le_iff_le_log (b := 2) (by norm_num) (by norm_num : (0 : ℚ) < 3 / 10)).1
      (by exact_mod_cast h1 : ((2 : ℕ) : ℚ) ^ (-2 : ℤ) ≤ 3 / 10)
    have h4 := (Int.lt_zpow_iff_log_lt (b := 2) (by norm_num) (by norm_num : (0 : ℚ) < 3 / 10)).1
      (by exact_mod_cast h2 : (3 : ℚ) / 10 < ((2 : ℕ) : ℚ) ^ (-1 : ℤ))
    omega
  have hg : double_ulp_exponent ((3 : ℚ) / 10) = -54 := by
    unfold double_ulp_exponent
    rw [hlog]; norm_num
  unfold round_to_double
  rw [hg]
  have hfloor : ⌊(3 : ℚ) / 10 / 2 ^ (-54 : ℤ)⌋ = 5404319552844595 := by
    rw [Int.floor_eq_iff]
    constructor <;> norm_num
  have hr : round_half_even ((3 : ℚ) / 10 / 2 ^ (-54 : ℤ)) = 5404319552844595 := by
    unfold round_half_even
    rw [hfloor]
    rw [if_pos (by norm_num)]
  rw [hr]
  norm_num


/-! ### The randomized sampler -/

theorem find_percent_eq (sort_index sort_distance : List sample_pair → List sample_pair)
    (n : Nat) (dist_funct : Nat → Nat → Int) (percent : ℚ) (num : Nat) (draws : List Nat)
    (edges : List sample_pair) (hcand : random_edges n dist_funct num draws [] = some edges) :
    find_percent_shortest_edges_randomly sort_index sort_distance n dist_funct percent num
      draws = some (shortest_percent sort_index sort_distance percent edges) := by
  unfold find_percent_shortest_edges_randomly
  rw [hcand]; rfl

theorem find_percent_some (sort_index sort_distance : List sample_pair → List sample_pair)
    (n : Nat) (dist_funct : Nat → Nat → Int) (percent : ℚ) (num : Nat) (draws : List Nat)
    (out : List sample_pair)
    (hout : find_percent_shortest_edges_randomly sort_index sort_distance n dist_funct percent
      num draws = some out) :
    ∃ edges, random_edges n dist_funct num draws [] = some edges ∧
      out = shortest_percent sort_index sort_distance percent edges := by
  unfold find_percent_shortest_edges_randomly at hout
  rcases Option.map_eq_some'.1 hout with ⟨edges, h1, h2⟩
  exact ⟨edges, h1, h2.symm⟩

theorem shortest_percent_duplicateFree
    (sort_index sort_distance : List sample_pair → List sample_pair)
    (hsi : IsStdSort order_by_index sort_index)
    (hsd : IsStdSort order_by_distance sort_distance)
    (percent : ℚ) (edges : List sample_pair) :
    DuplicateFree (shortest_percent sort_index sort_distance percent edges) := by
  unfold shortest_percent
  apply duplicateFree_sublist (List.take_sublist _ _)
  exact duplicateFree_perm (hsd _).1 (dedup_spec sort_index hsi edges).1

theorem distinct_pair_count_le (edges : List sample_pair) :
    distinct_pair_count edges ≤ edges.length := by
  unfold distinct_pair_count
  exact (List.toFinset_card_le _).trans (le_of_eq (List.length_map _ _))

theorem shortest_percent_length
    (sort_index sort_distance : List sample_pair → List sample_pair)
    (hsi : IsStdSort order_by_index sort_index)
    (hsd : IsStdSort order_by_distance sort_distance)
    (percent : ℚ) (hp1 : percent ≤ 1) (edges : List sample_pair)
    (hsize : edges.length < 2 ^ 53) :
    (shortest_percent sort_index sort_distance percent edges).length =
      Nat.floor (round_to_double ((distinct_pair_count edges : ℚ) * percent)) := by
  have hc : distinct_pair_count edges < 2 ^ 53 :=
    lt_of_le_of_lt (distinct_pair_count_le edges) hsize
  have hlen : (sort_distance (remove_duplicates (sort_index edges))).length =
      distinct_pair_count edges := by
    rw [(hsd _).1.length_eq, dedup_length sort_index hsi edges]
  unfold shortest_percent
  rw [List.length_take, hlen, Nat.min_eq_left (double_offset_le _ _ hc hp1),
    round_to_double_natCast _ hc]

theorem shortest_percent_sorted
    (sort_index sort_distance : List sample_pair → List sample_pair)
    (hsd : IsStdSort order_by_distance sort_distance)
    (percent : ℚ) (edges : List sample_pair) :
    (shortest_percent sort_index sort_distance percent edges).Pairwise
      (fun a b => a.distance ≤ b.distance) ∧
    ∃ discarded, (shortest_percent sort_index sort_distance percent edges ++ discarded).Perm
        (remove_duplicates (sort_index edges)) ∧
      ∀ a ∈ shortest_percent sort_index sort_distance percent edges,
        ∀ b ∈ discarded, a.distance ≤ b.distance := by
  unfold shortest_percent
  simp only []
  set D := remove_duplicates (sort_index edges) with hD
  set m := Nat.floor (round_to_double
    (round_to_double ((sort_distance D).length : ℚ) * percent)) with hm
  have hsorted : (sort_distance D).Pairwise (fun a b => a.distance ≤ b.distance) := by
    refine List.Pairwise.imp ?_ (hsd D).2
    intro a b h
    simpa [order_by_distance] using h
  have hsplit : (sort_distance D).take m ++ (sort_distance D).drop m = sort_distance D :=
    List.take_append_drop m _
  refine ⟨List.Pairwise.sublist (List.take_sublist _ _) hsorted, (sort_distance D).drop m,
    ?_, ?_⟩
  · rw [hsplit]; exact (hsd D).1
  · rw [← hsplit] at hsorted
    exact (List.pairwise_append.1 hsorted).2.2


/-- The sampling loop ends with `num` candidates as soon as the random values supplied
hold enough pairs of different sample indices. -/
theorem random_edges_some (n : Nat) (dist_funct : Nat → Nat → Int) (num : Nat)
    (draws : List Nat) (edges : List sample_pair)
    (h : num ≤ edges.length + valid_draw_count n draws) :
    ∃ es, random_edges n dist_funct num draws edges = some es ∧ num ≤ es.length := by
  induction draws, edges using random_edges.induct n dist_funct num with
  | case1 r1 r2 rest edges hlt idx1 idx2 hne ih =>
    rw [random_edges, if_pos hlt]
    simp only [valid_draw_count] at h
    have hne2 : r1 % n ≠ r2 % n := hne
    rw [if_pos hne2] at h
    simp only [ne_eq, hne2, not_false_eq_true, if_true]
    apply ih
    simp only [List.length_append, List.length_singleton]
    omega
  | case2 r1 r2 rest edges hlt idx1 idx2 heq ih =>
    rw [random_edges, if_pos hlt]
    simp only [valid_draw_count] at h
    have heq2 : ¬ (r1 % n ≠ r2 % n) := heq
    rw [if_neg heq2] at h
    simp only [heq2, if_false]
    apply ih
    omega
  | case3 r1 r2 rest edges hge =>
    rw [random_edges, if_neg hge]
    exact ⟨edges, rfl, by omega⟩
  | case4 t edges hlt hshape =>
    exfalso
    match t, hshape with
    | [], _ => simp only [valid_draw_count] at h; omega
    | [_], _ => simp only [valid_draw_count] at h; omega
    | r1 :: r2 :: rest, hshape => exact hshape r1 r2 rest rfl
  | case5 t edges hge hshape =>
    match t, hshape with
    | [], _ =>
      rw [random_edges, if_neg hge]
      · exact ⟨edges, rfl, by omega⟩
      · intro r1 r2 rest h2; cases h2
    | [_], _ =>
      rw [random_edges, if_neg hge]
      · exact ⟨edges, rfl, by omega⟩
      · intro r1 r2 rest h2; cases h2
    | r1 :: r2 :: rest, hshape => exact absurd rfl (fun h2 => hshape r1 r2 rest h2)


/-! ### The loops of `find_k_nearest_neighbors` for `k = 1` -/

theorem iterator_of_worst_single (edges : List sample_pair) (b : Nat) :
    iterator_of_worst edges b (b + 1) = b := by
  unfold iterator_of_worst
  rw [Nat.add_sub_cancel_left]
  simp [iterator_of_worst_loop]

theorem knn_update_one_edges (st : knn_state) (v i j : Nat) (d : Int) :
    (knn_update 1 st v v i j d).edges =
      if d < st.worst_dists.getD v 0 then st.edges.set v (sample_pair.make i j d)
      else st.edges := by
  unfold knn_update
  split
  · simp [iterator_of_worst_single]
  · rfl

theorem knn_update_one_worst (st : knn_state) (v i j : Nat) (d : Int)
    (hv : v < st.edges.length) :
    (knn_update 1 st v v i j d).worst_dists =
      if d < st.worst_dists.getD v 0 then st.worst_dists.set v d
      else st.worst_dists := by
  unfold knn_update
  split
  · simp only [iterator_of_worst_single]
    congr 1
    rw [List.getD_eq_getElem?_getD, List.getElem?_set]
    simp [hv, sample_pair.make]
  · rfl

theorem getD_set_eq {α : Type} (l : List α) (v u : Nat) (x dflt : α) (hv : v < l.length) :
    (l.set v x).getD u dflt = if u = v then x else l.getD u dflt := by
  rw [List.getD_eq_getElem?_getD, List.getElem?_set]
  by_cases h : v = u
  · subst h; simp [hv]
  · have h2 : ¬ u = v := fun h3 => h h3.symm
    simp [h, h2]

/-- Effect of one update for `k = 1` on the slots and on `worst_dists`. -/
theorem knn_update_one_spec (n : Nat) (st : knn_state) (v i j : Nat) (d : Int)
    (hle : st.edges.length = n) (hlw : st.worst_dists.length = n) (hv : v < n) :
    (knn_update 1 st v v i j d).edges.length = n ∧
    (knn_update 1 st v v i j d).worst_dists.length = n ∧
    (∀ u, (knn_update 1 st v v i j d).edges.getD u sample_pair.default =
      if u = v ∧ d < st.worst_dists.getD v 0 then sample_pair.make i j d
      else st.edges.getD u sample_pair.default) ∧
    (∀ u, (knn_update 1 st v v i j d).worst_dists.getD u 0 =
      if u = v ∧ d < st.worst_dists.getD v 0 then d
      else st.worst_dists.getD u 0) := by
  rw [knn_update_one_edges, knn_update_one_worst st v i j d (by omega)]
  by_cases h : d < st.worst_dists.getD v 0
  · simp only [if_pos h, List.length_set, and_true]
    refine ⟨hle, hlw, ?_, ?_⟩
    · intro u; rw [getD_set_eq _ _ _ _ _ (by omega)]; simp only [h, and_true]
    · intro u; rw [getD_set_eq _ _ _ _ _ (by omega)]; simp only [h, and_true]
  · rw [if_neg h, if_neg h]
    refine ⟨hle, hlw, ?_, ?_⟩
    · intro u; rw [if_neg (fun hh => h hh.2)]
    · intro u; rw [if_neg (fun hh => h hh.2)]

theorem slotInv_congr (dist_funct : Nat → Nat → Int) (ps : List (Nat × Nat))
    (st st2 : knn_state) (u : Nat)
    (he : st2.edges.getD u sample_pair.default = st.edges.getD u sample_pair.default)
    (hw : st2.worst_dists.getD u 0 = st.worst_dists.getD u 0)
    (h : SlotInv dist_funct ps st u) : SlotInv dist_funct ps st2 u := by
  unfold SlotInv at h ⊢
  rw [he, hw]; exact h

theorem slotInv_extend (dist_funct : Nat → Nat → Int) (ps : List (Nat × Nat))
    (st : knn_state) (u i j : Nat) (hi : u ≠ i) (hj : u ≠ j)
    (h : SlotInv dist_funct ps st u) : SlotInv dist_funct (ps ++ [(i, j)]) st u := by
  rcases h with ⟨h1, h2, h3⟩ | ⟨p, hp, h1, h2, h3, h4⟩
  · left
    refine ⟨?_, h2, h3⟩
    intro p hp
    rcases List.mem_append.1 hp with h | h
    · exact h1 p h
    · have : p = (i, j) := by simpa using h
      subst this; exact ⟨hi, hj⟩
  · right
    refine ⟨p, List.mem_append_left _ hp, h1, h2, h3, ?_⟩
    intro q hq hvq
    rcases List.mem_append.1 hq with h | h
    · exact h4 q h hvq
    · have : q = (i, j) := by simpa using h
      subst this
      rcases hvq with h5 | h5
      · exact absurd h5 hi
      · exact absurd h5 hj

theorem slotInv_hit (dist_funct : Nat → Nat → Int) (ps : List (Nat × Nat))
    (st st2 : knn_state) (v i j : Nat) (hv : v = i ∨ v = j)
    (hmax : dist_funct i j < FLT_MAX)
    (he : st2.edges.getD v sample_pair.default =
      if dist_funct i j < st.worst_dists.getD v 0 then sample_pair.make i j (dist_funct i j)
      else st.edges.getD v sample_pair.default)
    (hw : st2.worst_dists.getD v 0 =
      if dist_funct i j < st.worst_dists.getD v 0 then dist_funct i j
      else st.worst_dists.getD v 0)
    (h : SlotInv dist_funct ps st v) : SlotInv dist_funct (ps ++ [(i, j)]) st2 v := by
  right
  rcases h with ⟨h1, _, h3⟩ | ⟨p, hp, h1, h2, h3, h4⟩
  · rw [h3, if_pos hmax] at he hw
    refine ⟨(i, j), by simp, hv, he, hw, ?_⟩
    intro q hq hvq
    rcases List.mem_append.1 hq with h | h
    · have := h1 q h
      rcases hvq with h5 | h5
      · exact absurd h5 this.1
      · exact absurd h5 this.2
    · have : q = (i, j) := by simpa using h
      subst this; exact le_refl _
  · rw [h3] at he hw
    by_cases hlt : dist_funct i j < dist_funct p.1 p.2
    · rw [if_pos hlt] at he hw
      refine ⟨(i, j), by simp, hv, he, hw, ?_⟩
      intro q hq hvq
      rcases List.mem_append.1 hq with h | h
      · exact le_trans (le_of_lt hlt) (h4 q h hvq)
      · have : q = (i, j) := by simpa using h
        subst this; exact le_refl _
    · rw [if_neg hlt] at he hw
      refine ⟨p, List.mem_append_left _ hp, h1, he.trans h2, hw, ?_⟩
      intro q hq hvq
      rcases List.mem_append.1 hq with h | h
      · exact h4 q h hvq
      · have : q = (i, j) := by simpa using h
        subst this; exact not_lt.1 hlt

/-- The body of the inner loop keeps the invariant. -/
theorem pair_step_inv (n : Nat) (dist_funct : Nat → Nat → Int) (ps : List (Nat × Nat))
    (st : knn_state) (i j : Nat) (hij : i < j) (hj : j < n)
    (hmax : dist_funct i j < FLT_MAX) (h : KnnInv n dist_funct ps st) :
    KnnInv n dist_funct (ps ++ [(i, j)]) (pair_step dist_funct st (i, j)) := by
  obtain ⟨hle, hlw, hslots⟩ := h
  unfold pair_step
  simp only []
  set d := dist_funct i j with hd
  set st1 := knn_update 1 st i i i j d with hst1
  obtain ⟨hle1, hlw1, he1, hw1⟩ := knn_update_one_spec n st i i j d hle hlw (by omega)
  rw [← hst1] at hle1 hlw1 he1 hw1
  obtain ⟨hle2, hlw2, he2, hw2⟩ := knn_update_one_spec n st1 j i j d hle1 hlw1 hj
  refine ⟨hle2, hlw2, ?_⟩
  intro u hu
  have hne : ¬ i = j := by omega
  by_cases hui : u = i
  · subst hui
    have hs1 : SlotInv dist_funct (ps ++ [(u, j)]) st1 u := by
      apply slotInv_hit dist_funct ps st st1 u u j (Or.inl rfl) hmax _ _ (hslots u hu)
      · rw [he1 u]; simp [hd]
      · rw [hw1 u]; simp [hd]
    apply slotInv_congr dist_funct _ st1 _ u _ _ hs1
    · rw [he2 u]; simp [hne]
    · rw [hw2 u]; simp [hne]
  · by_cases huj : u = j
    · subst huj
      have hs1 : SlotInv dist_funct ps st1 u := by
        apply slotInv_congr dist_funct _ st _ u _ _ (hslots u hu)
        · rw [he1 u]; simp [hui]
        · rw [hw1 u]; simp [hui]
      apply slotInv_hit dist_funct ps st1 _ u i u (Or.inr rfl) hmax _ _ hs1
      · rw [he2 u]; simp [hd]
      · rw [hw2 u]; simp [hd]
    · apply slotInv_extend dist_funct ps _ u i j hui huj
      apply slotInv_congr dist_funct _ st _ u _ _ (hslots u hu)
      · rw [he2 u, he1 u]; simp [hui, huj]
      · rw [hw2 u, hw1 u]; simp [hui, huj]

theorem foldl_pair_step_inv (n : Nat) (dist_funct : Nat → Nat → Int)
    (rest done : List (Nat × Nat)) (st : knn_state)
    (hrest : ∀ p ∈ rest, p.1 < p.2 ∧ p.2 < n ∧ dist_funct p.1 p.2 < FLT_MAX)
    (h : KnnInv n dist_funct done st) :
    KnnInv n dist_funct (done ++ rest) (rest.foldl (pair_step dist_funct) st) := by
  induction rest generalizing done st with
  | nil => simpa using h
  | cons p ps ih =>
    obtain ⟨h1, h2, h3⟩ := hrest p (List.mem_cons_self _ _)
    have := ih (done ++ [p]) (pair_step dist_funct st p)
      (fun q hq => hrest q (List.mem_cons_of_mem _ hq))
      (pair_step_inv n dist_funct done st p.1 p.2 h1 h2 h3 h)
    simpa using this

theorem knn_inner_one (dist_funct : Nat → Nat → Int) (i cnt j : Nat) (st : knn_state) :
    knn_inner dist_funct 1 i i cnt j j st =
      ((List.range' j cnt).map (fun j => (i, j))).foldl (pair_step dist_funct) st := by
  induction cnt generalizing j st with
  | zero => simp [knn_inner]
  | succ c ih =>
    rw [knn_inner, List.range'_succ, List.map_cons, List.foldl_cons]
    exact ih (j + 1) _

theorem knn_outer_one (dist_funct : Nat → Nat → Int) (n cnt i : Nat) (st : knn_state) :
    knn_outer dist_funct 1 n cnt i i st =
      ((List.range' i cnt).flatMap
        (fun i => (List.range' (i + 1) (n - (i + 1))).map (fun j => (i, j)))).foldl
        (pair_step dist_funct) st := by
  induction cnt generalizing i st with
  | zero => simp [knn_outer]
  | succ c ih =>
    rw [knn_outer, List.range'_succ, List.flatMap_cons, List.foldl_append]
    rw [knn_inner_one]
    exact ih (i + 1) _

theorem mem_all_pairs (n a b : Nat) : (a, b) ∈ all_pairs n ↔ a < b ∧ b < n := by
  unfold all_pairs
  simp only [List.mem_flatMap, List.mem_map, List.mem_range', Prod.mk.injEq]
  constructor
  · rintro ⟨i, ⟨_, hi⟩, j, ⟨k, hk, hj⟩, h1, h2⟩
    omega
  · rintro ⟨h1, h2⟩
    exact ⟨a, ⟨a, by omega, by omega⟩, b, ⟨b - (a + 1), by omega, by omega⟩, rfl, rfl⟩

/-- The state at the end of the loops for `k = 1`. -/
theorem knn_final_inv (n : Nat) (dist_funct : Nat → Nat → Int)
    (hmax : ∀ i j, i < j → j < n → dist_funct i j < FLT_MAX) :
    KnnInv n dist_funct (all_pairs n)
      (knn_outer dist_funct 1 n n 0 0
        ⟨List.replicate (n * 1) sample_pair.default, List.replicate n FLT_MAX⟩) := by
  rw [knn_outer_one]
  have h0 : KnnInv n dist_funct []
      ⟨List.replicate (n * 1) sample_pair.default, List.replicate n FLT_MAX⟩ := by
    refine ⟨by simp, by simp, ?_⟩
    intro v hv
    left
    refine ⟨by simp, ?_, ?_⟩
    · simp [List.getD_eq_getElem?_getD, List.getElem?_replicate]
      split <;> rfl
    · simp [List.getD_eq_getElem?_getD, List.getElem?_replicate, hv]
  have := foldl_pair_step_inv n dist_funct (all_pairs n) [] _ ?_ h0
  · simpa [all_pairs] using this
  · intro p hp
    have h1 := (mem_all_pairs n p.1 p.2).1 hp
    exact ⟨h1.1, h1.2, hmax _ _ h1.1 h1.2⟩


/-! ### The output of `find_k_nearest_neighbors` for `k = 1` -/

theorem exists_pair_touching (n v : Nat) (hn : 1 < n) (hv : v < n) :
    ∃ p ∈ all_pairs n, v = p.1 ∨ v = p.2 := by
  by_cases h : v = 0
  · exact ⟨(0, 1), (mem_all_pairs n 0 1).2 ⟨by omega, hn⟩, Or.inl h⟩
  · exact ⟨(0, v), (mem_all_pairs n 0 v).2 ⟨by omega, hv⟩, Or.inr rfl⟩

/-- With `k = 1`, every slot ends up holding a pair with that node as an endpoint, of
least distance among the pairs with that endpoint. -/
theorem knn_slot_filled (n : Nat) (dist_funct : Nat → Nat → Int) (hn : 1 < n)
    (hmax : ∀ i j, i < j → j < n → dist_funct i j < FLT_MAX) (v : Nat) (hv : v < n) :
    ∃ a b, a < b ∧ b < n ∧ (v = a ∨ v = b) ∧
      (knn_outer dist_funct 1 n n 0 0
        ⟨List.replicate (n * 1) sample_pair.default, List.replicate n FLT_MAX⟩).edges.getD v
          sample_pair.default = sample_pair.make a b (dist_funct a b) ∧
      ∀ a2 b2, a2 < b2 → b2 < n → (v = a2 ∨ v = b2) → dist_funct a b ≤ dist_funct a2 b2 := by
  obtain ⟨_, _, hslots⟩ := knn_final_inv n dist_funct hmax
  rcases hslots v hv with ⟨h1, _, _⟩ | ⟨p, hp, h1, h2, _, h4⟩
  · obtain ⟨p, hp, hvp⟩ := exists_pair_touching n v hn hv
    have := h1 p hp
    rcases hvp with h | h
    · exact absurd h this.1
    · exact absurd h this.2
  · have hab := (mem_all_pairs n p.1 p.2).1 hp
    refine ⟨p.1, p.2, hab.1, hab.2, h1, h2, ?_⟩
    intro a2 b2 h5 h6 h7
    exact h4 (a2, b2) ((mem_all_pairs n a2 b2).2 ⟨h5, h6⟩) h7

theorem knn_slots_no_sentinel (n : Nat) (dist_funct : Nat → Nat → Int) (hn : 1 < n)
    (hmax : ∀ i j, i < j → j < n → dist_funct i j < FLT_MAX) (e : sample_pair)
    (he : e ∈ (knn_outer dist_funct 1 n n 0 0
        ⟨List.replicate (n * 1) sample_pair.default, List.replicate n FLT_MAX⟩).edges) :
    ∃ a b, a < b ∧ b < n ∧ e = sample_pair.make a b (dist_funct a b) := by
  obtain ⟨hle, _, _⟩ := knn_final_inv n dist_funct hmax
  obtain ⟨v, hv, hget⟩ := List.mem_iff_getElem.1 he
  rw [hle] at hv
  obtain ⟨a, b, hab, hb, _, hslot, _⟩ := knn_slot_filled n dist_funct hn hmax v hv
  refine ⟨a, b, hab, hb, ?_⟩
  rw [← hslot, ← hget, List.getD_eq_getElem?_getD, List.getElem?_eq_getElem, Option.getD_some]

theorem key_make_of_lt (a b : Nat) (d : Int) (h : a < b) :
    (sample_pair.make a b d).key = (a, b) := by
  simp only [sample_pair.key, sample_pair.make, Prod.mk.injEq]
  omega


/-! ## The claims on the two edge-set builders -/

/-- C1, as stated, fails. With `k = 1` and two samples at distance `FLT_MAX`, a finite
value, the output is the single sentinel edge. With `k = 2` and four samples at distances
`d(0,1)=3, d(0,2)=2, d(0,3)=1, d(1,2)=4, d(1,3)=5, d(2,3)=6`, the output lacks the edge
`{0,1}`, although node 0 is the nearest neighbor of node 1. -/
theorem knn_top_k_counterexample :
    find_k_nearest_neighbors (std_sort order_by_index) 2 (fun _ _ => FLT_MAX) 1 =
      [⟨0, 0, FLT_INF⟩] ∧
    ¬ TopKOptimal (find_k_nearest_neighbors (std_sort order_by_index) 2 (fun _ _ => FLT_MAX) 1)
        2 1 (fun _ _ => FLT_MAX) ∧
    find_k_nearest_neighbors (std_sort order_by_index) 4
        (fun i j => ([[0, 3, 2, 1], [0, 0, 4, 5], [0, 0, 0, 6]].getD i []).getD j 0) 2 =
      [⟨0, 0, FLT_INF⟩, ⟨0, 2, 2⟩, ⟨0, 3, 1⟩, ⟨1, 2, 4⟩, ⟨1, 3, 5⟩] ∧
    ¬ TopKOptimal (find_k_nearest_neighbors (std_sort order_by_index) 4
        (fun i j => ([[0, 3, 2, 1], [0, 0, 4, 5], [0, 0, 0, 6]].getD i []).getD j 0) 2)
        4 2 (fun i j => ([[0, 3, 2, 1], [0, 0, 4, 5], [0, 0, 0, 6]].getD i []).getD j 0) := by
  refine ⟨by decide, ?_, by decide, ?_⟩
  · intro h
    obtain ⟨S, hcard, hS, _⟩ := h 0 (by decide)
    have hne : S.Nonempty := by
      rw [← Finset.card_pos, hcard]; decide
    obtain ⟨s, hs⟩ := hne
    obtain ⟨h1, h2, h3⟩ := hS s hs
    have hs1 : s = 1 := by omega
    subst hs1
    revert h3
    decide
  · intro h
    obtain ⟨S, hcard, hS, hopt⟩ := h 1 (by decide)
    have h0 : (0 : Nat) ∉ S := by
      intro h0
      have := (hS 0 h0).2.2
      revert this
      decide
    have hempty : S = ∅ := by
      apply Finset.eq_empty_of_forall_not_mem
      intro s hs
      obtain ⟨h1, h2, _⟩ := hS s hs
      have hle := hopt 0 (by decide) (by decide) h0 s hs
      have hs0 : s ≠ 0 := fun h => h0 (h ▸ hs)
      have hcases : s = 2 ∨ s = 3 := by omega
      rcases hcases with h | h
      · subst h; revert hle; decide
      · subst h; revert hle; decide
    rw [hempty] at hcard
    revert hcard
    decide

/-- C1, amended: for `k = 1`, every sample set of size `n >= 2` and every distance function
whose values are below `FLT_MAX`, `find_k_nearest_neighbors` is top-1 optimal: every node
`i` has a node `s != i` such that the output contains the edge `{i, s}` with distance
`dist(i, s)`, and every other node `j != i` satisfies `dist(i, j) >= dist(i, s)`. -/
theorem knn_top_one (sort_index : List sample_pair → List sample_pair)
    (hsort : IsStdSort order_by_index sort_index) (n : Nat) (dist_funct : Nat → Nat → Int)
    (hn : 1 < n) (hmax : ∀ i j, i < j → j < n → dist_funct i j < FLT_MAX) :
    TopKOptimal (find_k_nearest_neighbors sort_index n dist_funct 1) n 1 dist_funct := by
  intro i hi
  obtain ⟨a, b, hab, hb, hiab, hslot, hmin⟩ := knn_slot_filled n dist_funct hn hmax i hi
  obtain ⟨hle, _, _⟩ := knn_final_inv n dist_funct hmax
  obtain ⟨_, hsub, hkeys⟩ := dedup_spec sort_index hsort
    (knn_outer dist_funct 1 n n 0 0
      ⟨List.replicate (n * 1) sample_pair.default, List.replicate n FLT_MAX⟩).edges
  -- the slot of `i` is an element of the vector
  have hmem : sample_pair.make a b (dist_funct a b) ∈ (knn_outer dist_funct 1 n n 0 0
      ⟨List.replicate (n * 1) sample_pair.default, List.replicate n FLT_MAX⟩).edges := by
    rw [← hslot, List.getD_eq_getElem?_getD, List.getElem?_eq_getElem (by omega),
      Option.getD_some]
    exact List.getElem_mem _
  obtain ⟨y, hy, hky⟩ := hkeys _ hmem
  obtain ⟨a2, b2, hab2, _, hy2⟩ := knn_slots_no_sentinel n dist_funct hn hmax y (hsub y hy)
  rw [hy2, key_make_of_lt a2 b2 _ hab2, key_make_of_lt a b _ hab, Prod.mk.injEq] at hky
  obtain ⟨rfl, rfl⟩ := hky
  -- the neighbor `s` is the other endpoint
  have hs : ∃ s, s < n ∧ s ≠ i ∧ min i s = a2 ∧ max i s = b2 := by
    rcases hiab with h | h
    · exact ⟨b2, hb, by omega, by omega, by omega⟩
    · exact ⟨a2, by omega, by omega, by omega, by omega⟩
  obtain ⟨s, hsn, hsi, hmin_s, hmax_s⟩ := hs
  refine ⟨{s}, ?_, ?_, ?_⟩
  · rw [Finset.card_singleton]; omega
  · intro t ht
    rw [Finset.mem_singleton] at ht
    subst ht
    refine ⟨hsn, hsi, y, hy, ?_, ?_⟩
    · rw [hy2, key_make_of_lt a2 b2 _ hab2, hmin_s, hmax_s]
    · rw [hy2]; simp [sample_pair.make, pair_dist, hmin_s, hmax_s]
  · intro j hj hji _ t ht
    rw [Finset.mem_singleton] at ht
    subst ht
    unfold pair_dist
    rw [hmin_s, hmax_s]
    exact hmin (min i j) (max i j) (by omega) (by omega) (by omega)

/-- Witness of C1, amended: three samples with `dist(i, j) = i + j` and `k = 1`. -/
theorem knn_top_one_witness :
    IsStdSort order_by_index (std_sort order_by_index) ∧ 1 < 3 ∧
    (∀ i j, i < j → j < 3 → (fun (a b : Nat) => ((a + b : Nat) : Int)) i j < FLT_MAX) ∧
    TopKOptimal (find_k_nearest_neighbors (std_sort order_by_index) 3
      (fun a b => ((a + b : Nat) : Int)) 1) 3 1 (fun a b => ((a + b : Nat) : Int)) :=
  ⟨std_sort_index, by decide,
   by intro i j _ hj; simp only [FLT_MAX]; omega,
   knn_top_one (std_sort order_by_index) std_sort_index 3 (fun a b => ((a + b : Nat) : Int))
     (by decide) (by intro i j _ hj; simp only [FLT_MAX]; omega)⟩

/-- C4, as stated, fails. With `k = 1` and two samples at distance `FLT_MAX`, a finite
value, the output is the single sentinel edge. With `k = 2` and three samples the slot 5
is never written, and the sentinel it holds is in the output. -/
theorem knn_sentinel_counterexample :
    find_k_nearest_neighbors (std_sort order_by_index) 2 (fun _ _ => FLT_MAX) 1 =
      [⟨0, 0, FLT_INF⟩] ∧
    ¬ NoSentinel (find_k_nearest_neighbors (std_sort order_by_index) 2 (fun _ _ => FLT_MAX) 1)
        2 (fun _ _ => FLT_MAX) ∧
    find_k_nearest_neighbors (std_sort order_by_index) 3 (fun i j => ((i + j : Nat) : Int)) 2 =
      [⟨0, 0, FLT_INF⟩, ⟨0, 1, 1⟩, ⟨0, 2, 2⟩, ⟨1, 2, 3⟩] ∧
    ¬ NoSentinel (find_k_nearest_neighbors (std_sort order_by_index) 3
        (fun i j => ((i + j : Nat) : Int)) 2) 3 (fun i j => ((i + j : Nat) : Int)) := by
  refine ⟨by decide, by decide, by decide, by decide⟩

/-- C4, amended: for `k = 1`, every sample set of size `n >= 2` and every distance function
whose values are below `FLT_MAX`, every window slot is filled and every edge in the output
of `find_k_nearest_neighbors` has `index1 != index2`, both indices `< n`, and distance
`dist_funct(samples[index1], samples[index2])`. -/
theorem knn_no_sentinel (sort_index : List sample_pair → List sample_pair)
    (hsort : IsStdSort order_by_index sort_index) (n : Nat) (dist_funct : Nat → Nat → Int)
    (hn : 1 < n) (hmax : ∀ i j, i < j → j < n → dist_funct i j < FLT_MAX) :
    NoSentinel (knn_outer dist_funct 1 n n 0 0
      ⟨List.replicate (n * 1) sample_pair.default, List.replicate n FLT_MAX⟩).edges
      n dist_funct ∧
    NoSentinel (find_k_nearest_neighbors sort_index n dist_funct 1) n dist_funct := by
  have key : ∀ e ∈ (knn_outer dist_funct 1 n n 0 0
      ⟨List.replicate (n * 1) sample_pair.default, List.replicate n FLT_MAX⟩).edges,
      e.index1 ≠ e.index2 ∧ e.index1 < n ∧ e.index2 < n ∧
        e.distance = dist_funct e.index1 e.index2 := by
    intro e he
    obtain ⟨a, b, hab, hb, rfl⟩ := knn_slots_no_sentinel n dist_funct hn hmax e he
    show a ≠ b ∧ a < n ∧ b < n ∧ dist_funct a b = dist_funct a b
    exact ⟨by omega, by omega, hb, rfl⟩
  refine ⟨key, ?_⟩
  intro e he
  exact key e ((dedup_spec sort_index hsort _).2.1 e he)

/-- Witness of C4, amended: three samples with `dist(i, j) = i + j` and `k = 1`. -/
theorem knn_no_sentinel_witness :
    IsStdSort order_by_index (std_sort order_by_index) ∧ 1 < 3 ∧
    (∀ i j, i < j → j < 3 → (fun (a b : Nat) => ((a + b : Nat) : Int)) i j < FLT_MAX) ∧
    NoSentinel (find_k_nearest_neighbors (std_sort order_by_index) 3
      (fun a b => ((a + b : Nat) : Int)) 1) 3 (fun a b => ((a + b : Nat) : Int)) :=
  ⟨std_sort_index, by decide,
   by intro i j _ hj; simp only [FLT_MAX]; omega,
   (knn_no_sentinel (std_sort order_by_index) std_sort_index 3
     (fun a b => ((a + b : Nat) : Int))
     (by decide) (by intro i j _ hj; simp only [FLT_MAX]; omega)).2⟩


/-- C3: the edge list returned by `find_k_nearest_neighbors` and the edge list returned by
`find_percent_shortest_edges_randomly` contain no two entries at different positions that
connect the same unordered index pair. -/
theorem builders_duplicate_free (sort_index sort_distance : List sample_pair → List sample_pair)
    (hsi : IsStdSort order_by_index sort_index)
    (hsd : IsStdSort order_by_distance sort_distance)
    (n : Nat) (dist_funct : Nat → Nat → Int) :
    (∀ k, DuplicateFree (find_k_nearest_neighbors sort_index n dist_funct k)) ∧
    (∀ percent num draws edges, random_edges n dist_funct num draws [] = some edges →
      ∃ out, find_percent_shortest_edges_randomly sort_index sort_distance n dist_funct
        percent num draws = some out ∧ DuplicateFree out) := by
  constructor
  · intro k
    exact (dedup_spec sort_index hsi _).1
  · intro percent num draws edges hcand
    exact ⟨_, find_percent_eq sort_index sort_distance n dist_funct percent num draws edges hcand,
      shortest_percent_duplicateFree sort_index sort_distance hsi hsd percent edges⟩

/-- Witness of C3: four samples with `dist(i, j) = i + j`, `k = 2` for the k-NN builder, and for the sampler ten random values that give the candidates `(0,1)`, `(2,3)`, `(1,0)`. -/
theorem builders_duplicate_free_witness :
    IsStdSort order_by_index (std_sort order_by_index) ∧
    IsStdSort order_by_distance (std_sort order_by_distance) ∧
    DuplicateFree (find_k_nearest_neighbors (std_sort order_by_index) 4
      (fun a b => ((a + b : Nat) : Int)) 2) ∧
    (∃ out, find_percent_shortest_edges_randomly (std_sort order_by_index)
        (std_sort order_by_distance) 4 (fun a b => ((a + b : Nat) : Int)) (1 / 2) 3
        [0, 1, 1, 1, 2, 3, 1, 0, 3, 0] = some out ∧ DuplicateFree out) :=
  ⟨std_sort_index, std_sort_distance,
   (builders_duplicate_free (std_sort order_by_index) (std_sort order_by_distance)
     std_sort_index std_sort_distance 4 (fun a b => ((a + b : Nat) : Int))).1 2,
   (builders_duplicate_free (std_sort order_by_index) (std_sort order_by_distance)
     std_sort_index std_sort_distance 4 (fun a b => ((a + b : Nat) : Int))).2 (1 / 2) 3
     [0, 1, 1, 1, 2, 3, 1, 0, 3, 0] [⟨0, 1, 1⟩, ⟨2, 3, 5⟩, ⟨1, 0, 1⟩] (by decide)⟩

/-- C6: the output of `find_percent_shortest_edges_randomly` is in ascending order of
distance, and every edge retained in the output has distance `<=` the distance of every
deduplicated candidate edge discarded by the truncation. -/
theorem sampler_percentile (sort_index sort_distance : List sample_pair → List sample_pair)
    (hsd : IsStdSort order_by_distance sort_distance)
    (n : Nat) (dist_funct : Nat → Nat → Int) (percent : ℚ) (num : Nat) (draws : List Nat)
    (edges : List sample_pair)
    (hcand : random_edges n dist_funct num draws [] = some edges) :
    ∃ out discarded, find_percent_shortest_edges_randomly sort_index sort_distance n
        dist_funct percent num draws = some out ∧
      out.Pairwise (fun a b => a.distance ≤ b.distance) ∧
      (out ++ discarded).Perm (remove_duplicates (sort_index edges)) ∧
      ∀ a ∈ out, ∀ b ∈ discarded, a.distance ≤ b.distance := by
  obtain ⟨h1, discarded, h2, h3⟩ :=
    shortest_percent_sorted sort_index sort_distance hsd percent edges
  exact ⟨_, discarded,
    find_percent_eq sort_index sort_distance n dist_funct percent num draws edges hcand,
    h1, h2, h3⟩

/-- Witness of C6: four samples, `num = 3`, `percent = 1/2` and ten random values that give the candidates `(0,1)`, `(2,3)`, `(1,0)`. -/
theorem sampler_percentile_witness :
    IsStdSort order_by_distance (std_sort order_by_distance) ∧
    random_edges 4 (fun a b => ((a + b : Nat) : Int)) 3 [0, 1, 1, 1, 2, 3, 1, 0, 3, 0] [] =
      some [⟨0, 1, 1⟩, ⟨2, 3, 5⟩, ⟨1, 0, 1⟩] ∧
    (∃ out discarded, find_percent_shortest_edges_randomly (std_sort order_by_index)
        (std_sort order_by_distance) 4 (fun a b => ((a + b : Nat) : Int)) (1 / 2) 3
        [0, 1, 1, 1, 2, 3, 1, 0, 3, 0] = some out ∧
      out.Pairwise (fun a b => a.distance ≤ b.distance) ∧
      (out ++ discarded).Perm (remove_duplicates
        (std_sort order_by_index [⟨0, 1, 1⟩, ⟨2, 3, 5⟩, ⟨1, 0, 1⟩])) ∧
      ∀ a ∈ out, ∀ b ∈ discarded, a.distance ≤ b.distance) :=
  ⟨std_sort_distance, by decide,
   sampler_percentile (std_sort order_by_index) (std_sort order_by_distance)
     std_sort_distance 4 (fun a b => ((a + b : Nat) : Int)) (1 / 2) 3
     [0, 1, 1, 1, 2, 3, 1, 0, 3, 0] [⟨0, 1, 1⟩, ⟨2, 3, 5⟩, ⟨1, 0, 1⟩] (by decide)⟩


/-! ### Consequences for the adjacency list -/

theorem endpoint_count_eq_incident_count (edges : List sample_pair) (i : Nat)
    (hloop : ∀ e ∈ edges, e.index1 ≠ e.index2) :
    endpoint_count edges i = incident_count edges i := by
  induction edges with
  | nil => simp [endpoint_count, incident_count]
  | cons e es ih =>
    have ih2 := ih (fun x hx => hloop x (List.mem_cons_of_mem _ hx))
    have hl := hloop e (List.mem_cons_self _ _)
    rw [endpoint_count_cons, ih2]
    unfold incident_count
    rw [List.countP_cons]
    by_cases h1 : e.index1 = i
    · have h2 : ¬ e.index2 = i := fun h => hl (h1.trans h.symm)
      simp [h1, h2]; omega
    · by_cases h2 : e.index2 = i
      · simp [h1, h2]; omega
      · simp [h1, h2]

theorem scan_records_eq_incident_records {R : Type} (w : sample_pair → R) (i : Nat)
    (edges : List sample_pair) (hloop : ∀ e ∈ edges, e.index1 ≠ e.index2) :
    scan_records w i edges = incident_records w i edges := by
  induction edges with
  | nil => simp [scan_records, incident_records]
  | cons e es ih =>
    have ih2 := ih (fun x hx => hloop x (List.mem_cons_of_mem _ hx))
    have hl := hloop e (List.mem_cons_self _ _)
    unfold incident_records at ih2 ⊢
    rw [scan_records, ih2, List.filter_cons]
    by_cases h1 : e.index1 = i
    · have h2 : ¬ e.index2 = i := fun h => hl (h1.trans h.symm)
      simp [h1, h2]
    · by_cases h2 : e.index2 = i
      · simp [h1, h2]
      · simp [h1, h2]

theorem mem_scan_records {R : Type} (w : sample_pair → R) (edges : List sample_pair)
    (e : sample_pair) (he : e ∈ edges) :
    (⟨e.index2, w e⟩ : neighbor R) ∈ scan_records w e.index1 edges ∧
    (⟨e.index1, w e⟩ : neighbor R) ∈ scan_records w e.index2 edges := by
  induction edges with
  | nil => simp at he
  | cons x xs ih =>
    rcases List.mem_cons.1 he with h | h
    · subst h
      simp [scan_records]
    · have := ih h
      simp only [scan_records, List.mem_append]
      exact ⟨Or.inr this.1, Or.inr this.2⟩

theorem build_begin_end {R : Type} [Zero R] (edges : List sample_pair)
    (w : sample_pair → R) (i : Nat)
    (hi : i < (undirected_adjacency_list.build edges w).size) :
    (undirected_adjacency_list.build edges w).end_ i =
      (undirected_adjacency_list.build edges w).begin i + endpoint_count edges i := by
  have hi2 : i < (count_neighbors edges).length := hi
  unfold undirected_adjacency_list.begin undirected_adjacency_list.end_
  simp only [undirected_adjacency_list.build]
  rw [make_blocks_getD _ _ (by omega), make_blocks_getD _ _ (by omega), block_offset_succ,
    count_neighbors_getD]

/-! ## The claims on the adjacency list and the regularizer -/

/-- C7, as stated, fails: on the single edge from node 0 to node 0 the block of node 0
holds two records while one edge is incident to node 0. -/
theorem adjacency_degree_counterexample :
    ([⟨0, 0, 0⟩] : List sample_pair) ≠ [] ∧ DuplicateFree [⟨0, 0, 0⟩] ∧
    (undirected_adjacency_list.build [⟨0, 0, 0⟩] (fun _ => (1 : Int))).size = 1 ∧
    ((undirected_adjacency_list.build [⟨0, 0, 0⟩] (fun _ => (1 : Int))).records 0).length = 2 ∧
    incident_count [⟨0, 0, 0⟩] 0 = 1 := by
  decide

/-- C7, amended: after `build` on a non-empty edge list, `size()` is one plus the largest
index referenced by an edge, and for every node `i < size()` the range
`[begin(i), end(i))` holds as many records as there are edge endpoints equal to `i` (an
edge whose two indices are `i` counts twice); when every edge has `index1 != index2`
that is the number of edges incident to `i`. -/
theorem adjacency_size_and_degrees {R : Type} [Zero R] (edges : List sample_pair)
    (w : sample_pair → R) (hne : edges ≠ []) :
    (undirected_adjacency_list.build edges w).size = max_index edges + 1 ∧
    ∀ i, i < (undirected_adjacency_list.build edges w).size →
      (undirected_adjacency_list.build edges w).end_ i =
        (undirected_adjacency_list.build edges w).begin i + endpoint_count edges i ∧
      ((undirected_adjacency_list.build edges w).records i).length = endpoint_count edges i ∧
      ((∀ e ∈ edges, e.index1 ≠ e.index2) →
        ((undirected_adjacency_list.build edges w).records i).length =
          incident_count edges i) := by
  refine ⟨count_neighbors_length edges hne, ?_⟩
  intro i hi
  have hrec := build_records edges w i hi
  refine ⟨build_begin_end edges w i hi, ?_, ?_⟩
  · rw [hrec, scan_records_length]
  · intro hloop
    rw [hrec, scan_records_length, endpoint_count_eq_incident_count edges i hloop]

/-- Witness of C7, amended: the edges `(0,1)` and `(2,1)`. -/
theorem adjacency_size_and_degrees_witness :
    ([⟨0, 1, 5⟩, ⟨2, 1, 3⟩] : List sample_pair) ≠ [] ∧
    (undirected_adjacency_list.build [⟨0, 1, 5⟩, ⟨2, 1, 3⟩] (fun e => e.distance)).size
      = max_index [⟨0, 1, 5⟩, ⟨2, 1, 3⟩] + 1 ∧
    ((undirected_adjacency_list.build [⟨0, 1, 5⟩, ⟨2, 1, 3⟩] (fun e => e.distance)).records
      1).length = 2 :=
  ⟨by decide,
   (adjacency_size_and_degrees [⟨0, 1, 5⟩, ⟨2, 1, 3⟩] (fun e => e.distance) (by decide)).1,
   ((adjacency_size_and_degrees [⟨0, 1, 5⟩, ⟨2, 1, 3⟩] (fun e => e.distance) (by decide)).2 1
      (by decide)).2.1⟩

/-- C8: after `build` on an edge list in which every edge has `index1 != index2`, the
records in `[begin(i), end(i))` of every node `i < size()` are, in order, the records
`(other endpoint, weight_funct(e))` of the edges `e` incident to `i`; and every edge has
its record at both of its endpoints, with the same weight. -/
theorem adjacency_contents {R : Type} [Zero R] (edges : List sample_pair)
    (w : sample_pair → R) (hloop : ∀ e ∈ edges, e.index1 ≠ e.index2) :
    (∀ i, i < (undirected_adjacency_list.build edges w).size →
      (undirected_adjacency_list.build edges w).records i = incident_records w i edges) ∧
    (∀ e ∈ edges,
      e.index1 < (undirected_adjacency_list.build edges w).size ∧
      e.index2 < (undirected_adjacency_list.build edges w).size ∧
      (⟨e.index2, w e⟩ : neighbor R) ∈
        (undirected_adjacency_list.build edges w).records e.index1 ∧
      (⟨e.index1, w e⟩ : neighbor R) ∈
        (undirected_adjacency_list.build edges w).records e.index2) := by
  constructor
  · intro i hi
    rw [build_records edges w i hi, scan_records_eq_incident_records w i edges hloop]
  · intro e he
    obtain ⟨h1, h2⟩ := index_lt_count_neighbors_length edges e he
    refine ⟨h1, h2, ?_, ?_⟩
    · rw [build_records edges w _ h1]; exact (mem_scan_records w edges e he).1
    · rw [build_records edges w _ h2]; exact (mem_scan_records w edges e he).2

/-- Witness of C8: the edges `(0,1)` and `(2,1)` with weights 5 and 3. -/
theorem adjacency_contents_witness :
    (∀ e ∈ ([⟨0, 1, 5⟩, ⟨2, 1, 3⟩] : List sample_pair), e.index1 ≠ e.index2) ∧
    (undirected_adjacency_list.build [⟨0, 1, 5⟩, ⟨2, 1, 3⟩] (fun e => e.distance)).records 1
      = [⟨0, 5⟩, ⟨2, 3⟩] :=
  ⟨by decide,
   ((adjacency_contents [⟨0, 1, 5⟩, ⟨2, 1, 3⟩] (fun e => e.distance) (by decide)).1 1
      (by decide)).trans (by decide)⟩

/-- C2, as stated, fails: for the one-dimensional sample `[1]` and the single edge from
node 0 to node 0 with weight 1, `reg_mat` is `[[0]]` while `X^T * L * X` is `[[1]]`. -/
theorem build_laplacian_counterexample :
    ([⟨0, 0, 0⟩] : List sample_pair) ≠ [] ∧ DuplicateFree [⟨0, 0, 0⟩] ∧
    (∀ e ∈ ([⟨0, 0, 0⟩] : List sample_pair),
      e.index1 < [[(1 : Int)]].length ∧ e.index2 < [[(1 : Int)]].length) ∧
    linear_manifold_regularizer.build [[(1 : Int)]] [⟨0, 0, 0⟩] (fun _ => 1)
      ⟨0, by decide⟩ ⟨0, by decide⟩ = 0 ∧
    (∑ a in Finset.range 1, ∑ b in Finset.range 1,
      sample_at [[(1 : Int)]] a 0 * laplacian_entry [⟨0, 0, 0⟩] (fun _ => 1) a b *
        sample_at [[(1 : Int)]] b 0) = 1 := by
  refine ⟨by decide, by decide, by decide, by decide, by decide⟩

/-- C2, amended: for every sample list, every duplicate-free edge list in which every edge
has `index1 != index2` and indices below `samples.size()`, and every weight function,
`reg_mat[d][j]` is the sum over the nodes `a`, `b` of `X[a][d] * L[a][b] * X[b][j]`, where
`L` is the graph Laplacian of the weighted edge list. -/
theorem build_eq_laplacian_form {R : Type} [CommRing R] (samples : List (List R))
    (edges : List sample_pair) (w : sample_pair → R)
    (hdup : DuplicateFree edges)
    (hloop : ∀ e ∈ edges, e.index1 ≠ e.index2)
    (hidx : ∀ e ∈ edges, e.index1 < samples.length ∧ e.index2 < samples.length)
    (d j : Fin (sample_dims samples)) :
    linear_manifold_regularizer.build samples edges w d j =
      ∑ a in Finset.range samples.length, ∑ b in Finset.range samples.length,
        sample_at samples a d * laplacian_entry edges w a b * sample_at samples b j := by
  rw [laplacian_sum_eq_edge_sum samples w edges d j samples.length hdup hloop hidx]
  exact build_entries_eq_edge_sum samples edges w d j d.isLt j.isLt

/-- Witness of C2, amended: the samples `[2]` and `[5]` joined by one edge of weight 1. -/
theorem build_eq_laplacian_form_witness :
    DuplicateFree [⟨0, 1, 0⟩] ∧
    (∀ e ∈ ([⟨0, 1, 0⟩] : List sample_pair), e.index1 ≠ e.index2) ∧
    (∀ e ∈ ([⟨0, 1, 0⟩] : List sample_pair),
      e.index1 < [[(2 : Int)], [5]].length ∧ e.index2 < [[(2 : Int)], [5]].length) ∧
    linear_manifold_regularizer.build [[(2 : Int)], [5]] [⟨0, 1, 0⟩] (fun _ => 1)
      ⟨0, by decide⟩ ⟨0, by decide⟩ =
      ∑ a in Finset.range 2, ∑ b in Finset.range 2,
        sample_at [[(2 : Int)], [5]] a 0 * laplacian_entry [⟨0, 1, 0⟩] (fun _ => 1) a b *
          sample_at [[(2 : Int)], [5]] b 0 :=
  ⟨by decide, by decide, by decide,
   build_eq_laplacian_form [[(2 : Int)], [5]] [⟨0, 1, 0⟩] (fun _ => 1)
     (by decide) (by decide) (by decide) ⟨0, by decide⟩ ⟨0, by decide⟩⟩

/-- C9: the matrix accumulated by `linear_manifold_regularizer::build` is symmetric:
`reg_mat[d][j] = reg_mat[j][d]` for all `d`, `j < dims`, for every sample list, edge list
and weight function. -/
theorem reg_mat_symmetric {R : Type} [CommRing R] (samples : List (List R))
    (edges : List sample_pair) (w : sample_pair → R) (d j : Fin (sample_dims samples)) :
    linear_manifold_regularizer.build samples edges w d j =
      linear_manifold_regularizer.build samples edges w j d := by
  show make_mr_entries samples (undirected_adjacency_list.build edges w) d j =
    make_mr_entries samples (undirected_adjacency_list.build edges w) j d
  rw [build_entries_eq_edge_sum samples edges w d j d.isLt j.isLt,
    build_entries_eq_edge_sum samples edges w j d j.isLt d.isLt]
  congr 1
  apply List.map_congr_left
  intro e _
  simp only [edge_term]
  ring


/-! ### The windows of `find_k_nearest_neighbors` -/

theorem knn_inner_eq_foldl (dist_funct : Nat → Nat → Int) (k i begin_i cnt j begin_j : Nat)
    (st : knn_state) :
    knn_inner dist_funct k i begin_i cnt j begin_j st =
      (knn_inner_windows k i begin_i cnt j begin_j).foldl (knn_body dist_funct k) st := by
  induction cnt generalizing j begin_j st with
  | zero => simp [knn_inner, knn_inner_windows]
  | succ c ih =>
    rw [knn_inner, knn_inner_windows, List.foldl_cons]
    exact ih (j + 1) (begin_j + k) _

/-- The loops of `find_k_nearest_neighbors` run the body of the inner loop over the
recorded values of `(i, j, begin_i, begin_j)`. -/
theorem knn_outer_eq_foldl (dist_funct : Nat → Nat → Int) (k n cnt i begin_i : Nat)
    (st : knn_state) :
    knn_outer dist_funct k n cnt i begin_i st =
      (knn_outer_windows k n cnt i begin_i).foldl (knn_body dist_funct k) st := by
  induction cnt generalizing i begin_i st with
  | zero => simp [knn_outer, knn_outer_windows]
  | succ c ih =>
    rw [knn_outer, knn_outer_windows, List.foldl_append, ← knn_inner_eq_foldl]
    exact ih (i + 1) (begin_i + k) _

theorem knn_inner_windows_spec (k i begin_i cnt j begin_j : Nat)
    (x : Nat × Nat × Nat × Nat) (hx : x ∈ knn_inner_windows k i begin_i cnt j begin_j) :
    x.1 = i ∧ j ≤ x.2.1 ∧ x.2.1 < j + cnt ∧ x.2.2.1 = begin_i ∧
      x.2.2.2 = begin_j + (x.2.1 - j) * k := by
  induction cnt generalizing j begin_j with
  | zero => simp [knn_inner_windows] at hx
  | succ c ih =>
    rw [knn_inner_windows] at hx
    rcases List.mem_cons.1 hx with h | h
    · subst h
      simp
    · obtain ⟨h1, h2, h3, h4, h5⟩ := ih (j + 1) (begin_j + k) h
      refine ⟨h1, by omega, by omega, h4, ?_⟩
      rw [h5]
      have : x.2.1 - j = (x.2.1 - (j + 1)) + 1 := by omega
      rw [this, Nat.add_mul]
      omega

theorem knn_outer_windows_spec (k n cnt i begin_i : Nat)
    (x : Nat × Nat × Nat × Nat) (hx : x ∈ knn_outer_windows k n cnt i begin_i) :
    i ≤ x.1 ∧ x.1 < x.2.1 ∧ x.2.1 < n ∧ x.2.2.1 = begin_i + (x.1 - i) * k ∧
      x.2.2.2 = x.2.2.1 + 1 + (x.2.1 - (x.1 + 1)) * k := by
  induction cnt generalizing i begin_i with
  | zero => simp [knn_outer_windows] at hx
  | succ c ih =>
    rw [knn_outer_windows] at hx
    rcases List.mem_append.1 hx with h | h
    · obtain ⟨h1, h2, h3, h4, h5⟩ := knn_inner_windows_spec k i begin_i _ _ _ x h
      subst h1
      refine ⟨le_refl _, by omega, by omega, by simp [h4], ?_⟩
      rw [h5, h4]
    · obtain ⟨h1, h2, h3, h4, h5⟩ := ih (i + 1) (begin_i + k) h
      refine ⟨by omega, h2, h3, ?_, h5⟩
      rw [h4]
      have : x.1 - i = (x.1 - (i + 1)) + 1 := by omega
      rw [this, Nat.add_mul]
      omega

/-- The windows that the code uses: at the execution of the body of the inner loop for the
pair `(i, j)`, `begin_i` is `i*k` and `begin_j` is `(j-1)*k + 1`. -/
theorem knn_windows_spec (k n : Nat) (x : Nat × Nat × Nat × Nat) (hx : x ∈ knn_windows k n) :
    x.1 < x.2.1 ∧ x.2.1 < n ∧ x.2.2.1 = x.1 * k ∧ x.2.2.2 = (x.2.1 - 1) * k + 1 := by
  obtain ⟨_, h2, h3, h4, h5⟩ := knn_outer_windows_spec k n n 0 0 x hx
  simp only [Nat.sub_zero, Nat.zero_add] at h4
  refine ⟨h2, h3, h4, ?_⟩
  rw [h5, h4]
  have : x.2.1 - 1 = x.1 + (x.2.1 - (x.1 + 1)) := by omega
  rw [this, Nat.add_mul]
  omega

/-- C13, on the code: with `k = 2` and three samples the body of the inner loop runs with
`(i, j, begin_i, begin_j) = (0,1,0,1), (0,2,0,3), (1,2,2,3)`, so the range of node `j`
starts at `(j-1)*k + 1` and not at `j*k`; the loops of `find_k_nearest_neighbors` are the
body run over these values. -/
theorem knn_window_counterexample :
    knn_windows 2 3 = [(0, 1, 0, 1), (0, 2, 0, 3), (1, 2, 2, 3)] ∧
    (∃ x ∈ knn_windows 2 3, x.2.2.2 ≠ x.2.1 * 2) ∧
    (∀ (dist_funct : Nat → Nat → Int) (st : knn_state),
      knn_outer dist_funct 2 3 3 0 0 st =
        (knn_windows 2 3).foldl (knn_body dist_funct 2) st) := by
  refine ⟨by decide, by decide, ?_⟩
  intro dist_funct st
  exact knn_outer_eq_foldl dist_funct 2 3 3 0 0 st


/-- C15, on the code: with `k = 2` and four samples at distances
`d(0,1)=4, d(0,2)=5, d(0,3)=3, d(1,2)=2, d(1,3)=6, d(2,3)=1`, the output holds the edge
`{0,2}` of distance 5, although two nodes are closer to node 0 (3 and 1) and two nodes are
closer to node 2 (3 and 1); it also holds the sentinel. -/
theorem knn_soundness_counterexample :
    find_k_nearest_neighbors (std_sort order_by_index) 4
        (fun i j => ([[0, 4, 5, 3], [0, 0, 2, 6], [0, 0, 0, 1]].getD i []).getD j 0) 2 =
      [⟨0, 0, FLT_INF⟩, ⟨0, 1, 4⟩, ⟨0, 2, 5⟩, ⟨0, 3, 3⟩, ⟨1, 2, 2⟩, ⟨2, 3, 1⟩] ∧
    closer_count 4
        (fun i j => ([[0, 4, 5, 3], [0, 0, 2, 6], [0, 0, 0, 1]].getD i []).getD j 0) 0 2 = 2 ∧
    closer_count 4
        (fun i j => ([[0, 4, 5, 3], [0, 0, 2, 6], [0, 0, 0, 1]].getD i []).getD j 0) 2 0 = 2 ∧
    ¬ TopKSound (find_k_nearest_neighbors (std_sort order_by_index) 4
        (fun i j => ([[0, 4, 5, 3], [0, 0, 2, 6], [0, 0, 0, 1]].getD i []).getD j 0) 2) 4 2
        (fun i j => ([[0, 4, 5, 3], [0, 0, 2, 6], [0, 0, 0, 1]].getD i []).getD j 0) := by
  refine ⟨by decide, by decide, by decide, by decide⟩


/-! ### `iterator_of_worst` -/

/-- Invariant of the loop of `iterator_of_worst` over `[b, pos)`: `worst` is the first
position of the largest distance met so far, and `dist` is that distance. -/
theorem iterator_of_worst_loop_spec (edges : List sample_pair) (b : Nat)
    (cnt pos : Nat) (dist : Int) (worst : Nat)
    (hb : b ≤ worst) (hw : worst = b ∨ worst < pos) (hbp : b ≤ pos)
    (hd : dist = (edges.getD worst sample_pair.default).distance)
    (hmax : ∀ p, b ≤ p → p < pos → (edges.getD p sample_pair.default).distance ≤ dist)
    (hfirst : ∀ p, b ≤ p → p < worst → (edges.getD p sample_pair.default).distance < dist) :
    b ≤ iterator_of_worst_loop edges cnt pos dist worst ∧
    (iterator_of_worst_loop edges cnt pos dist worst = b ∨
      iterator_of_worst_loop edges cnt pos dist worst < pos + cnt) ∧
    (∀ p, b ≤ p → p < pos + cnt → (edges.getD p sample_pair.default).distance ≤
      (edges.getD (iterator_of_worst_loop edges cnt pos dist worst)
        sample_pair.default).distance) ∧
    (∀ p, b ≤ p → p < iterator_of_worst_loop edges cnt pos dist worst →
      (edges.getD p sample_pair.default).distance <
      (edges.getD (iterator_of_worst_loop edges cnt pos dist worst)
        sample_pair.default).distance) := by
  induction cnt generalizing pos dist worst with
  | zero =>
    simp only [iterator_of_worst_loop, Nat.add_zero]
    refine ⟨hb, hw, ?_, ?_⟩
    · intro p h1 h2; rw [← hd]; exact hmax p h1 h2
    · intro p h1 h2; rw [← hd]; exact hfirst p h1 h2
  | succ c ih =>
    rw [iterator_of_worst_loop]
    have hpc : pos + (c + 1) = pos + 1 + c := by omega
    rw [hpc]
    by_cases hgt : (edges.getD pos sample_pair.default).distance > dist
    · rw [if_pos hgt]
      apply ih (pos + 1) _ pos hbp (Or.inr (by omega)) (by omega) rfl
      · intro p h1 h2
        by_cases hp : p = pos
        · rw [hp]
        · exact le_of_lt (lt_of_le_of_lt (hmax p h1 (by omega)) hgt)
      · intro p h1 h2
        exact lt_of_le_of_lt (hmax p h1 h2) hgt
    · rw [if_neg hgt]
      apply ih (pos + 1) dist worst hb _ (by omega) hd
      · intro p h1 h2
        by_cases hp : p = pos
        · rw [hp]; exact not_lt.1 hgt
        · exact hmax p h1 (by omega)
      · exact hfirst
      · rcases hw with h | h
        · exact Or.inl h
        · exact Or.inr (by omega)

/-- C17: on a non-empty range `[begin, end)`, `iterator_of_worst` returns a position of the
range whose element has a distance `>=` the distance of every element of the range, and
no element of the range before that position has the same distance. -/
theorem iterator_of_worst_first_max (edges : List sample_pair) (b e : Nat) (hbe : b < e) :
    b ≤ iterator_of_worst edges b e ∧ iterator_of_worst edges b e < e ∧
    (∀ p, b ≤ p → p < e → (edges.getD p sample_pair.default).distance ≤
      (edges.getD (iterator_of_worst edges b e) sample_pair.default).distance) ∧
    (∀ p, b ≤ p → p < iterator_of_worst edges b e →
      (edges.getD p sample_pair.default).distance ≠
      (edges.getD (iterator_of_worst edges b e) sample_pair.default).distance) := by
  unfold iterator_of_worst
  have hsum : b + (e - b) = e := by omega
  obtain ⟨h1, h2, h3, h4⟩ := iterator_of_worst_loop_spec edges b (e - b) b
    (edges.getD b sample_pair.default).distance b (le_refl b) (Or.inl rfl) (le_refl b) rfl
    (by intro p hp1 hp2; omega) (by intro p hp1 hp2; omega)
  rw [hsum] at h2 h3
  refine ⟨h1, ?_, h3, ?_⟩
  · rcases h2 with h | h
    · rw [h]; exact hbe
    · exact h
  · intro p hp1 hp2
    exact ne_of_lt (h4 p hp1 hp2)

/-- Witness of C17: a window of three edges with distances 4, 7, 7. -/
theorem iterator_of_worst_first_max_witness :
    0 < 3 ∧ iterator_of_worst [⟨0, 1, 4⟩, ⟨0, 2, 7⟩, ⟨0, 3, 7⟩] 0 3 = 1 ∧
    iterator_of_worst [⟨0, 1, 4⟩, ⟨0, 2, 7⟩, ⟨0, 3, 7⟩] 0 3 < 3 :=
  ⟨by decide, by decide,
   (iterator_of_worst_first_max [⟨0, 1, 4⟩, ⟨0, 2, 7⟩, ⟨0, 3, 7⟩] 0 3 (by decide)).2.1⟩


/-! ### The nearest-neighbor graph (`k = 1`) -/

/-- With `k = 1`, every element of the vector `edges` at the end of the loops is the slot
of one of its endpoints and has the least distance among the pairs with that endpoint. -/
theorem knn_slot_of_mem (n : Nat) (dist_funct : Nat → Nat → Int) (hn : 1 < n)
    (hmax : ∀ i j, i < j → j < n → dist_funct i j < FLT_MAX) (e : sample_pair)
    (he : e ∈ (knn_outer dist_funct 1 n n 0 0
        ⟨List.replicate (n * 1) sample_pair.default, List.replicate n FLT_MAX⟩).edges) :
    ∃ a b v, a < b ∧ b < n ∧ (v = a ∨ v = b) ∧ e = sample_pair.make a b (dist_funct a b) ∧
      ∀ a2 b2, a2 < b2 → b2 < n → (v = a2 ∨ v = b2) → dist_funct a b ≤ dist_funct a2 b2 := by
  obtain ⟨hle, _, _⟩ := knn_final_inv n dist_funct hmax
  obtain ⟨v, hv, hget⟩ := List.mem_iff_getElem.1 he
  rw [hle] at hv
  obtain ⟨a, b, hab, hb, hvab, hslot, hmin⟩ := knn_slot_filled n dist_funct hn hmax v hv
  refine ⟨a, b, v, hab, hb, hvab, ?_, hmin⟩
  rw [← hslot, ← hget, List.getD_eq_getElem?_getD, List.getElem?_eq_getElem, Option.getD_some]

/-- C19: for `k = 1`, every sample set of size `n >= 2` and every distance function whose
values are below `FLT_MAX`, every node `i` has an output edge `{i, j}` whose distance is
the least of the distances `dist(i, j')`, `j' != i`; every output edge joins two different
nodes, carries their distance, and is such a nearest-neighbor edge for at least one of
its endpoints. -/
theorem knn_one_exact (sort_index : List sample_pair → List sample_pair)
    (hsort : IsStdSort order_by_index sort_index) (n : Nat) (dist_funct : Nat → Nat → Int)
    (hn : 1 < n) (hmax : ∀ i j, i < j → j < n → dist_funct i j < FLT_MAX) :
    (∀ i, i < n → ∃ j, j < n ∧ j ≠ i ∧
      HasEdge (find_k_nearest_neighbors sort_index n dist_funct 1) dist_funct i j ∧
      ∀ j2, j2 < n → j2 ≠ i → pair_dist dist_funct i j ≤ pair_dist dist_funct i j2) ∧
    (∀ e ∈ find_k_nearest_neighbors sort_index n dist_funct 1,
      e.index1 ≠ e.index2 ∧ e.index1 < n ∧ e.index2 < n ∧
      e.distance = pair_dist dist_funct e.index1 e.index2 ∧
      ((∀ j2, j2 < n → j2 ≠ e.index1 → e.distance ≤ pair_dist dist_funct e.index1 j2) ∨
       (∀ j2, j2 < n → j2 ≠ e.index2 → e.distance ≤ pair_dist dist_funct e.index2 j2))) := by
  obtain ⟨hle, _, _⟩ := knn_final_inv n dist_funct hmax
  obtain ⟨_, hsub, hkeys⟩ := dedup_spec sort_index hsort
    (knn_outer dist_funct 1 n n 0 0
      ⟨List.replicate (n * 1) sample_pair.default, List.replicate n FLT_MAX⟩).edges
  constructor
  · intro i hi
    obtain ⟨a, b, hab, hb, hiab, hslot, hmin⟩ := knn_slot_filled n dist_funct hn hmax i hi
    have hmem : sample_pair.make a b (dist_funct a b) ∈ (knn_outer dist_funct 1 n n 0 0
        ⟨List.replicate (n * 1) sample_pair.default, List.replicate n FLT_MAX⟩).edges := by
      rw [← hslot, List.getD_eq_getElem?_getD, List.getElem?_eq_getElem (by omega),
        Option.getD_some]
      exact List.getElem_mem _
    obtain ⟨y, hy, hky⟩ := hkeys _ hmem
    obtain ⟨a2, b2, hab2, _, hy2⟩ := knn_slots_no_sentinel n dist_funct hn hmax y (hsub y hy)
    rw [hy2, key_make_of_lt a2 b2 _ hab2, key_make_of_lt a b _ hab, Prod.mk.injEq] at hky
    obtain ⟨rfl, rfl⟩ := hky
    have hs : ∃ s, s < n ∧ s ≠ i ∧ min i s = a2 ∧ max i s = b2 := by
      rcases hiab with h | h
      · exact ⟨b2, hb, by omega, by omega, by omega⟩
      · exact ⟨a2, by omega, by omega, by omega, by omega⟩
    obtain ⟨s, hsn, hsi, hmin_s, hmax_s⟩ := hs
    refine ⟨s, hsn, hsi, ⟨y, hy, ?_, ?_⟩, ?_⟩
    · rw [hy2, key_make_of_lt a2 b2 _ hab2, hmin_s, hmax_s]
    · rw [hy2]; simp [sample_pair.make, pair_dist, hmin_s, hmax_s]
    · intro j2 hj2 hne
      unfold pair_dist
      rw [hmin_s, hmax_s]
      exact hmin (min i j2) (max i j2) (by omega) (by omega) (by omega)
  · intro e he
    obtain ⟨a, b, v, hab, hb, hv, rfl, hmin⟩ :=
      knn_slot_of_mem n dist_funct hn hmax e (hsub e he)
    have hpd : pair_dist dist_funct a b = dist_funct a b := by
      unfold pair_dist
      rw [min_eq_left (le_of_lt hab), max_eq_right (le_of_lt hab)]
    refine ⟨?_, ?_, ?_, ?_, ?_⟩
    · show a ≠ b; omega
    · show a < n; omega
    · exact hb
    · show dist_funct a b = pair_dist dist_funct a b
      exact hpd.symm
    · rcases hv with h | h
      · left
        intro j2 hj2 hne
        show dist_funct a b ≤ pair_dist dist_funct a j2
        have hne2 : j2 ≠ a := hne
        exact hmin (min a j2) (max a j2) (by omega) (by omega) (by omega)
      · right
        intro j2 hj2 hne
        show dist_funct a b ≤ pair_dist dist_funct b j2
        have hne2 : j2 ≠ b := hne
        exact hmin (min b j2) (max b j2) (by omega) (by omega) (by omega)

/-- Witness of C19: three samples with `dist(i, j) = i + j`. -/
theorem knn_one_exact_witness :
    IsStdSort order_by_index (std_sort order_by_index) ∧ 1 < 3 ∧
    (∀ i j, i < j → j < 3 → (fun (a b : Nat) => ((a + b : Nat) : Int)) i j < FLT_MAX) ∧
    (∀ e ∈ find_k_nearest_neighbors (std_sort order_by_index) 3
        (fun a b => ((a + b : Nat) : Int)) 1, e.index1 ≠ e.index2) :=
  ⟨std_sort_index, by decide,
   by intro i j _ hj; simp only [FLT_MAX]; omega,
   fun e he => ((knn_one_exact (std_sort order_by_index) std_sort_index 3
     (fun a b => ((a + b : Nat) : Int))
     (by decide) (by intro i j _ hj; simp only [FLT_MAX]; omega)).2 e he).1⟩


/-! ### The candidates of the randomized sampler -/

/-- The sampling loop returns the candidates of the first pairs of random values that give
two different indices, as many as are needed to reach `num` edges. -/
theorem random_edges_spec (n : Nat) (dist_funct : Nat → Nat → Int) (num : Nat)
    (draws : List Nat) (acc es : List sample_pair) (hacc : acc.length ≤ num)
    (h : random_edges n dist_funct num draws acc = some es) :
    es.length = num ∧
    es = acc ++ (((draw_pairs draws).filter (fun p => decide (p.1 % n ≠ p.2 % n))).take
      (num - acc.length)).map (candidate_edge n dist_funct) := by
  induction draws, acc using random_edges.induct n dist_funct num with
  | case1 r1 r2 rest acc hlt idx1 idx2 hne ih =>
    rw [random_edges, if_pos hlt] at h
    have hne2 : r1 % n ≠ r2 % n := hne
    simp only [ne_eq, hne2, not_false_eq_true, if_true] at h
    obtain ⟨h1, h2⟩ := ih (by simp only [List.length_append, List.length_singleton]; omega) h
    refine ⟨h1, ?_⟩
    rw [h2]
    simp only [draw_pairs, List.length_append, List.length_singleton]
    rw [List.filter_cons_of_pos (by simpa using hne2)]
    have : num - acc.length = (num - (acc.length + 1)) + 1 := by omega
    rw [this, List.take_succ_cons, List.map_cons]
    simp [candidate_edge, idx1, idx2]
  | case2 r1 r2 rest acc hlt idx1 idx2 heq ih =>
    rw [random_edges, if_pos hlt] at h
    have heq2 : ¬ (r1 % n ≠ r2 % n) := heq
    simp only [heq2, if_false] at h
    obtain ⟨h1, h2⟩ := ih hacc h
    refine ⟨h1, ?_⟩
    rw [h2]
    simp only [draw_pairs]
    rw [List.filter_cons_of_neg (by simpa using heq2)]
  | case3 r1 r2 rest acc hge =>
    rw [random_edges, if_neg hge] at h
    have : acc = es := by simpa using h
    subst this
    have h0 : num - acc.length = 0 := by omega
    exact ⟨by omega, by simp [h0]⟩
  | case4 t acc hlt hshape =>
    exfalso
    match t, hshape with
    | [], _ => simp [random_edges, hlt] at h
    | [_], _ => simp [random_edges, hlt] at h
    | r1 :: r2 :: rest, hshape => exact hshape r1 r2 rest rfl
  | case5 t acc hge hshape =>
    have h0 : num - acc.length = 0 := by omega
    match t, hshape with
    | [], _ =>
      simp only [random_edges, hge, if_false, Option.some.injEq] at h
      subst h
      exact ⟨by omega, by simp [h0]⟩
    | [_], _ =>
      simp only [random_edges, hge, if_false, Option.some.injEq] at h
      subst h
      exact ⟨by omega, by simp [h0]⟩
    | r1 :: r2 :: rest, hshape => exact absurd rfl (fun h2 => hshape r1 r2 rest h2)

theorem shortest_percent_subset (sort_index sort_distance : List sample_pair → List sample_pair)
    (hsi : IsStdSort order_by_index sort_index)
    (hsd : IsStdSort order_by_distance sort_distance)
    (percent : ℚ) (edges : List sample_pair) (e : sample_pair)
    (he : e ∈ shortest_percent sort_index sort_distance percent edges) : e ∈ edges := by
  unfold shortest_percent at he
  have h1 := (List.take_sublist _ _).subset he
  have h2 := (hsd _).1.subset h1
  exact (dedup_spec sort_index hsi edges).2.1 e h2

/-- C12: when the sampling loop has collected its candidates with `samples.size() > 1`, the
candidates are the edges of the first `num` drawn pairs with two different indices (pairs
with equal indices are passed over and not counted), and every edge in the output of
`find_percent_shortest_edges_randomly` is one of them: it has `index1 != index2`, both
indices `< samples.size()`, and the distance `dist_funct(samples[idx1], samples[idx2])` of
its drawn pair. -/
theorem sampler_edges_genuine (sort_index sort_distance : List sample_pair → List sample_pair)
    (hsi : IsStdSort order_by_index sort_index)
    (hsd : IsStdSort order_by_distance sort_distance)
    (n : Nat) (dist_funct : Nat → Nat → Int) (percent : ℚ) (num : Nat) (draws : List Nat)
    (edges : List sample_pair) (hn : 1 < n)
    (hcand : random_edges n dist_funct num draws [] = some edges) :
    edges.length = num ∧
    edges = (((draw_pairs draws).filter (fun p => decide (p.1 % n ≠ p.2 % n))).take num).map
      (candidate_edge n dist_funct) ∧
    ∃ out, find_percent_shortest_edges_randomly sort_index sort_distance n dist_funct
        percent num draws = some out ∧
      ∀ e ∈ out, e.index1 ≠ e.index2 ∧ e.index1 < n ∧ e.index2 < n ∧
        ∃ p ∈ draw_pairs draws, p.1 % n ≠ p.2 % n ∧ e.index1 = p.1 % n ∧
          e.index2 = p.2 % n ∧ e.distance = dist_funct (p.1 % n) (p.2 % n) := by
  obtain ⟨h1, h2⟩ := random_edges_spec n dist_funct num draws [] edges (Nat.zero_le _) hcand
  simp only [List.length_nil, Nat.sub_zero, List.nil_append] at h2
  refine ⟨h1, h2, _, find_percent_eq sort_index sort_distance n dist_funct percent num draws
    edges hcand, ?_⟩
  intro e he
  have hmem := shortest_percent_subset sort_index sort_distance hsi hsd percent edges e he
  rw [h2, List.mem_map] at hmem
  obtain ⟨p, hp, rfl⟩ := hmem
  have hp2 := (List.mem_filter.1 (List.mem_of_mem_take hp))
  have hne : p.1 % n ≠ p.2 % n := by simpa using hp2.2
  have hpos : 0 < n := by omega
  exact ⟨hne, Nat.mod_lt _ hpos, Nat.mod_lt _ hpos, p, hp2.1, hne, rfl, rfl, rfl⟩

/-- Witness of C12: four samples, `num = 3` and ten random values, of which the pair
`(1, 1)` is passed over. -/
theorem sampler_edges_genuine_witness :
    IsStdSort order_by_index (std_sort order_by_index) ∧
    IsStdSort order_by_distance (std_sort order_by_distance) ∧ 1 < 4 ∧
    random_edges 4 (fun a b => ((a + b : Nat) : Int)) 3 [0, 1, 1, 1, 2, 3, 1, 0, 3, 0] [] =
      some [⟨0, 1, 1⟩, ⟨2, 3, 5⟩, ⟨1, 0, 1⟩] ∧
    ([⟨0, 1, 1⟩, ⟨2, 3, 5⟩, ⟨1, 0, 1⟩] : List sample_pair).length = 3 :=
  ⟨std_sort_index, std_sort_distance, by decide, by decide,
   (sampler_edges_genuine (std_sort order_by_index) (std_sort order_by_distance)
     std_sort_index std_sort_distance 4 (fun a b => ((a + b : Nat) : Int)) (1 / 2) 3
     [0, 1, 1, 1, 2, 3, 1, 0, 3, 0] [⟨0, 1, 1⟩, ⟨2, 3, 5⟩, ⟨1, 0, 1⟩]
     (by decide) (by decide)).1⟩


/-! ### The size of the sampler's output -/

/-- C5, as stated, fails: with five samples, `num = 10`, `percent` the `double` nearest to
0.3 (`5404319552844595 / 2^54`) and twenty random values that give the ten pairs
`(0,1), (0,2), ..., (3,4)`, the candidates hold `c = 10` distinct pairs and
`floor(percent * c)` is 2, while the `double` product `10 * percent` is 3.0 and the list
returned has 3 elements. -/
theorem sampler_output_size_counterexample :
    1 < 5 ∧ 0 < 10 ∧ (0 : ℚ) < 5404319552844595 / 18014398509481984 ∧
    (5404319552844595 / 18014398509481984 : ℚ) ≤ 1 ∧
    round_to_double (3 / 10) = 5404319552844595 / 18014398509481984 ∧
    random_edges 5 (fun a b => ((a + b : Nat) : Int)) 10
        [0, 1, 0, 2, 0, 3, 0, 4, 1, 2, 1, 3, 1, 4, 2, 3, 2, 4, 3, 4] [] =
      some [⟨0, 1, 1⟩, ⟨0, 2, 2⟩, ⟨0, 3, 3⟩, ⟨0, 4, 4⟩, ⟨1, 2, 3⟩, ⟨1, 3, 4⟩, ⟨1, 4, 5⟩,
        ⟨2, 3, 5⟩, ⟨2, 4, 6⟩, ⟨3, 4, 7⟩] ∧
    distinct_pair_count [⟨0, 1, 1⟩, ⟨0, 2, 2⟩, ⟨0, 3, 3⟩, ⟨0, 4, 4⟩, ⟨1, 2, 3⟩, ⟨1, 3, 4⟩,
        ⟨1, 4, 5⟩, ⟨2, 3, 5⟩, ⟨2, 4, 6⟩, ⟨3, 4, 7⟩] = 10 ∧
    Nat.floor ((5404319552844595 / 18014398509481984 : ℚ) * ((10 : Nat) : ℚ)) = 2 ∧
    (find_percent_shortest_edges_randomly (std_sort order_by_index)
        (std_sort order_by_distance) 5 (fun a b => ((a + b : Nat) : Int))
        (5404319552844595 / 18014398509481984) 10
        [0, 1, 0, 2, 0, 3, 0, 4, 1, 2, 1, 3, 1, 4, 2, 3, 2, 4, 3, 4]).map List.length =
      some 3 := by
  have hcand : random_edges 5 (fun a b => ((a + b : Nat) : Int)) 10
        [0, 1, 0, 2, 0, 3, 0, 4, 1, 2, 1, 3, 1, 4, 2, 3, 2, 4, 3, 4] [] =
      some [⟨0, 1, 1⟩, ⟨0, 2, 2⟩, ⟨0, 3, 3⟩, ⟨0, 4, 4⟩, ⟨1, 2, 3⟩, ⟨1, 3, 4⟩, ⟨1, 4, 5⟩,
        ⟨2, 3, 5⟩, ⟨2, 4, 6⟩, ⟨3, 4, 7⟩] := by decide
  have hcount : distinct_pair_count [⟨0, 1, 1⟩, ⟨0, 2, 2⟩, ⟨0, 3, 3⟩, ⟨0, 4, 4⟩, ⟨1, 2, 3⟩,
        ⟨1, 3, 4⟩, ⟨1, 4, 5⟩, ⟨2, 3, 5⟩, ⟨2, 4, 6⟩, ⟨3, 4, 7⟩] = 10 := by decide
  refine ⟨by decide, by decide, by norm_num, by norm_num, round_to_double_three_tenths,
    hcand, hcount, ?_, ?_⟩
  · rw [Nat.floor_eq_iff (by norm_num)]
    constructor <;> norm_num
  · rw [find_percent_eq _ _ _ _ _ _ _ _ hcand, Option.map_some',
      shortest_percent_length _ _ std_sort_index std_sort_distance _ (by norm_num) _
        (by norm_num), hcount]
    have h3 : Nat.floor (round_to_double (((10 : Nat) : ℚ) *
        (5404319552844595 / 18014398509481984))) = 3 := by
      have : (((10 : Nat) : ℚ) * (5404319552844595 / 18014398509481984)) =
          10 * (5404319552844595 / 18014398509481984) := by norm_num
      rw [this, round_to_double_ten_times]
      norm_num
    rw [h3]

/-- C5, amended: when the sampling loop has collected its `num` candidate pairs `edges`, with
`samples.size() > 1`, `0 < num < 2^53` and `0 < percent <= 1`, the list returned by
`find_percent_shortest_edges_randomly` has exactly `floor(c (x) percent)` elements, where
`c` is the number of distinct unordered index pairs among the candidates and `(x)` is the
`double` product, the exact product rounded to the nearest `double`; this is
`floor(percent * c)` whenever `c * percent` is itself a `double`, and with `percent = 1`
the list keeps all `c` deduplicated candidates. -/
theorem sampler_output_size (sort_index sort_distance : List sample_pair → List sample_pair)
    (hsi : IsStdSort order_by_index sort_index)
    (hsd : IsStdSort order_by_distance sort_distance)
    (n : Nat) (dist_funct : Nat → Nat → Int) (percent : ℚ) (num : Nat) (draws : List Nat)
    (edges : List sample_pair) (_hn : 1 < n) (_hnum : 0 < num) (hnum53 : num < 2 ^ 53)
    (_hp0 : 0 < percent) (hp1 : percent ≤ 1)
    (hcand : random_edges n dist_funct num draws [] = some edges) :
    ∃ out, find_percent_shortest_edges_randomly sort_index sort_distance n dist_funct
        percent num draws = some out ∧
      out.length = Nat.floor (round_to_double ((distinct_pair_count edges : ℚ) * percent)) ∧
      (round_to_double ((distinct_pair_count edges : ℚ) * percent) =
          (distinct_pair_count edges : ℚ) * percent →
        out.length = Nat.floor (percent * (distinct_pair_count edges : ℚ))) ∧
      (percent = 1 → out.length = distinct_pair_count edges) := by
  have hlen : edges.length = num :=
    (random_edges_spec n dist_funct num draws [] edges (Nat.zero_le _) hcand).1
  have hsize : edges.length < 2 ^ 53 := by rw [hlen]; exact hnum53
  have hout := shortest_percent_length sort_index sort_distance hsi hsd percent hp1 edges hsize
  refine ⟨_, find_percent_eq sort_index sort_distance n dist_funct percent num draws edges
    hcand, hout, ?_, ?_⟩
  · intro hexact
    rw [hout, hexact, mul_comm]
  · intro h1
    have hc : distinct_pair_count edges < 2 ^ 53 :=
      lt_of_le_of_lt (distinct_pair_count_le edges) hsize
    rw [hout, h1, mul_one, round_to_double_natCast _ hc, Nat.floor_natCast]

/-- Witness of C5, amended: four samples, `num = 3`, `percent = 1/2` and ten random values
that give the candidates `(0,1)`, `(2,3)`, `(1,0)`. -/
theorem sampler_output_size_witness :
    IsStdSort order_by_index (std_sort order_by_index) ∧
    IsStdSort order_by_distance (std_sort order_by_distance) ∧
    1 < 4 ∧ 0 < 3 ∧ 3 < 2 ^ 53 ∧ (0 : ℚ) < 1 / 2 ∧ (1 / 2 : ℚ) ≤ 1 ∧
    random_edges 4 (fun a b => ((a + b : Nat) : Int)) 3 [0, 1, 1, 1, 2, 3, 1, 0, 3, 0] [] =
      some [⟨0, 1, 1⟩, ⟨2, 3, 5⟩, ⟨1, 0, 1⟩] ∧
    (∃ out, find_percent_shortest_edges_randomly (std_sort order_by_index)
        (std_sort order_by_distance) 4 (fun a b => ((a + b : Nat) : Int)) (1 / 2) 3
        [0, 1, 1, 1, 2, 3, 1, 0, 3, 0] = some out ∧
      out.length = Nat.floor (round_to_double
        ((distinct_pair_count [⟨0, 1, 1⟩, ⟨2, 3, 5⟩, ⟨1, 0, 1⟩] : ℚ) * (1 / 2))) ∧
      (round_to_double
          ((distinct_pair_count [⟨0, 1, 1⟩, ⟨2, 3, 5⟩, ⟨1, 0, 1⟩] : ℚ) * (1 / 2)) =
          (distinct_pair_count [⟨0, 1, 1⟩, ⟨2, 3, 5⟩, ⟨1, 0, 1⟩] : ℚ) * (1 / 2) →
        out.length = Nat.floor ((1 / 2 : ℚ) *
          (distinct_pair_count [⟨0, 1, 1⟩, ⟨2, 3, 5⟩, ⟨1, 0, 1⟩] : ℚ))) ∧
      ((1 / 2 : ℚ) = 1 →
        out.length = distinct_pair_count [⟨0, 1, 1⟩, ⟨2, 3, 5⟩, ⟨1, 0, 1⟩])) :=
  ⟨std_sort_index, std_sort_distance, by decide, by decide, by norm_num, by norm_num,
   by norm_num, by decide,
   sampler_output_size (std_sort order_by_index) (std_sort order_by_distance)
     std_sort_index std_sort_distance 4 (fun a b => ((a + b : Nat) : Int)) (1 / 2) 3
     [0, 1, 1, 1, 2, 3, 1, 0, 3, 0] [⟨0, 1, 1⟩, ⟨2, 3, 5⟩, ⟨1, 0, 1⟩]
     (by decide) (by decide) (by norm_num) (by norm_num) (by norm_num) (by decide)⟩


/-! ### The writes of the scatter fill -/

theorem perm_range_of_nodup (l : List Nat) (n : Nat) (hnd : l.Nodup)
    (hlt : ∀ x ∈ l, x < n) (hlen : l.length = n) : l.Perm (List.range n) := by
  apply List.perm_of_nodup_nodup_toFinset_eq hnd (List.nodup_range n)
  apply Finset.eq_of_subset_of_card_le
  · intro x hx
    rw [List.mem_toFinset] at hx
    rw [List.mem_toFinset, List.mem_range]
    exact hlt x hx
  · rw [List.toFinset_card_of_nodup hnd, List.toFinset_card_of_nodup (List.nodup_range n),
      List.length_range, hlen]

theorem block_disjoint (nn : List Nat) (v a pos pos2 : Nat) (hva : v ≠ a)
    (h1 : block_offset nn v ≤ pos) (h2 : pos < block_offset nn (v + 1))
    (h3 : block_offset nn a ≤ pos2) (h4 : pos2 < block_offset nn (a + 1)) : pos ≠ pos2 := by
  rcases Nat.lt_or_gt_of_ne hva with h | h
  · have := block_offset_mono nn (show v + 1 ≤ a by omega)
    omega
  · have := block_offset_mono nn (show a + 1 ≤ v by omega)
    omega

/-- The writes of the rest of the fill loop, once the edges `done` are written: each write
through the cursor of `v` lands in the block of `v`, after the slots that the edges done
have filled, and no slot is written twice. -/
theorem fill_writes_spec {R : Type} (w : sample_pair → R) (nn : List Nat) (L : Nat)
    (edges : List sample_pair)
    (hnn : ∀ v, nn.getD v 0 = endpoint_count edges v)
    (hidx : ∀ x ∈ edges, x.index1 < nn.length ∧ x.index2 < nn.length)
    (hL : block_offset nn nn.length ≤ L)
    (rest done : List sample_pair) (hsplit : edges = done ++ rest)
    (st : List (neighbor R) × List Nat)
    (hinv : FillInv (block_offset nn) nn.length L (fun v => scan_records w v done) st) :
    (fill_writes w rest st).length = 2 * rest.length ∧
    (∀ x ∈ fill_writes w rest st, x.1 < nn.length ∧
      block_offset nn x.1 + endpoint_count done x.1 ≤ x.2 ∧
      x.2 < block_offset nn (x.1 + 1)) ∧
    ((fill_writes w rest st).map Prod.snd).Nodup := by
  induction rest generalizing done st with
  | nil => simp [fill_writes]
  | cons e es ih =>
    have hinv2 := fill_step_inv w nn L edges done e es hsplit hnn hidx hL st hinv
    obtain ⟨ih1, ih2, ih3⟩ := ih (done ++ [e]) (by rw [hsplit]; simp) (fill_step w st e) hinv2
    have he : e ∈ edges := by rw [hsplit]; simp
    obtain ⟨ha, hb⟩ := hidx e he
    obtain ⟨_, hN, hcur⟩ := hinv
    have hcount : ∀ v, endpoint_count (done ++ [e]) v ≤ endpoint_count edges v := by
      intro v
      have : edges = (done ++ [e]) ++ es := by rw [hsplit]; simp
      rw [this, endpoint_count_append (done ++ [e])]; omega
    have hsnoc : ∀ v, endpoint_count (done ++ [e]) v = endpoint_count done v +
        ((if e.index1 = v then 1 else 0) + (if e.index2 = v then 1 else 0)) := by
      intro v
      rw [endpoint_count_append, endpoint_count_cons]
      simp [endpoint_count]
    have hsucc : ∀ v, block_offset nn (v + 1) = block_offset nn v + endpoint_count edges v := by
      intro v; rw [block_offset_succ, hnn]
    -- the two offsets written
    have hp1 : st.2.getD e.index1 0 = block_offset nn e.index1 + endpoint_count done e.index1 := by
      rw [(hcur e.index1 ha).1, scan_records_length]
    have hp2 : (cursor_write st e.index1 ⟨e.index2, w e⟩).2.getD e.index2 0 =
        block_offset nn e.index2 + endpoint_count done e.index2 +
          (if e.index1 = e.index2 then 1 else 0) := by
      show (st.2.set e.index1 (st.2.getD e.index1 0 + 1)).getD e.index2 0 = _
      rw [getD_set_eq _ _ _ _ _ (by omega)]
      by_cases h : e.index2 = e.index1
      · rw [if_pos h, if_pos h.symm, h, hp1]
      · rw [if_neg h, if_neg (fun h2 => h h2.symm), (hcur e.index2 hb).1, scan_records_length]
        omega
    generalize hq1 : st.2.getD e.index1 0 = q1 at hp1
    generalize hq2 : (cursor_write st e.index1 ⟨e.index2, w e⟩).2.getD e.index2 0 = q2 at hp2
    have hwr : fill_writes w (e :: es) st =
        (e.index1, q1) :: (e.index2, q2) :: fill_writes w es (fill_step w st e) := by
      rw [fill_writes, fill_step_writes, hq1, hq2]; rfl
    rw [hwr]
    have hc1 := hcount e.index1
    have hs1 := hsnoc e.index1
    have hc2 := hcount e.index2
    have hs2 := hsnoc e.index2
    simp only [if_true] at hs1 hs2
    have hu1 := hsucc e.index1
    have hu2 := hsucc e.index2
    have hb1 : block_offset nn e.index1 + endpoint_count done e.index1 ≤ q1 ∧
        q1 < block_offset nn (e.index1 + 1) := by
      constructor
      · omega
      · by_cases h : e.index2 = e.index1
        · rw [if_pos h] at hs1; omega
        · rw [if_neg h] at hs1; omega
    have hb2 : block_offset nn e.index2 + endpoint_count done e.index2 ≤ q2 ∧
        q2 < block_offset nn (e.index2 + 1) := by
      by_cases h : e.index1 = e.index2
      · rw [if_pos h] at hs2 hp2; omega
      · rw [if_neg h] at hs2 hp2; omega
    refine ⟨?_, ?_, ?_⟩
    · simp only [List.length_cons, ih1]; omega
    · intro x hx
      rcases List.mem_cons.1 hx with h | h
      · subst h; exact ⟨ha, hb1.1, hb1.2⟩
      · rcases List.mem_cons.1 h with h | h
        · subst h; exact ⟨hb, hb2.1, hb2.2⟩
        · obtain ⟨h1, h2, h3⟩ := ih2 x h
          have := hsnoc x.1
          exact ⟨h1, by omega, h3⟩
    · simp only [List.map_cons]
      have hrest : ∀ (v q : Nat), v < nn.length →
          block_offset nn v ≤ q → q < block_offset nn v + endpoint_count (done ++ [e]) v →
          q ∉ (fill_writes w es (fill_step w st e)).map Prod.snd := by
        intro v q _ hq1 hq2 hmem
        obtain ⟨x, hx, hxq⟩ := List.mem_map.1 hmem
        obtain ⟨h1, h2, h3⟩ := ih2 x hx
        by_cases hxv : x.1 = v
        · rw [hxv] at h2; omega
        · have hsv := hsucc v
          have hcv := hcount v
          exact block_disjoint nn x.1 v x.2 q hxv (by omega) h3 hq1 (by omega) hxq
      refine List.nodup_cons.2 ⟨?_, List.nodup_cons.2 ⟨?_, ih3⟩⟩
      · intro hmem
        rcases List.mem_cons.1 hmem with h | h
        · by_cases hab : e.index1 = e.index2
          · rw [if_pos hab] at hp2
            rw [hab] at hp1
            omega
          · exact block_disjoint nn e.index1 e.index2 q1 q2 hab (by omega) hb1.2 (by omega)
              hb2.2 h
        · refine hrest e.index1 q1 ha (by omega) ?_ h
          by_cases h2 : e.index2 = e.index1
          · rw [if_pos h2] at hs1; omega
          · rw [if_neg h2] at hs1; omega
      · refine hrest e.index2 q2 hb (by omega) ?_
        by_cases h2 : e.index1 = e.index2
        · rw [if_pos h2] at hs2 hp2; omega
        · rw [if_neg h2] at hs2 hp2; omega

theorem build_start_inv {R : Type} [Zero R] (w : sample_pair → R) (edges : List sample_pair) :
    FillInv (block_offset (count_neighbors edges)) (count_neighbors edges).length
      (edges.length * 2) (fun v => scan_records w v []) (build_start edges) := by
  refine ⟨by simp [build_start], make_blocks_length _, ?_⟩
  intro v hv
  refine ⟨?_, ?_⟩
  · show (make_blocks (count_neighbors edges)).getD v 0 = _
    rw [make_blocks_getD _ _ (by omega)]; simp [scan_records]
  · intro t ht; simp [scan_records] at ht


/-- C20: in `undirected_adjacency_list::build`, the block offsets are non-decreasing with
`blocks[0]` the start of `data` and `blocks[size()]` its end, `data.size()` being
`2 * edges.size()`; every write through the cursor of node `i` lands in
`[blocks[i], blocks[i+1])`; after the last edge the cursor of every node `i` is
`blocks[i+1]`; and the offsets written are the offsets of `data`, each one once. -/
theorem scatter_fill_in_blocks {R : Type} [Zero R] (edges : List sample_pair)
    (w : sample_pair → R) :
    (undirected_adjacency_list.build edges w).blocks.length =
      (undirected_adjacency_list.build edges w).size + 1 ∧
    (undirected_adjacency_list.build edges w).blocks.getD 0 0 = 0 ∧
    (undirected_adjacency_list.build edges w).blocks.getD
      (undirected_adjacency_list.build edges w).size 0 =
      (undirected_adjacency_list.build edges w).data.length ∧
    (undirected_adjacency_list.build edges w).data.length = 2 * edges.length ∧
    (∀ i, i < (undirected_adjacency_list.build edges w).size →
      (undirected_adjacency_list.build edges w).begin i ≤
        (undirected_adjacency_list.build edges w).end_ i) ∧
    (∀ x ∈ build_writes edges w, x.1 < (undirected_adjacency_list.build edges w).size ∧
      (undirected_adjacency_list.build edges w).begin x.1 ≤ x.2 ∧
      x.2 < (undirected_adjacency_list.build edges w).end_ x.1) ∧
    (∀ i, i < (undirected_adjacency_list.build edges w).size →
      (build_cursors edges w).getD i 0 = (undirected_adjacency_list.build edges w).end_ i) ∧
    ((build_writes edges w).map Prod.snd).Perm
      (List.range (undirected_adjacency_list.build edges w).data.length) := by
  have hL : block_offset (count_neighbors edges) (count_neighbors edges).length ≤
      edges.length * 2 := by
    rw [block_offset_length, count_neighbors_sum]; omega
  have hfinal := fill_loop_inv w (count_neighbors edges) (edges.length * 2) edges
    (count_neighbors_getD edges) (index_lt_count_neighbors_length edges) hL
    edges [] rfl (build_start edges) (build_start_inv w edges)
  obtain ⟨hdata, _, hcur⟩ := hfinal
  obtain ⟨hlen, hbounds, hnodup⟩ := fill_writes_spec w (count_neighbors edges)
    (edges.length * 2) edges (count_neighbors_getD edges)
    (index_lt_count_neighbors_length edges) hL edges [] rfl (build_start edges)
    (build_start_inv w edges)
  have hbeg : ∀ i, i ≤ (count_neighbors edges).length →
      (undirected_adjacency_list.build edges w).blocks.getD i 0 =
        block_offset (count_neighbors edges) i := by
    intro i hi
    exact make_blocks_getD _ i hi
  have hdl : (undirected_adjacency_list.build edges w).data.length = edges.length * 2 := hdata
  refine ⟨make_blocks_length _, ?_, ?_, by rw [hdl]; omega, ?_, ?_, ?_, ?_⟩
  · rw [hbeg 0 (Nat.zero_le _)]; simp [block_offset]
  · rw [hdl]
    show (undirected_adjacency_list.build edges w).blocks.getD (count_neighbors edges).length 0
      = _
    rw [hbeg _ (le_refl _), block_offset_length, count_neighbors_sum]; omega
  · intro i hi
    have hi2 : i < (count_neighbors edges).length := hi
    show (undirected_adjacency_list.build edges w).blocks.getD i 0 ≤
      (undirected_adjacency_list.build edges w).blocks.getD (i + 1) 0
    rw [hbeg i (by omega), hbeg (i + 1) (by omega)]
    exact block_offset_mono _ (by omega)
  · intro x hx
    obtain ⟨h1, h2, h3⟩ := hbounds x hx
    refine ⟨h1, ?_, ?_⟩
    · show (undirected_adjacency_list.build edges w).blocks.getD x.1 0 ≤ x.2
      rw [hbeg x.1 (by omega)]; omega
    · show x.2 < (undirected_adjacency_list.build edges w).blocks.getD (x.1 + 1) 0
      rw [hbeg (x.1 + 1) (by omega)]; exact h3
  · intro i hi
    have hi2 : i < (count_neighbors edges).length := hi
    show (edges.foldl (fill_step w) (build_start edges)).2.getD i 0 =
      (undirected_adjacency_list.build edges w).blocks.getD (i + 1) 0
    rw [(hcur i hi2).1, hbeg (i + 1) (by omega), scan_records_length, block_offset_succ,
      count_neighbors_getD]
  · apply perm_range_of_nodup _ _ hnodup
    · intro q hq
      obtain ⟨x, hx, rfl⟩ := List.mem_map.1 hq
      obtain ⟨h1, _, h3⟩ := hbounds x hx
      have := block_offset_mono (count_neighbors edges)
        (show x.1 + 1 ≤ (count_neighbors edges).length by omega)
      rw [hdl]; omega
    · rw [List.length_map, hdl]
      exact hlen.trans (by omega)


/-! ## The claims on the regularization matrix, continued -/

theorem sample_at_set_ne {R : Type} [Zero R] (samples : List (List R)) (i a : Nat)
    (v : List R) (d : Nat) (h : a ≠ i) :
    sample_at (samples.set i v) a d = sample_at samples a d := by
  unfold sample_at
  congr 1
  rw [List.getD_eq_getElem?_getD, List.getD_eq_getElem?_getD, List.getElem?_set_ne (Ne.symm h)]

theorem sample_dims_set {R : Type} (samples : List (List R)) (i : Nat) (v : List R)
    (h : 0 < i) : sample_dims (samples.set i v) = sample_dims samples := by
  unfold sample_dims
  rw [List.getD_eq_getElem?_getD, List.getD_eq_getElem?_getD,
    List.getElem?_set_ne (by omega)]

/-- C14: for every sample list, edge list and weight function, `reg_mat[d][j]` is the sum
over the input edges `e = {a, b}` of
`weight_funct(e) * (x_a[d] - x_b[d]) * (x_a[j] - x_b[j])`; for 1-dimensional samples and
the single edge `{0,1}` of weight `w`, `reg_mat = [[w * (x0 - x1)^2]]`, and `x0 = [2]`,
`x1 = [5]`, `w = 1` give `[[9]]`. -/
theorem reg_mat_edge_sum {R : Type} [CommRing R] :
    (∀ (samples : List (List R)) (edges : List sample_pair) (w : sample_pair → R)
      (d j : Fin (sample_dims samples)),
      linear_manifold_regularizer.build samples edges w d j =
        (edges.map (fun e => w e *
          (sample_at samples e.index1 d - sample_at samples e.index2 d) *
          (sample_at samples e.index1 j - sample_at samples e.index2 j))).sum) ∧
    (∀ (x0 x1 w : R) (dist : Int),
      linear_manifold_regularizer.build [[x0], [x1]] [⟨0, 1, dist⟩] (fun _ => w)
        ⟨0, Nat.zero_lt_one⟩ ⟨0, Nat.zero_lt_one⟩ = w * (x0 - x1) ^ 2) ∧
    linear_manifold_regularizer.build [[(2 : Int)], [5]] [⟨0, 1, 0⟩] (fun _ => 1)
      ⟨0, Nat.zero_lt_one⟩ ⟨0, Nat.zero_lt_one⟩ = 9 := by
  refine ⟨?_, ?_, by decide⟩
  · intro samples edges w d j
    exact build_entries_eq_edge_sum samples edges w d j d.isLt j.isLt
  · intro x0 x1 w dist
    show make_mr_entries [[x0], [x1]] _ 0 0 = _
    rw [build_entries_eq_edge_sum [[x0], [x1]] _ _ 0 0 Nat.zero_lt_one Nat.zero_lt_one]
    simp [edge_term, sample_at]
    ring

/-- C16: if node `i > 0` of the sample list is incident to no edge of the edge list,
replacing `samples[i]` by another vector of the same dimension leaves the dimension and
every entry of the `reg_mat` produced by `linear_manifold_regularizer::build` unchanged. -/
theorem isolated_node_frame {R : Type} [CommRing R] (samples : List (List R))
    (edges : List sample_pair) (w : sample_pair → R) (i : Nat) (v : List R)
    (_hi : i < samples.length) (hpos : 0 < i)
    (_hv : v.length = (samples.getD i []).length)
    (hiso : ∀ e ∈ edges, e.index1 ≠ i ∧ e.index2 ≠ i) :
    sample_dims (samples.set i v) = sample_dims samples ∧
    ∀ (d j : Fin (sample_dims samples)) (d2 j2 : Fin (sample_dims (samples.set i v))),
      d2.val = d.val → j2.val = j.val →
      linear_manifold_regularizer.build (samples.set i v) edges w d2 j2 =
        linear_manifold_regularizer.build samples edges w d j := by
  refine ⟨sample_dims_set samples i v hpos, ?_⟩
  intro d j d2 j2 hd hj
  show make_mr_entries (samples.set i v) (undirected_adjacency_list.build edges w) d2 j2 =
    make_mr_entries samples (undirected_adjacency_list.build edges w) d j
  rw [build_entries_eq_edge_sum _ edges w d2 j2 d2.isLt j2.isLt,
    build_entries_eq_edge_sum samples edges w d j d.isLt j.isLt, hd, hj]
  congr 1
  apply List.map_congr_left
  intro e he
  obtain ⟨h1, h2⟩ := hiso e he
  simp only [edge_term, sample_at_set_ne samples i _ v _ h1, sample_at_set_ne samples i _ v _ h2]

/-- Witness of C16: three 1-dimensional samples, one edge `{0,1}`, and sample 2
replaced. -/
theorem isolated_node_frame_witness :
    2 < [[(2 : Int)], [5], [7]].length ∧ 0 < 2 ∧
    [(11 : Int)].length = ([[(2 : Int)], [5], [7]].getD 2 []).length ∧
    (∀ e ∈ ([⟨0, 1, 0⟩] : List sample_pair), e.index1 ≠ 2 ∧ e.index2 ≠ 2) ∧
    linear_manifold_regularizer.build ([[(2 : Int)], [5], [7]].set 2 [11]) [⟨0, 1, 0⟩]
        (fun _ => 1) ⟨0, Nat.zero_lt_one⟩ ⟨0, Nat.zero_lt_one⟩ =
      linear_manifold_regularizer.build [[(2 : Int)], [5], [7]] [⟨0, 1, 0⟩]
        (fun _ => 1) ⟨0, Nat.zero_lt_one⟩ ⟨0, Nat.zero_lt_one⟩ :=
  ⟨by decide, by decide, by decide, by decide,
   (isolated_node_frame [[(2 : Int)], [5], [7]] [⟨0, 1, 0⟩] (fun _ => 1) 2 [11]
     (by decide) (by decide) (by decide) (by decide)).2
     ⟨0, Nat.zero_lt_one⟩ ⟨0, Nat.zero_lt_one⟩ ⟨0, Nat.zero_lt_one⟩ ⟨0, Nat.zero_lt_one⟩
     rfl rfl⟩


open Matrix

/-- C10, as stated, fails: for the samples `(0,0), (1,1), (1,0), (0,1)` and the edges
`{0,1}`, `{0,2}`, `{0,3}` of weights 2, 1, 2, `reg_mat` is `[[3,2],[2,4]]`; with
strength 1 the matrix `A = I + reg_mat = [[4,2],[2,5]]` has the Cholesky factor
`C = [[2,0],[1,2]]`, whose inverse is `T = [[1/2,0],[-1/4,1/2]]`, and `T * T^T` is not
the inverse of `A`. -/
theorem transformation_round_trip_counterexample :
    (∀ d j : Fin 2, linear_manifold_regularizer.build
        [[(0 : ℚ), 0], [1, 1], [1, 0], [0, 1]] [⟨0, 1, 2⟩, ⟨0, 2, 1⟩, ⟨0, 3, 2⟩]
        (fun e => (e.distance : ℚ)) d j = (!![3, 2; 2, 4] : Matrix (Fin 2) (Fin 2) ℚ) d j) ∧
    (!![2, 0; 1, 2] : Matrix (Fin 2) (Fin 2) ℚ) * (!![2, 0; 1, 2])ᵀ =
      1 + (1 : ℚ) • !![3, 2; 2, 4] ∧
    (!![1/2, 0; -1/4, 1/2] : Matrix (Fin 2) (Fin 2) ℚ) * !![2, 0; 1, 2] = 1 ∧
    linear_manifold_regularizer.get_transformation_matrix
        (fun _ => !![2, 0; 1, 2]) (fun _ => !![1/2, 0; -1/4, 1/2])
        (!![3, 2; 2, 4] : Matrix (Fin 2) (Fin 2) ℚ) 1 *
      (linear_manifold_regularizer.get_transformation_matrix
        (fun _ => !![2, 0; 1, 2]) (fun _ => !![1/2, 0; -1/4, 1/2])
        (!![3, 2; 2, 4] : Matrix (Fin 2) (Fin 2) ℚ) 1)ᵀ ≠
      (1 + (1 : ℚ) • !![3, 2; 2, 4])⁻¹ := by
  refine ⟨?_, ?_, ?_, ?_⟩
  · intro d j
    have hd : (d : Nat) < sample_dims [[(0 : ℚ), 0], [1, 1], [1, 0], [0, 1]] := d.isLt
    have hj : (j : Nat) < sample_dims [[(0 : ℚ), 0], [1, 1], [1, 0], [0, 1]] := j.isLt
    show make_mr_entries _ _ d j = _
    rw [build_entries_eq_edge_sum _ _ _ _ _ hd hj]
    fin_cases d <;> fin_cases j <;> simp [edge_term, sample_at] <;> norm_num
  · ext i j
    fin_cases i <;> fin_cases j <;>
        simp only [Matrix.mul_apply, Fin.sum_univ_two, Matrix.transpose_apply, Matrix.add_apply,
          Matrix.smul_apply, Matrix.one_apply] <;> simp <;> norm_num
  · ext i j
    fin_cases i <;> fin_cases j <;>
        simp only [Matrix.mul_apply, Fin.sum_univ_two, Matrix.transpose_apply, Matrix.add_apply,
          Matrix.smul_apply, Matrix.one_apply] <;> norm_num
  · intro h
    have hA : (1 + (1 : ℚ) • !![3, 2; 2, 4] : Matrix (Fin 2) (Fin 2) ℚ) *
        !![5/16, -1/8; -1/8, 1/4] = 1 := by
      ext i j
      fin_cases i <;> fin_cases j <;>
        simp only [Matrix.mul_apply, Fin.sum_univ_two, Matrix.transpose_apply, Matrix.add_apply,
          Matrix.smul_apply, Matrix.one_apply] <;> simp <;> norm_num
    rw [Matrix.inv_eq_right_inv hA] at h
    have h00 := congrFun (congrFun h 0) 0
    simp only [linear_manifold_regularizer.get_transformation_matrix, Matrix.mul_apply,
      Fin.sum_univ_two, Matrix.transpose_apply] at h00
    simp at h00
    norm_num at h00

/-- C10, amended: when `chol(A)` is a factor `C` with `C * C^T = A` and
`inv_lower_triangular(C)` is the inverse of `C`, where `A = I + strength * reg_mat`, the
matrix `T = get_transformation_matrix(strength)` satisfies `T^T * T = inv(A)`. -/
theorem transformation_round_trip {R : Type} [CommRing R] {n : Nat}
    (chol inv_lower_triangular : Matrix (Fin n) (Fin n) R → Matrix (Fin n) (Fin n) R)
    (reg_mat : Matrix (Fin n) (Fin n) R) (strength : R)
    (hchol : chol (1 + strength • reg_mat) * (chol (1 + strength • reg_mat))ᵀ =
      1 + strength • reg_mat)
    (hinv : inv_lower_triangular (chol (1 + strength • reg_mat)) *
      chol (1 + strength • reg_mat) = 1) :
    (linear_manifold_regularizer.get_transformation_matrix chol inv_lower_triangular
        reg_mat strength)ᵀ *
      linear_manifold_regularizer.get_transformation_matrix chol inv_lower_triangular
        reg_mat strength = (1 + strength • reg_mat)⁻¹ := by
  unfold linear_manifold_regularizer.get_transformation_matrix
  set A := 1 + strength • reg_mat with hA
  set C := chol A with hC
  set T := inv_lower_triangular C with hT
  have hCT : C * T = 1 := (Matrix.mul_eq_one_comm).1 hinv
  have hTC : Tᵀ * Cᵀ = 1 := by
    rw [← Matrix.transpose_mul, hCT, Matrix.transpose_one]
  have hCTt : Cᵀ * Tᵀ = 1 := (Matrix.mul_eq_one_comm).1 hTC
  symm
  apply Matrix.inv_eq_right_inv
  calc A * (Tᵀ * T) = C * (Cᵀ * Tᵀ) * T := by
        rw [← hchol]; simp only [Matrix.mul_assoc]
    _ = 1 := by rw [hCTt, Matrix.mul_one, hCT]

/-- Witness of C10, amended: `reg_mat = [[3,2],[2,4]]` and strength 1. -/
theorem transformation_round_trip_witness :
    (linear_manifold_regularizer.get_transformation_matrix
        (fun _ => !![2, 0; 1, 2]) (fun _ => !![1/2, 0; -1/4, 1/2])
        (!![3, 2; 2, 4] : Matrix (Fin 2) (Fin 2) ℚ) 1)ᵀ *
      linear_manifold_regularizer.get_transformation_matrix
        (fun _ => !![2, 0; 1, 2]) (fun _ => !![1/2, 0; -1/4, 1/2])
        (!![3, 2; 2, 4] : Matrix (Fin 2) (Fin 2) ℚ) 1 =
      (1 + (1 : ℚ) • !![3, 2; 2, 4])⁻¹ :=
  transformation_round_trip (fun _ => !![2, 0; 1, 2]) (fun _ => !![1/2, 0; -1/4, 1/2])
    (!![3, 2; 2, 4] : Matrix (Fin 2) (Fin 2) ℚ) 1
    (by
      ext i j
      fin_cases i <;> fin_cases j <;>
        simp only [Matrix.mul_apply, Fin.sum_univ_two, Matrix.transpose_apply, Matrix.add_apply,
          Matrix.smul_apply, Matrix.one_apply] <;> simp <;> norm_num)
    (by
      ext i j
      fin_cases i <;> fin_cases j <;>
        simp only [Matrix.mul_apply, Fin.sum_univ_two, Matrix.transpose_apply, Matrix.add_apply,
          Matrix.smul_apply, Matrix.one_apply] <;> norm_num)


/-! ### Positivity of the regularization matrix -/

/-- The quadratic form of a matrix given as a sum of weighted outer products. -/
theorem quadratic_form_edge_sum {R : Type} [CommRing R] {n : Nat} {ι : Type}
    (l : List ι) (w : ι → R) (f : ι → Fin n → R) (v : Fin n → R) :
    ∑ d : Fin n, ∑ j : Fin n, v d * (l.map (fun e => w e * f e d * f e j)).sum * v j =
      (l.map (fun e => w e * (∑ d : Fin n, v d * f e d) ^ 2)).sum := by
  induction l with
  | nil => simp
  | cons e es ih =>
    simp only [List.map_cons, List.sum_cons, mul_add, add_mul, Finset.sum_add_distrib]
    rw [ih]
    congr 1
    rw [pow_two, Finset.sum_mul_sum, Finset.mul_sum]
    apply Finset.sum_congr rfl
    intro d _
    rw [Finset.mul_sum]
    apply Finset.sum_congr rfl
    intro j _
    ring

theorem build_quadratic_form {R : Type} [CommRing R] (samples : List (List R))
    (edges : List sample_pair) (w : sample_pair → R) (v : Fin (sample_dims samples) → R) :
    v ⬝ᵥ (linear_manifold_regularizer.build samples edges w *ᵥ v) =
      (edges.map (fun e => w e * (∑ d : Fin (sample_dims samples),
        v d * (sample_at samples e.index1 d - sample_at samples e.index2 d)) ^ 2)).sum := by
  rw [← quadratic_form_edge_sum edges w
    (fun e d => sample_at samples e.index1 d - sample_at samples e.index2 d) v]
  unfold Matrix.dotProduct Matrix.mulVec Matrix.dotProduct
  apply Finset.sum_congr rfl
  intro d _
  rw [Finset.mul_sum]
  apply Finset.sum_congr rfl
  intro j _
  have h : linear_manifold_regularizer.build samples edges w d j =
      (edges.map (edge_term samples w d j)).sum :=
    build_entries_eq_edge_sum samples edges w d j d.isLt j.isLt
  show v d * (linear_manifold_regularizer.build samples edges w d j * v j) = _
  rw [h]
  unfold edge_term
  ring

theorem build_quadratic_form_nonneg {R : Type} [LinearOrderedCommRing R]
    (samples : List (List R)) (edges : List sample_pair) (w : sample_pair → R)
    (hw : ∀ e ∈ edges, 0 ≤ w e) (v : Fin (sample_dims samples) → R) :
    0 ≤ v ⬝ᵥ (linear_manifold_regularizer.build samples edges w *ᵥ v) := by
  rw [build_quadratic_form]
  apply List.sum_nonneg
  intro x hx
  obtain ⟨e, he, rfl⟩ := List.mem_map.1 hx
  exact mul_nonneg (hw e he) (sq_nonneg _)

theorem build_transpose {R : Type} [CommRing R] (samples : List (List R))
    (edges : List sample_pair) (w : sample_pair → R) :
    (linear_manifold_regularizer.build samples edges w)ᵀ =
      linear_manifold_regularizer.build samples edges w := by
  ext d j
  rw [Matrix.transpose_apply]
  show make_mr_entries samples (undirected_adjacency_list.build edges w) j d =
    make_mr_entries samples (undirected_adjacency_list.build edges w) d j
  rw [build_entries_eq_edge_sum samples edges w d j d.isLt j.isLt,
    build_entries_eq_edge_sum samples edges w j d j.isLt d.isLt]
  congr 1
  apply List.map_congr_left
  intro e _
  simp only [edge_term]
  ring

/-- C18: for every sample list, every edge list and every weight function with
`weight_funct(e) >= 0`, `v^T * reg_mat * v >= 0` for every vector `v`; hence for every
strength `>= 0` the matrix `I + strength * reg_mat` passed to `chol` is symmetric and
positive-definite. -/
theorem reg_mat_positive_semidefinite {R : Type} [LinearOrderedCommRing R]
    (samples : List (List R)) (edges : List sample_pair) (w : sample_pair → R)
    (hw : ∀ e ∈ edges, 0 ≤ w e) :
    (∀ v : Fin (sample_dims samples) → R,
      0 ≤ v ⬝ᵥ (linear_manifold_regularizer.build samples edges w *ᵥ v)) ∧
    (∀ s : R, 0 ≤ s →
      (1 + s • linear_manifold_regularizer.build samples edges w)ᵀ =
        1 + s • linear_manifold_regularizer.build samples edges w ∧
      ∀ v : Fin (sample_dims samples) → R, v ≠ 0 →
        0 < v ⬝ᵥ ((1 + s • linear_manifold_regularizer.build samples edges w) *ᵥ v)) := by
  refine ⟨build_quadratic_form_nonneg samples edges w hw, ?_⟩
  intro s hs
  constructor
  · rw [Matrix.transpose_add, Matrix.transpose_one, Matrix.transpose_smul, build_transpose]
  · intro v hv
    rw [Matrix.add_mulVec, Matrix.one_mulVec, Matrix.dotProduct_add, Matrix.smul_mulVec_assoc,
      Matrix.dotProduct_smul, smul_eq_mul]
    have h1 : 0 < v ⬝ᵥ v := by
      have hnn : 0 ≤ v ⬝ᵥ v := Finset.sum_nonneg (fun i _ => mul_self_nonneg (v i))
      rcases lt_or_eq_of_le hnn with h | h
      · exact h
      · exact absurd (Matrix.dotProduct_self_eq_zero.1 h.symm) hv
    have h2 := build_quadratic_form_nonneg samples edges w hw v
    have h3 := mul_nonneg hs h2
    linarith

/-- Witness of C18: the samples `[2]` and `[5]` joined by one edge of weight 1. -/
theorem reg_mat_positive_semidefinite_witness :
    (∀ e ∈ ([⟨0, 1, 0⟩] : List sample_pair), (0 : Int) ≤ (fun _ => 1) e) ∧
    ∀ v : Fin (sample_dims [[(2 : Int)], [5]]) → Int,
      0 ≤ v ⬝ᵥ (linear_manifold_regularizer.build [[(2 : Int)], [5]] [⟨0, 1, 0⟩]
        (fun _ => 1) *ᵥ v) :=
  ⟨by decide,
   (reg_mat_positive_semidefinite [[(2 : Int)], [5]] [⟨0, 1, 0⟩] (fun _ => 1)
     (by decide)).1⟩


/-! ### The transformation matrix at strength 0 -/

/-- The Cholesky factor of the identity is the identity: a lower-triangular matrix `C`
with positive diagonal and `C * C^T = I` is `I`. -/
theorem cholesky_factor_of_one {R : Type} [LinearOrderedCommRing R] {n : Nat}
    (C : Matrix (Fin n) (Fin n) R)
    (hlow : ∀ i j : Fin n, i < j → C i j = 0)
    (hpos : ∀ i : Fin n, 0 < C i i)
    (hC : C * Cᵀ = 1) : C = 1 := by
  have key : ∀ m : Nat, ∀ j : Fin n, j.val = m → ∀ i : Fin n, C i j = (1 : Matrix _ _ R) i j := by
    intro m
    induction m using Nat.strong_induction_on with
    | _ m ih =>
      intro j hj i
      -- the row `j` of `C` vanishes off the diagonal
      have hrow : ∀ k : Fin n, k ≠ j → C j k = 0 := by
        intro k hk
        rcases lt_or_gt_of_ne hk with h | h
        · have := ih k.val (by rw [← hj]; exact h) k rfl j
          rw [this, Matrix.one_apply_ne (Ne.symm hk)]
        · exact hlow j k h
      have hsum : ∀ i2 : Fin n, (C * Cᵀ) i2 j = C i2 j * C j j := by
        intro i2
        rw [Matrix.mul_apply, Finset.sum_eq_single j]
        · rw [Matrix.transpose_apply]
        · intro k _ hk
          rw [Matrix.transpose_apply, hrow k hk, mul_zero]
        · intro h; exact absurd (Finset.mem_univ j) h
      have hjj : C j j = 1 := by
        have h1 := hsum j
        rw [hC, Matrix.one_apply_eq] at h1
        have h2 : (C j j - 1) * (C j j + 1) = 0 := by
          have : (C j j - 1) * (C j j + 1) = C j j * C j j - 1 := by ring
          rw [this, ← h1]; ring
        rcases mul_eq_zero.1 h2 with h | h
        · exact sub_eq_zero.1 h
        · have := hpos j
          linarith
      by_cases hij : i = j
      · subst hij
        rw [hjj, Matrix.one_apply_eq]
      · rw [Matrix.one_apply_ne hij]
        rcases lt_or_gt_of_ne hij with h | h
        · exact hlow i j h
        · have h1 := hsum i
          rw [hC, Matrix.one_apply_ne hij, hjj, mul_one] at h1
          exact h1.symm
  ext i j
  exact key j.val j rfl i

/-- C11: when `chol` returns the lower-triangular factor with positive diagonal of its
argument and `inv_lower_triangular` the inverse of that factor, for every `reg_mat`,
`get_transformation_matrix(0)` is the `dims x dims` identity matrix. -/
theorem zero_strength_identity {R : Type} [LinearOrderedCommRing R] {n : Nat}
    (chol inv_lower_triangular : Matrix (Fin n) (Fin n) R → Matrix (Fin n) (Fin n) R)
    (reg_mat : Matrix (Fin n) (Fin n) R)
    (hlow : ∀ i j : Fin n, i < j → chol (1 + (0 : R) • reg_mat) i j = 0)
    (hpos : ∀ i : Fin n, 0 < chol (1 + (0 : R) • reg_mat) i i)
    (hchol : chol (1 + (0 : R) • reg_mat) * (chol (1 + (0 : R) • reg_mat))ᵀ =
      1 + (0 : R) • reg_mat)
    (hinv : inv_lower_triangular (chol (1 + (0 : R) • reg_mat)) *
      chol (1 + (0 : R) • reg_mat) = 1) :
    linear_manifold_regularizer.get_transformation_matrix chol inv_lower_triangular
      reg_mat 0 = 1 := by
  unfold linear_manifold_regularizer.get_transformation_matrix
  have hA : (1 : Matrix (Fin n) (Fin n) R) + (0 : R) • reg_mat = 1 := by
    rw [zero_smul, add_zero]
  have hC : chol (1 + (0 : R) • reg_mat) = 1 := by
    apply cholesky_factor_of_one _ hlow hpos
    rw [hchol, hA]
  rw [hC, Matrix.mul_one] at hinv
  rw [hC]
  exact hinv

/-- Witness of C11: the single edge `(0,1)` of weight 1 over the samples `[2]` and `[5]`
gives `reg_mat = [[9]]` and the `1 x 1` identity at strength 0. -/
theorem zero_strength_identity_witness :
    linear_manifold_regularizer.build [[(2 : Int)], [5]] [⟨0, 1, 0⟩] (fun _ => 1)
      ⟨0, Nat.zero_lt_one⟩ ⟨0, Nat.zero_lt_one⟩ = 9 ∧
    linear_manifold_regularizer.get_transformation_matrix (fun _ => 1) (fun _ => 1)
      (linear_manifold_regularizer.build [[(2 : Int)], [5]] [⟨0, 1, 0⟩] (fun _ => 1)) 0 = 1 :=
  ⟨by decide,
   zero_strength_identity (fun _ => 1) (fun _ => 1)
     (linear_manifold_regularizer.build [[(2 : Int)], [5]] [⟨0, 1, 0⟩] (fun _ => 1))
     (by
       intro i j h
       show (1 : Matrix _ _ Int) i j = 0
       exact Matrix.one_apply_ne (ne_of_lt h))
     (by
       intro i
       show (0 : Int) < (1 : Matrix _ _ Int) i i
       rw [Matrix.one_apply_eq]; exact zero_lt_one)
     (by
       show (1 : Matrix _ _ Int) * (1 : Matrix _ _ Int)ᵀ = _
       rw [zero_smul, add_zero, Matrix.transpose_one, Matrix.mul_one])
     (by
       show (1 : Matrix _ _ Int) * (1 : Matrix _ _ Int) = 1
       rw [Matrix.mul_one])⟩


end dlib
